import Mathlib

/-!
AVLTree: a verification development.

Shallow embedding of `BinaryTreeNode.hpp` and `AVLTree.cpp`.

* `ItemType` is `int`; items are only compared, never computed with, so they are
  modelled as `Int`.
* A `std::shared_ptr<BinaryTreeNode>` is a value of the type `BinaryTreeNode` below:
  either `null` (`nullptr`) or a node together with everything it owns.  Every node
  carries its address `addr`; pointer equality (`==` on `shared_ptr`) is equality of
  addresses.
* The non-owning `std::weak_ptr` `_parentNode` is the address of the parent
  (`none` when it was never set or is empty); `lock()` looks the address up among
  the nodes owned by the tree.
* `std::make_shared` returns the address `next` of the allocator and advances it,
  so a new node never has the address of an existing one.
* `_height` is an `int` and `_count` a `size_t`; they are modelled as `Int` and `Nat`
  (a tree of height `h` has at least `h + 1` nodes, and there are fewer than `2 ^ 64`
  nodes in memory, so neither wraps around).
-/

namespace AVL

/-- Owning pointer to a node (`std::shared_ptr<BinaryTreeNode>`): `null` is `nullptr`;
`node addr _item _leftNode _rightNode _parentNode _height` is the node stored at
address `addr` with the fields of the class `BinaryTreeNode`. -/
inductive BinaryTreeNode where
  | null : BinaryTreeNode
  | node (addr : Nat) (_item : Int) (_leftNode : BinaryTreeNode)
      (_rightNode : BinaryTreeNode) (_parentNode : Option Nat) (_height : Int) :
      BinaryTreeNode
  deriving DecidableEq, Repr

open BinaryTreeNode

/-- The address held by a pointer, `none` for `nullptr`. -/
def ptr : BinaryTreeNode → Option Nat
  | null => none
  | node a _ _ _ _ _ => some a

/-- Accessor `BinaryTreeNode::item()`; defined on non-null pointers only. -/
def item : BinaryTreeNode → Option Int
  | null => none
  | node _ v _ _ _ _ => some v

/-- The field `_parentNode` of the node pointed to (`none` for `nullptr`). -/
def parentPtr : BinaryTreeNode → Option Nat
  | null => none
  | node _ _ _ _ p _ => p

/-- Function `getHeight` of `BinaryTreeNode.hpp`: `-1` for `nullptr`, else the stored `_height`. -/
def getHeight : BinaryTreeNode → Int
  | null => -1
  | node _ _ _ _ _ h => h

/-- The assignment `child->_parentNode = p`, guarded by `if (child)`. -/
def setParent (child : BinaryTreeNode) (p : Option Nat) : BinaryTreeNode :=
  match child with
  | null => null
  | node a v l r _ h => node a v l r p h

/-- Method `AVLTree::_leftSingleRotate` as a function from the old to the new value of the
reference parameter `node`. -/
def _leftSingleRotate : BinaryTreeNode → BinaryTreeNode
  | node a v l (node b w rl rr _ _) p _ =>
      -- node->_rightNode = right->_leftNode;
      -- if (node->_rightNode) node->_rightNode->_parentNode = node;
      let y := setParent rl (some a)
      -- right->_leftNode = node; right->_parentNode = node->_parentNode;
      -- node->_parentNode = right; node->setHeight(...)
      let old := node a v l y (some b) (1 + max (getHeight l) (getHeight y))
      -- node = right; node->setHeight(...)
      node b w old rr p (1 + max (getHeight old) (getHeight rr))
  | t => t

/-- Method `AVLTree::_rightSingleRotate`, the mirror image of `_leftSingleRotate`. -/
def _rightSingleRotate : BinaryTreeNode → BinaryTreeNode
  | node a v (node b w ll lr _ _) r p _ =>
      let y := setParent lr (some a)
      let old := node a v y r (some b) (1 + max (getHeight y) (getHeight r))
      node b w ll old p (1 + max (getHeight ll) (getHeight old))
  | t => t

/-- Method `AVLTree::_rightLeftRotate`: right rotation at the right child, then left rotation
at the node. -/
def _rightLeftRotate : BinaryTreeNode → BinaryTreeNode
  | node a v l r p h =>
      match r with
      | null => node a v l r p h
      | node _ _ _ _ _ _ => _leftSingleRotate (node a v l (_rightSingleRotate r) p h)
  | null => null

/-- Method `AVLTree::_leftRightRotate`: left rotation at the left child, then right rotation
at the node. -/
def _leftRightRotate : BinaryTreeNode → BinaryTreeNode
  | node a v l r p h =>
      match l with
      | null => node a v l r p h
      | node _ _ _ _ _ _ => _rightSingleRotate (node a v (_leftSingleRotate l) r p h)
  | null => null

/-- Lines 182-207 of `AVLTree::_insertHelp`, executed at the node `a` (item `v`,
children `l` and `r`, parent `p`) after the recursive call returned: recompute the
height, compute the balance factor and rotate.  The result is `none` when the code
dereferences `nullptr` (`rootNode->_leftNode->_item` with no left child, or the mirror
image). -/
def unwind (a : Nat) (v : Int) (l r : BinaryTreeNode) (p : Option Nat) (item : Int) :
    Option BinaryTreeNode :=
  -- rootNode->setHeight(1 + std::max(getHeight(left), getHeight(right)));
  let rootNode := node a v l r p (1 + max (getHeight l) (getHeight r))
  let balanceFactor := getHeight l - getHeight r
  if balanceFactor > 1 then
    match l with
    | null => none
    | node _ lv _ _ _ _ =>
        if item < lv then some (_rightSingleRotate rootNode)
        else some (_leftRightRotate rootNode)
  else if balanceFactor < -1 then
    match r with
    | null => none
    | node _ rv _ _ _ _ =>
        if item > rv then some (_leftSingleRotate rootNode)
        else some (_rightLeftRotate rootNode)
  else some rootNode

/-- Method `AVLTree::_insertHelp`.  The reference parameter `rootNode`, the member
`_count` and the allocator `next` are passed in and returned. -/
def _insertHelp (rootNode : BinaryTreeNode) (item : Int) (_count next : Nat) :
    Option (BinaryTreeNode × Nat × Nat) :=
  match rootNode with
  | null => some (node next item null null none 0, _count + 1, next + 1)
  | node a v l r p h =>
      if item < v then
        match _insertHelp l item _count next with
        | none => none
        | some (l1, c, n) =>
            (unwind a v (setParent l1 (some a)) r p item).map (fun t => (t, c, n))
      else if item > v then
        match _insertHelp r item _count next with
        | none => none
        | some (r1, c, n) =>
            (unwind a v l (setParent r1 (some a)) p item).map (fun t => (t, c, n))
      else some (node a v l r p h, _count, next)

/-- Method `AVLTree::_findHelp`. -/
def _findHelp : BinaryTreeNode → Int → BinaryTreeNode
  | null, _ => null
  | node a v l r p h, item =>
      if v = item then node a v l r p h
      else if item < v then _findHelp l item
      else _findHelp r item

/-- Method `AVLTree::_minimumNodeHelp`. -/
def _minimumNodeHelp : BinaryTreeNode → BinaryTreeNode
  | null => null
  | node a v l r p h =>
      match l with
      | null => node a v l r p h
      | node _ _ _ _ _ _ => _minimumNodeHelp l

/-- Method `AVLTree::_maximumNodeHelp`. -/
def _maximumNodeHelp : BinaryTreeNode → BinaryTreeNode
  | null => null
  | node a v l r p h =>
      match r with
      | null => node a v l r p h
      | node _ _ _ _ _ _ => _maximumNodeHelp r

/-- Method `AVLTree::_inorderHelp`. -/
def _inorderHelp : BinaryTreeNode → List Int
  | null => []
  | node _ v l r _ _ => _inorderHelp l ++ v :: _inorderHelp r

/-- Method `AVLTree::_preorderHelp`. -/
def _preorderHelp : BinaryTreeNode → List Int
  | null => []
  | node _ v l r _ _ => v :: (_preorderHelp l ++ _preorderHelp r)

/-- Method `AVLTree::_postorderHelp`. -/
def _postorderHelp : BinaryTreeNode → List Int
  | null => []
  | node _ v l r _ _ => _postorderHelp l ++ _postorderHelp r ++ [v]

/-- The node stored at address `b` among the nodes owned by `t` (`null` if there is
none): what dereferencing the address yields. -/
def lookup : BinaryTreeNode → Nat → BinaryTreeNode
  | null, _ => null
  | node a v l r p h, b =>
      if a = b then node a v l r p h
      else
        match lookup l b with
        | null => lookup r b
        | node a1 v1 l1 r1 p1 h1 => node a1 v1 l1 r1 p1 h1

/-- Call `_parentNode.lock()`: the parent node a weak pointer refers to, among the
nodes owned by `root`. -/
def lock (root : BinaryTreeNode) (p : Option Nat) : BinaryTreeNode :=
  match p with
  | none => null
  | some a => lookup root a

/-- The `while` loop of `AVLTree::nextLargestNode` (lines 74-78).  Each test of the
loop condition uses one unit of `fuel`; `none` means the fuel ran out. -/
def climbRight (root : BinaryTreeNode) : Nat → BinaryTreeNode → BinaryTreeNode →
    Option BinaryTreeNode
  | 0, _, _ => none
  | fuel + 1, current, parent =>
      match parent with
      | null => some null
      | node a v l r p h =>
          if ptr current = ptr r then
            climbRight root fuel (node a v l r p h) (lock root p)
          else some (node a v l r p h)

/-- The `while` loop of `AVLTree::nextSmallestNode` (lines 56-60). -/
def climbLeft (root : BinaryTreeNode) : Nat → BinaryTreeNode → BinaryTreeNode →
    Option BinaryTreeNode
  | 0, _, _ => none
  | fuel + 1, current, parent =>
      match parent with
      | null => some null
      | node a v l r p h =>
          if ptr current = ptr l then
            climbLeft root fuel (node a v l r p h) (lock root p)
          else some (node a v l r p h)

/-- The class `AVLTree`: its two data members. -/
structure AVLTree where
  _root : BinaryTreeNode
  _count : Nat
  deriving DecidableEq, Repr

namespace AVLTree

/-- Constructor `AVLTree::AVLTree()`. -/
def new : AVLTree := ⟨null, 0⟩

/-- Method `AVLTree::count`. -/
def count (t : AVLTree) : Nat := t._count

/-- Method `AVLTree::clear`. -/
def clear (_t : AVLTree) : AVLTree := ⟨null, 0⟩

/-- Method `AVLTree::insert`; `next` is the allocator, returned with the tree. -/
def insert (t : AVLTree) (item : Int) (next : Nat) : Option (AVLTree × Nat) :=
  (_insertHelp t._root item t._count next).map (fun r => (⟨r.1, r.2.1⟩, r.2.2))

/-- Method `AVLTree::find`. -/
def find (t : AVLTree) (item : Int) : BinaryTreeNode := _findHelp t._root item

/-- Method `AVLTree::minimumNode`. -/
def minimumNode (t : AVLTree) : BinaryTreeNode := _minimumNodeHelp t._root

/-- Method `AVLTree::maximumNode`. -/
def maximumNode (t : AVLTree) : BinaryTreeNode := _maximumNodeHelp t._root

/-- Method `AVLTree::inorder`. -/
def inorder (t : AVLTree) : List Int := _inorderHelp t._root

/-- Method `AVLTree::preorder`. -/
def preorder (t : AVLTree) : List Int := _preorderHelp t._root

/-- Method `AVLTree::postorder`. -/
def postorder (t : AVLTree) : List Int := _postorderHelp t._root

/-- Method `AVLTree::nextLargestNode`; `fuel` bounds the number of tests of the loop
condition and `none` means it ran out. -/
def nextLargestNode (t : AVLTree) (n : BinaryTreeNode) (fuel : Nat) :
    Option BinaryTreeNode :=
  match n with
  | null => some null
  | node a v l r p h =>
      match r with
      | node _ _ _ _ _ _ => some (_minimumNodeHelp r)
      | null => climbRight t._root fuel (node a v l r p h) (lock t._root p)

/-- Method `AVLTree::nextSmallestNode`; `fuel` as in `nextLargestNode`. -/
def nextSmallestNode (t : AVLTree) (n : BinaryTreeNode) (fuel : Nat) :
    Option BinaryTreeNode :=
  match n with
  | null => some null
  | node a v l r p h =>
      match l with
      | node _ _ _ _ _ _ => some (_maximumNodeHelp l)
      | null => climbLeft t._root fuel (node a v l r p h) (lock t._root p)

end AVLTree

/-- A sequence of `insert` calls, in list order, from the state `s` (a tree and the
allocator). -/
def insertAll : List Int → AVLTree × Nat → Option (AVLTree × Nat)
  | [], s => some s
  | x :: xs, s =>
      match s.1.insert x s.2 with
      | none => none
      | some s1 => insertAll xs s1

/-! Specification vocabulary: the recursive height, the nodes of a tree and the
structural invariants of section 3 of the specification. -/

/-- True recursive height: `-1` for the empty subtree, `0` for a leaf and
`1 + max (height left) (height right)` for a node. -/
def height : BinaryTreeNode → Int
  | null => -1
  | node _ _ l r _ _ => 1 + max (height l) (height r)

/-- All nodes of a tree (the non-null pointers reachable through child links), listed
in in-order. -/
def nodes : BinaryTreeNode → List BinaryTreeNode
  | null => []
  | node a v l r p h => nodes l ++ node a v l r p h :: nodes r

/-- Addresses of the nodes of a tree, in in-order. -/
def addrs : BinaryTreeNode → List Nat
  | null => []
  | node a _ l r _ _ => addrs l ++ a :: addrs r

/-- Height cache and balance together: every stored height is the recursive height and
the heights of the two subtrees of every node differ by at most one. -/
def Avl : BinaryTreeNode → Prop
  | null => True
  | node _ _ l r _ h =>
      Avl l ∧ Avl r ∧ h = 1 + max (height l) (height r) ∧
        height l ≤ height r + 1 ∧ height r ≤ height l + 1

/-- Binary-search-tree order at every node. -/
def BST : BinaryTreeNode → Prop
  | null => True
  | node _ v l r _ _ =>
      BST l ∧ BST r ∧ (∀ y ∈ _inorderHelp l, y < v) ∧ (∀ y ∈ _inorderHelp r, v < y)

/-- Parent links below the root of a subtree: the `_parentNode` of every child is the
address of the node whose child link holds it. -/
def ParentsOK : BinaryTreeNode → Prop
  | null => True
  | node a _ l r _ _ =>
      ParentsOK l ∧ ParentsOK r ∧ setParent l (some a) = l ∧ setParent r (some a) = r

/-- Everything `insert` maintains, for a tree whose allocator is `next`: balance and
height cache, order, parent links with an empty parent at the root, and pairwise
distinct addresses below `next`. -/
structure Inv (t : AVLTree) (next : Nat) : Prop where
  avl : Avl t._root
  bst : BST t._root
  parents : ParentsOK t._root
  rootParent : parentPtr t._root = none
  nodup : (addrs t._root).Nodup
  below : ∀ a ∈ addrs t._root, a < next
  count : t._count = (_inorderHelp t._root).length

/-- One public mutating call: `insert(item)` or `clear()`. -/
inductive Op where
  | insert (item : Int) : Op
  | clear : Op
  deriving DecidableEq, Repr

/-- A sequence of `insert` and `clear` calls, in list order, from the state `s`. -/
def run : List Op → AVLTree × Nat → Option (AVLTree × Nat)
  | [], s => some s
  | Op.insert x :: ops, s =>
      match s.1.insert x s.2 with
      | none => none
      | some s1 => run ops s1
  | Op.clear :: ops, s => run ops (s.1.clear, s.2)

/-- How the height of a subtree changes under `_insertHelp`: it stays or grows by one,
and when a non-empty subtree grows the new item went to the side that is now the
higher one. -/
def Grows (t t1 : BinaryTreeNode) (x : Int) : Prop :=
  (height t1 = height t ∨ height t1 = height t + 1) ∧
    (height t1 = height t + 1 → t = null ∨
      ∃ a v l r p h, t1 = node a v l r p h ∧
        ((x < v ∧ height l = height r + 1) ∨ (v < x ∧ height r = height l + 1)))

/-- The effect of one `_insertHelp` on items, counter, allocator and addresses: either
the item was there and nothing is added, or one node with the new address is added. -/
def Adds (t t1 : BinaryTreeNode) (x : Int) (c n c1 n1 : Nat) : Prop :=
  (x ∈ _inorderHelp t ∧ c1 = c ∧ n1 = n ∧ addrs t1 = addrs t ∧
      _inorderHelp t1 = _inorderHelp t) ∨
    (c1 = c + 1 ∧ n1 = n + 1 ∧ (addrs t1).Perm (n :: addrs t) ∧
      (_inorderHelp t1).Perm (x :: _inorderHelp t))

/-- Method `AVLTree::_copyNodes`: the copy of the subtree and the allocator after it.
The new node is allocated first (address `next`), then the left and the right subtree
are copied, each child gets the new node as parent, and the stored height is taken over
from the source node. -/
def _copyNodes : BinaryTreeNode → Nat → BinaryTreeNode × Nat
  | null, next => (null, next)
  | node _ v l r _ h, next =>
      let left := _copyNodes l (next + 1)
      let right := _copyNodes r left.2
      (node next v (setParent left.1 (some next)) (setParent right.1 (some next)) none h,
        right.2)

/-- Copy constructor `AVLTree::AVLTree(const AVLTree& source)`: the new tree and the
allocator after it. -/
def AVLTree.copy (source : AVLTree) (next : Nat) : AVLTree × Nat :=
  let r := _copyNodes source._root next
  (⟨r.1, source._count⟩, r.2)

/-- Assignment `AVLTree::operator=`.  The tree objects of the program live in `mem`,
indexed by their addresses; `self` is `this` and `source` is `&source`.  The result is
the memory and the allocator after the call. -/
def AVLTree.assign (mem : Nat → AVLTree) (self source : Nat) (next : Nat) :
    (Nat → AVLTree) × Nat :=
  if self ≠ source then
    -- clear();
    let mem1 := Function.update mem self (mem self).clear
    -- _root = _copyNodes(source._root); _count = source._count;
    let r := _copyNodes (mem1 source)._root next
    (Function.update mem1 self ⟨r.1, (mem1 source)._count⟩, r.2)
  else (mem, next)

/-- Shape of a tree with the item and the stored height at every position, without
addresses and parent links. -/
inductive Shape where
  | leaf : Shape
  | node (left : Shape) (item : Int) (height : Int) (right : Shape) : Shape
  deriving DecidableEq, Repr

/-- The shape, items and stored heights of the nodes below a pointer. -/
def shapeOf : BinaryTreeNode → Shape
  | null => Shape.leaf
  | node _ v l r _ h => Shape.node (shapeOf l) v h (shapeOf r)

/-- Repeated application of `nextLargestNode`: the pointer reached from `n` after `k`
calls, each with the given fuel (`none` if a call runs out of fuel). -/
def nextLargestIter (t : AVLTree) (fuel : Nat) : Nat → BinaryTreeNode → Option BinaryTreeNode
  | 0, n => some n
  | k + 1, n =>
      match nextLargestIter t fuel k n with
      | none => none
      | some m => t.nextLargestNode m fuel

/-- The field `_leftNode` of the node pointed to (`null` for `nullptr`). -/
def leftNode : BinaryTreeNode → BinaryTreeNode
  | null => null
  | node _ _ l _ _ _ => l

/-- The field `_rightNode` of the node pointed to (`null` for `nullptr`). -/
def rightNode : BinaryTreeNode → BinaryTreeNode
  | null => null
  | node _ _ _ r _ _ => r

/-- The branch taken in lines 188-207 of `AVLTree::_insertHelp`. -/
inductive RotationCase where
  | noRotation : RotationCase
  | leftLeft : RotationCase
  | leftRight : RotationCase
  | rightRight : RotationCase
  | rightLeft : RotationCase
  deriving DecidableEq, Repr

/-- The function `unwind` instrumented: beside the new subtree it returns the balance
factor it computed and the branch it took. -/
def unwindLog (a : Nat) (v : Int) (l r : BinaryTreeNode) (p : Option Nat) (item : Int) :
    Option (BinaryTreeNode × Int × RotationCase) :=
  let rootNode := node a v l r p (1 + max (getHeight l) (getHeight r))
  let balanceFactor := getHeight l - getHeight r
  if balanceFactor > 1 then
    match l with
    | null => none
    | node _ lv _ _ _ _ =>
        if item < lv then
          some (_rightSingleRotate rootNode, balanceFactor, RotationCase.leftLeft)
        else some (_leftRightRotate rootNode, balanceFactor, RotationCase.leftRight)
  else if balanceFactor < -1 then
    match r with
    | null => none
    | node _ rv _ _ _ _ =>
        if item > rv then
          some (_leftSingleRotate rootNode, balanceFactor, RotationCase.rightRight)
        else some (_rightLeftRotate rootNode, balanceFactor, RotationCase.rightLeft)
  else some (rootNode, balanceFactor, RotationCase.noRotation)

/-- One execution of lines 182-207 of `AVLTree::_insertHelp` at a node of the search
path: the subtree `before` the call, the node as `updated` by the recursive call and the
new height (the state in which the balance factor is computed), the balance factor,
the branch taken, and the subtree `after` the call. -/
structure Visit where
  before : BinaryTreeNode
  updated : BinaryTreeNode
  balanceFactor : Int
  rotation : RotationCase
  after : BinaryTreeNode

/-- The method `_insertHelp` instrumented: beside its results it returns the visits of
the unwind, the deepest first.  No visit is recorded where the call returns before the
unwind (at the new node, and at the node holding a duplicate). -/
def _insertHelpLog (rootNode : BinaryTreeNode) (item : Int) (_count next : Nat) :
    Option ((BinaryTreeNode × Nat × Nat) × List Visit) :=
  match rootNode with
  | null => some ((node next item null null none 0, _count + 1, next + 1), [])
  | node a v l r p h =>
      if item < v then
        match _insertHelpLog l item _count next with
        | none => none
        | some ((l1, c, n), log) =>
            (unwindLog a v (setParent l1 (some a)) r p item).map (fun u =>
              ((u.1, c, n), log ++ [Visit.mk (node a v l r p h)
                (node a v (setParent l1 (some a)) r p
                  (1 + max (getHeight (setParent l1 (some a))) (getHeight r)))
                u.2.1 u.2.2 u.1]))
      else if item > v then
        match _insertHelpLog r item _count next with
        | none => none
        | some ((r1, c, n), log) =>
            (unwindLog a v l (setParent r1 (some a)) p item).map (fun u =>
              ((u.1, c, n), log ++ [Visit.mk (node a v l r p h)
                (node a v l (setParent r1 (some a)) p
                  (1 + max (getHeight l) (getHeight (setParent r1 (some a)))))
                u.2.1 u.2.2 u.1]))
      else some ((node a v l r p h, _count, next), [])

/-- What holds at a visit of an insertion into a balanced tree: the balance factor is
the difference of the stored heights of the children; without rotation it lies in
[-1, 1] and the node is returned as updated; with a rotation the children that the
rotation and its guards read exist, the rotation moves the expected node to the root,
and the subtree has the height it had before the insertion. -/
def Visit.Sound (e : Visit) : Prop :=
  e.balanceFactor = getHeight (leftNode e.updated) - getHeight (rightNode e.updated) ∧
    match e.rotation with
    | RotationCase.noRotation =>
        -1 ≤ e.balanceFactor ∧ e.balanceFactor ≤ 1 ∧ e.after = e.updated
    | RotationCase.leftLeft =>
        1 < e.balanceFactor ∧ leftNode e.updated ≠ null ∧
          e.after = _rightSingleRotate e.updated ∧ ptr e.after = ptr (leftNode e.updated) ∧
          height e.after = height e.before
    | RotationCase.leftRight =>
        1 < e.balanceFactor ∧ leftNode e.updated ≠ null ∧
          rightNode (leftNode e.updated) ≠ null ∧
          e.after = _leftRightRotate e.updated ∧
          ptr e.after = ptr (rightNode (leftNode e.updated)) ∧
          height e.after = height e.before
    | RotationCase.rightRight =>
        e.balanceFactor < -1 ∧ rightNode e.updated ≠ null ∧
          e.after = _leftSingleRotate e.updated ∧ ptr e.after = ptr (rightNode e.updated) ∧
          height e.after = height e.before
    | RotationCase.rightLeft =>
        e.balanceFactor < -1 ∧ rightNode e.updated ≠ null ∧
          leftNode (rightNode e.updated) ≠ null ∧
          e.after = _rightLeftRotate e.updated ∧
          ptr e.after = ptr (leftNode (rightNode e.updated)) ∧
          height e.after = height e.before

/-- Number of visits of a log at which a rotation branch was entered. -/
def rotations (log : List Visit) : Nat :=
  log.countP (fun e => decide (e.rotation ≠ RotationCase.noRotation))

/-! Basic facts. -/

@[simp] theorem setParent_null (p : Option Nat) : setParent null p = null := rfl

@[simp] theorem setParent_node (a : Nat) (v : Int) (l r : BinaryTreeNode) (q p : Option Nat)
    (h : Int) : setParent (node a v l r q h) p = node a v l r p h := rfl

@[simp] theorem getHeight_null : getHeight null = -1 := rfl

@[simp] theorem getHeight_node (a : Nat) (v : Int) (l r : BinaryTreeNode) (p : Option Nat)
    (h : Int) : getHeight (node a v l r p h) = h := rfl

@[simp] theorem height_setParent (t : BinaryTreeNode) (p : Option Nat) :
    height (setParent t p) = height t := by
  cases t <;> rfl

@[simp] theorem getHeight_setParent (t : BinaryTreeNode) (p : Option Nat) :
    getHeight (setParent t p) = getHeight t := by
  cases t <;> rfl

@[simp] theorem inorder_setParent (t : BinaryTreeNode) (p : Option Nat) :
    _inorderHelp (setParent t p) = _inorderHelp t := by
  cases t <;> rfl

@[simp] theorem addrs_setParent (t : BinaryTreeNode) (p : Option Nat) :
    addrs (setParent t p) = addrs t := by
  cases t <;> rfl

@[simp] theorem ptr_setParent (t : BinaryTreeNode) (p : Option Nat) :
    ptr (setParent t p) = ptr t := by
  cases t <;> rfl

@[simp] theorem avl_setParent (t : BinaryTreeNode) (p : Option Nat) :
    Avl (setParent t p) ↔ Avl t := by
  cases t <;> simp [Avl]

@[simp] theorem bst_setParent (t : BinaryTreeNode) (p : Option Nat) :
    BST (setParent t p) ↔ BST t := by
  cases t <;> simp [BST]

@[simp] theorem parentsOK_setParent (t : BinaryTreeNode) (p : Option Nat) :
    ParentsOK (setParent t p) ↔ ParentsOK t := by
  cases t <;> simp [ParentsOK]

@[simp] theorem setParent_setParent (t : BinaryTreeNode) (p q : Option Nat) :
    setParent (setParent t p) q = setParent t q := by
  cases t <;> rfl

theorem height_ge (t : BinaryTreeNode) : -1 ≤ height t := by
  cases t with
  | null => simp [height]
  | node a v l r p h =>
      have := height_ge l
      simp only [height]; omega

theorem getHeight_eq_height {t : BinaryTreeNode} (h : Avl t) : getHeight t = height t := by
  cases t with
  | null => rfl
  | node a v l r p hh => simp only [Avl] at h; simp [height, h.2.2.1]

/-- The unwind step of `_insertHelp` after an insertion into the left subtree keeps
balance and height cache, and the height of the node stays or grows by one. -/
theorem unwind_left_avl (a : Nat) (v : Int) (l l1 r : BinaryTreeNode) (p : Option Nat)
    (h x : Int) (hl1 : Avl l1) (hr : Avl r) (hb1 : height l ≤ height r + 1)
    (hb2 : height r ≤ height l + 1) (hg : Grows l l1 x) (hlt : x < v) :
    ∃ t1, unwind a v (setParent l1 (some a)) r p x = some t1 ∧ Avl t1 ∧
      Grows (node a v l r p h) t1 x := by
  obtain ⟨hg1, hg2⟩ := hg
  have hgr := height_ge r
  have hgl := height_ge l
  have e1 : getHeight (setParent l1 (some a)) = height l1 := by
    simp [getHeight_eq_height hl1]
  have e2 : getHeight r = height r := getHeight_eq_height hr
  simp only [unwind, e1, e2]
  by_cases hbf : height l1 - height r > 1
  · have hgrow : height l1 = height l + 1 := by omega
    have hlnn : l ≠ null := by
      rintro rfl
      simp only [height] at hgrow hbf
      omega
    obtain ⟨b, w, ll, lr, pb, hb, rfl, hcase⟩ := (hg2 hgrow).resolve_left hlnn
    simp only [Avl] at hl1
    obtain ⟨hll, hlr, hhb, hbb1, hbb2⟩ := hl1
    have e3 := getHeight_eq_height hll
    have e4 := getHeight_eq_height hlr
    have hbf1 := hbf
    simp only [height] at hgrow hbf1 hg1
    rcases hcase with ⟨hxw, hhh⟩ | ⟨hxw, hhh⟩
    · simp only [if_pos hbf, setParent_node, if_pos hxw]
      refine ⟨_, rfl, ?_, ?_, ?_⟩
      · simp only [_rightSingleRotate, Avl, height, getHeight_node, getHeight_setParent,
          height_setParent, avl_setParent, e2, e3, e4]
        refine ⟨hll, ⟨hlr, hr, ?_, ?_, ?_⟩, ?_, ?_, ?_⟩ <;> first | trivial | omega
      · simp only [_rightSingleRotate, height, height_setParent]
        omega
      · simp only [_rightSingleRotate, height, height_setParent]
        intro hcontra
        omega
    · have hnlt : ¬ x < w := by omega
      have hlrnn : lr ≠ null := by
        rintro rfl
        have := height_ge ll
        simp only [height] at hhh
        omega
      cases lr with
      | null => exact absurd rfl hlrnn
      | node d u lrl lrr pd hd =>
          simp only [Avl] at hlr
          obtain ⟨hlrl, hlrr, hhd, hd1, hd2⟩ := hlr
          have e5 := getHeight_eq_height hlrl
          have e6 := getHeight_eq_height hlrr
          have hbf3 := hbf
          simp only [height] at hgrow hbf1 hbf3 hg1 hhh hbb1 hbb2
          simp only [if_pos hbf, setParent_node, if_neg hnlt]
          refine ⟨_, rfl, ?_, ?_, ?_⟩
          · simp only [_leftRightRotate, _leftSingleRotate, _rightSingleRotate, Avl,
              height, getHeight_node, getHeight_setParent, height_setParent, avl_setParent,
              e2, e3, e5, e6]
            refine ⟨⟨hll, hlrl, ?_, ?_, ?_⟩, ⟨hlrr, hr, ?_, ?_, ?_⟩, ?_, ?_, ?_⟩ <;>
              first | trivial | omega
          · simp only [_leftRightRotate, _leftSingleRotate, _rightSingleRotate, height,
              height_setParent]
            omega
          · simp only [_leftRightRotate, _leftSingleRotate, _rightSingleRotate, height,
              height_setParent]
            intro hcontra
            omega
  · have hbf2 : ¬ height l1 - height r < -1 := by omega
    simp only [if_neg hbf, if_neg hbf2]
    refine ⟨_, rfl, ?_, ?_, ?_⟩
    · simp only [Avl, avl_setParent, height_setParent]
      refine ⟨hl1, hr, ?_, ?_, ?_⟩ <;> first | trivial | omega
    · simp only [height, height_setParent]
      omega
    · simp only [height, height_setParent]
      intro hcontra
      right
      exact ⟨_, _, _, _, _, _, rfl, Or.inl ⟨hlt, by simp only [height_setParent]; omega⟩⟩

/-- The unwind step of `_insertHelp` after an insertion into the right subtree keeps
balance and height cache, and the height of the node stays or grows by one. -/
theorem unwind_right_avl (a : Nat) (v : Int) (l r r1 : BinaryTreeNode) (p : Option Nat)
    (h x : Int) (hl : Avl l) (hr1 : Avl r1) (hb1 : height l ≤ height r + 1)
    (hb2 : height r ≤ height l + 1) (hg : Grows r r1 x) (hgt : v < x) :
    ∃ t1, unwind a v l (setParent r1 (some a)) p x = some t1 ∧ Avl t1 ∧
      Grows (node a v l r p h) t1 x := by
  obtain ⟨hg1, hg2⟩ := hg
  have hgr := height_ge r
  have hgl := height_ge l
  have e1 : getHeight (setParent r1 (some a)) = height r1 := by
    simp [getHeight_eq_height hr1]
  have e2 : getHeight l = height l := getHeight_eq_height hl
  simp only [unwind, e1, e2]
  by_cases hbf : height l - height r1 < -1
  · have hbf0 : ¬ height l - height r1 > 1 := by omega
    have hgrow : height r1 = height r + 1 := by omega
    have hrnn : r ≠ null := by
      rintro rfl
      simp only [height] at hgrow hbf
      omega
    obtain ⟨b, w, rl, rr, pb, hb, rfl, hcase⟩ := (hg2 hgrow).resolve_left hrnn
    simp only [Avl] at hr1
    obtain ⟨hrl, hrr, hhb, hbb1, hbb2⟩ := hr1
    have e3 := getHeight_eq_height hrl
    have e4 := getHeight_eq_height hrr
    have hbf1 := hbf
    simp only [height] at hgrow hbf1 hg1
    rcases hcase with ⟨hxw, hhh⟩ | ⟨hxw, hhh⟩
    · have hngt : ¬ x > w := by omega
      have hrlnn : rl ≠ null := by
        rintro rfl
        have := height_ge rr
        simp only [height] at hhh
        omega
      cases rl with
      | null => exact absurd rfl hrlnn
      | node d u rll rlr pd hd =>
          simp only [Avl] at hrl
          obtain ⟨hrll, hrlr, hhd, hd1, hd2⟩ := hrl
          have e5 := getHeight_eq_height hrll
          have e6 := getHeight_eq_height hrlr
          have hbf3 := hbf
          simp only [height] at hgrow hbf1 hbf3 hg1 hhh hbb1 hbb2
          simp only [if_pos hbf, if_neg hbf0, setParent_node, if_neg hngt]
          refine ⟨_, rfl, ?_, ?_, ?_⟩
          · simp only [_rightLeftRotate, _leftSingleRotate, _rightSingleRotate, Avl,
              height, getHeight_node, getHeight_setParent, height_setParent, avl_setParent,
              e2, e4, e5, e6]
            refine ⟨⟨hl, hrll, ?_, ?_, ?_⟩, ⟨hrlr, hrr, ?_, ?_, ?_⟩, ?_, ?_, ?_⟩ <;>
              first | trivial | omega
          · simp only [_rightLeftRotate, _leftSingleRotate, _rightSingleRotate, height,
              height_setParent]
            omega
          · simp only [_rightLeftRotate, _leftSingleRotate, _rightSingleRotate, height,
              height_setParent]
            intro hcontra
            omega
    · have hxw2 : x > w := hxw
      simp only [if_pos hbf, if_neg hbf0, setParent_node, if_pos hxw2]
      refine ⟨_, rfl, ?_, ?_, ?_⟩
      · simp only [_leftSingleRotate, Avl, height, getHeight_node, getHeight_setParent,
          height_setParent, avl_setParent, e2, e3, e4]
        refine ⟨⟨hl, hrl, ?_, ?_, ?_⟩, hrr, ?_, ?_, ?_⟩ <;> first | trivial | omega
      · simp only [_leftSingleRotate, height, height_setParent]
        omega
      · simp only [_leftSingleRotate, height, height_setParent]
        intro hcontra
        omega
  · have hbf2 : ¬ height l - height r1 > 1 := by omega
    simp only [if_neg hbf, if_neg hbf2]
    refine ⟨_, rfl, ?_, ?_, ?_⟩
    · simp only [Avl, avl_setParent, height_setParent]
      refine ⟨hl, hr1, ?_, ?_, ?_⟩ <;> first | trivial | omega
    · simp only [height, height_setParent]
      omega
    · simp only [height, height_setParent]
      intro hcontra
      right
      exact ⟨_, _, _, _, _, _, rfl, Or.inr ⟨hgt, by simp only [height_setParent]; omega⟩⟩

theorem insertHelp_avl (x : Int) (c n : Nat) (t : BinaryTreeNode) (ht : Avl t) :
    ∃ t1 c1 n1, _insertHelp t x c n = some (t1, c1, n1) ∧ Avl t1 ∧ Grows t t1 x := by
  induction t with
  | null =>
      refine ⟨_, _, _, rfl, ?_, ?_, ?_⟩ <;> simp [Avl, height]
  | node a v l r p h ihl ihr =>
      have ht1 := ht
      simp only [Avl] at ht1
      obtain ⟨hl, hr, hh, hb1, hb2⟩ := ht1
      rcases lt_trichotomy x v with hlt | heq | hgt
      · obtain ⟨l1, c1, n1, e, hl1, hg⟩ := ihl hl
        obtain ⟨t1, e1, h1, h2⟩ := unwind_left_avl a v l l1 r p h x hl1 hr hb1 hb2 hg hlt
        exact ⟨t1, c1, n1, by simp [_insertHelp, hlt, e, e1], h1, h2⟩
      · subst heq
        have e : _insertHelp (node a x l r p h) x c n = some (node a x l r p h, c, n) := by
          simp [_insertHelp]
        exact ⟨_, _, _, e, ht, Or.inl rfl, fun hcontra => by omega⟩
      · obtain ⟨r1, c1, n1, e, hr1, hg⟩ := ihr hr
        have hnlt : ¬ x < v := by omega
        obtain ⟨t1, e1, h1, h2⟩ := unwind_right_avl a v l r r1 p h x hl hr1 hb1 hb2 hg hgt
        exact ⟨t1, c1, n1, by simp [_insertHelp, hnlt, hgt, e, e1], h1, h2⟩

/-! The rotations keep the in-order sequence of items and of addresses, the order
invariant and the parent links. -/

theorem inorder_leftSingleRotate (t : BinaryTreeNode) :
    _inorderHelp (_leftSingleRotate t) = _inorderHelp t := by
  rcases t with _ | ⟨a, v, l, r, p, h⟩
  · rfl
  · rcases r with _ | ⟨b, w, rl, rr, pb, hb⟩ <;> simp [_leftSingleRotate, _inorderHelp]

theorem inorder_rightSingleRotate (t : BinaryTreeNode) :
    _inorderHelp (_rightSingleRotate t) = _inorderHelp t := by
  rcases t with _ | ⟨a, v, l, r, p, h⟩
  · rfl
  · rcases l with _ | ⟨b, w, ll, lr, pb, hb⟩ <;> simp [_rightSingleRotate, _inorderHelp]

theorem inorder_rightLeftRotate (t : BinaryTreeNode) :
    _inorderHelp (_rightLeftRotate t) = _inorderHelp t := by
  rcases t with _ | ⟨a, v, l, r, p, h⟩
  · rfl
  · rcases r with _ | ⟨b, w, rl, rr, pb, hb⟩
    · rfl
    · simp only [_rightLeftRotate, inorder_leftSingleRotate]
      simp only [_inorderHelp, inorder_rightSingleRotate]

theorem inorder_leftRightRotate (t : BinaryTreeNode) :
    _inorderHelp (_leftRightRotate t) = _inorderHelp t := by
  rcases t with _ | ⟨a, v, l, r, p, h⟩
  · rfl
  · rcases l with _ | ⟨b, w, ll, lr, pb, hb⟩
    · rfl
    · simp only [_leftRightRotate, inorder_rightSingleRotate]
      simp only [_inorderHelp, inorder_leftSingleRotate]

theorem addrs_leftSingleRotate (t : BinaryTreeNode) :
    addrs (_leftSingleRotate t) = addrs t := by
  rcases t with _ | ⟨a, v, l, r, p, h⟩
  · rfl
  · rcases r with _ | ⟨b, w, rl, rr, pb, hb⟩ <;> simp [_leftSingleRotate, addrs]

theorem addrs_rightSingleRotate (t : BinaryTreeNode) :
    addrs (_rightSingleRotate t) = addrs t := by
  rcases t with _ | ⟨a, v, l, r, p, h⟩
  · rfl
  · rcases l with _ | ⟨b, w, ll, lr, pb, hb⟩ <;> simp [_rightSingleRotate, addrs]

theorem addrs_rightLeftRotate (t : BinaryTreeNode) :
    addrs (_rightLeftRotate t) = addrs t := by
  rcases t with _ | ⟨a, v, l, r, p, h⟩
  · rfl
  · rcases r with _ | ⟨b, w, rl, rr, pb, hb⟩
    · rfl
    · simp only [_rightLeftRotate, addrs_leftSingleRotate]
      simp only [addrs, addrs_rightSingleRotate]

theorem addrs_leftRightRotate (t : BinaryTreeNode) :
    addrs (_leftRightRotate t) = addrs t := by
  rcases t with _ | ⟨a, v, l, r, p, h⟩
  · rfl
  · rcases l with _ | ⟨b, w, ll, lr, pb, hb⟩
    · rfl
    · simp only [_leftRightRotate, addrs_rightSingleRotate]
      simp only [addrs, addrs_leftSingleRotate]

theorem bst_leftSingleRotate (t : BinaryTreeNode) (ht : BST t) : BST (_leftSingleRotate t) := by
  rcases t with _ | ⟨a, v, l, r, p, h⟩
  · exact ht
  · rcases r with _ | ⟨b, w, rl, rr, pb, hb⟩
    · exact ht
    · simp only [BST, _inorderHelp, List.mem_append, List.mem_cons] at ht
      obtain ⟨hl, ⟨hrl, hrr, h1, h2⟩, h3, h4⟩ := ht
      simp only [_leftSingleRotate, BST, bst_setParent, _inorderHelp, inorder_setParent,
        List.mem_append, List.mem_cons]
      refine ⟨⟨hl, hrl, h3, fun y hy => h4 y (Or.inl hy)⟩, hrr, ?_, h2⟩
      have hvw : v < w := h4 w (Or.inr (Or.inl rfl))
      rintro y (hy | rfl | hy)
      · exact lt_trans (h3 y hy) hvw
      · exact hvw
      · exact h1 y hy

theorem bst_rightSingleRotate (t : BinaryTreeNode) (ht : BST t) :
    BST (_rightSingleRotate t) := by
  rcases t with _ | ⟨a, v, l, r, p, h⟩
  · exact ht
  · rcases l with _ | ⟨b, w, ll, lr, pb, hb⟩
    · exact ht
    · simp only [BST, _inorderHelp, List.mem_append, List.mem_cons] at ht
      obtain ⟨⟨hll, hlr, h1, h2⟩, hr, h3, h4⟩ := ht
      simp only [_rightSingleRotate, BST, bst_setParent, _inorderHelp, inorder_setParent,
        List.mem_append, List.mem_cons]
      refine ⟨hll, ⟨hlr, hr, fun y hy => h3 y (Or.inr (Or.inr hy)), h4⟩, h1, ?_⟩
      have hwv : w < v := h3 w (Or.inr (Or.inl rfl))
      rintro y (hy | rfl | hy)
      · exact h2 y hy
      · exact hwv
      · exact lt_trans hwv (h4 y hy)

theorem bst_rightLeftRotate (t : BinaryTreeNode) (ht : BST t) : BST (_rightLeftRotate t) := by
  rcases t with _ | ⟨a, v, l, r, p, h⟩
  · exact ht
  · rcases r with _ | ⟨b, w, rl, rr, pb, hb⟩
    · exact ht
    · simp only [_rightLeftRotate]
      apply bst_leftSingleRotate
      simp only [BST, inorder_rightSingleRotate] at ht ⊢
      exact ⟨ht.1, bst_rightSingleRotate _ ht.2.1, ht.2.2⟩

theorem bst_leftRightRotate (t : BinaryTreeNode) (ht : BST t) : BST (_leftRightRotate t) := by
  rcases t with _ | ⟨a, v, l, r, p, h⟩
  · exact ht
  · rcases l with _ | ⟨b, w, ll, lr, pb, hb⟩
    · exact ht
    · simp only [_leftRightRotate]
      apply bst_rightSingleRotate
      simp only [BST, inorder_leftSingleRotate] at ht ⊢
      exact ⟨bst_leftSingleRotate _ ht.1, ht.2.1, ht.2.2⟩

theorem parentPtr_leftSingleRotate (t : BinaryTreeNode) :
    parentPtr (_leftSingleRotate t) = parentPtr t := by
  rcases t with _ | ⟨a, v, l, r, p, h⟩
  · rfl
  · rcases r with _ | ⟨b, w, rl, rr, pb, hb⟩ <;> rfl

theorem parentPtr_rightSingleRotate (t : BinaryTreeNode) :
    parentPtr (_rightSingleRotate t) = parentPtr t := by
  rcases t with _ | ⟨a, v, l, r, p, h⟩
  · rfl
  · rcases l with _ | ⟨b, w, ll, lr, pb, hb⟩ <;> rfl

theorem setParent_eq_iff (t : BinaryTreeNode) (p : Option Nat) :
    setParent t p = t ↔ t = null ∨ parentPtr t = p := by
  cases t <;> simp [parentPtr, eq_comm]

theorem parentsOK_leftSingleRotate (t : BinaryTreeNode) (ht : ParentsOK t) :
    ParentsOK (_leftSingleRotate t) := by
  rcases t with _ | ⟨a, v, l, r, p, h⟩
  · exact ht
  · rcases r with _ | ⟨b, w, rl, rr, pb, hb⟩
    · exact ht
    · simp only [ParentsOK] at ht
      obtain ⟨hl, ⟨hrl, hrr, h1, h2⟩, h3, h4⟩ := ht
      simp only [_leftSingleRotate, ParentsOK, parentsOK_setParent, setParent_setParent,
        setParent_node]
      exact ⟨⟨hl, hrl, h3, trivial⟩, hrr, trivial, h2⟩

theorem parentsOK_rightSingleRotate (t : BinaryTreeNode) (ht : ParentsOK t) :
    ParentsOK (_rightSingleRotate t) := by
  rcases t with _ | ⟨a, v, l, r, p, h⟩
  · exact ht
  · rcases l with _ | ⟨b, w, ll, lr, pb, hb⟩
    · exact ht
    · simp only [ParentsOK] at ht
      obtain ⟨⟨hll, hlr, h1, h2⟩, hr, h3, h4⟩ := ht
      simp only [_rightSingleRotate, ParentsOK, parentsOK_setParent, setParent_setParent,
        setParent_node]
      exact ⟨hll, ⟨hlr, hr, trivial, h4⟩, h1, trivial⟩

theorem parentsOK_rightLeftRotate (t : BinaryTreeNode) (ht : ParentsOK t) :
    ParentsOK (_rightLeftRotate t) := by
  rcases t with _ | ⟨a, v, l, r, p, h⟩
  · exact ht
  · rcases r with _ | ⟨b, w, rl, rr, pb, hb⟩
    · exact ht
    · simp only [_rightLeftRotate]
      apply parentsOK_leftSingleRotate
      simp only [ParentsOK] at ht ⊢
      refine ⟨ht.1, parentsOK_rightSingleRotate _ ht.2.1, ht.2.2.1, ?_⟩
      rw [setParent_eq_iff, parentPtr_rightSingleRotate]
      exact (setParent_eq_iff _ _).1 ht.2.2.2 |>.imp (fun h => by simp at h) id

theorem parentsOK_leftRightRotate (t : BinaryTreeNode) (ht : ParentsOK t) :
    ParentsOK (_leftRightRotate t) := by
  rcases t with _ | ⟨a, v, l, r, p, h⟩
  · exact ht
  · rcases l with _ | ⟨b, w, ll, lr, pb, hb⟩
    · exact ht
    · simp only [_leftRightRotate]
      apply parentsOK_rightSingleRotate
      simp only [ParentsOK] at ht ⊢
      refine ⟨parentsOK_leftSingleRotate _ ht.1, ht.2.1, ?_, ht.2.2.2⟩
      rw [setParent_eq_iff, parentPtr_leftSingleRotate]
      exact (setParent_eq_iff _ _).1 ht.2.2.1 |>.imp (fun h => by simp at h) id

theorem parentPtr_rightLeftRotate (t : BinaryTreeNode) :
    parentPtr (_rightLeftRotate t) = parentPtr t := by
  rcases t with _ | ⟨a, v, l, r, p, h⟩
  · rfl
  · rcases r with _ | ⟨b, w, rl, rr, pb, hb⟩
    · rfl
    · simp only [_rightLeftRotate, parentPtr_leftSingleRotate]
      rfl

theorem parentPtr_leftRightRotate (t : BinaryTreeNode) :
    parentPtr (_leftRightRotate t) = parentPtr t := by
  rcases t with _ | ⟨a, v, l, r, p, h⟩
  · rfl
  · rcases l with _ | ⟨b, w, ll, lr, pb, hb⟩
    · rfl
    · simp only [_leftRightRotate, parentPtr_rightSingleRotate]
      rfl

/-! What one call of `_insertHelp` does to the items, the addresses, the order and the
parent links. -/

theorem bst_node_height (a : Nat) (v : Int) (l r : BinaryTreeNode) (p : Option Nat)
    (h k : Int) (ht : BST (node a v l r p h)) : BST (node a v l r p k) := by
  simpa only [BST] using ht

theorem parentsOK_node_height (a : Nat) (v : Int) (l r : BinaryTreeNode) (p : Option Nat)
    (h k : Int) (ht : ParentsOK (node a v l r p h)) : ParentsOK (node a v l r p k) := by
  simpa only [ParentsOK] using ht

theorem unwind_cases {a : Nat} {v : Int} {l r : BinaryTreeNode} {p : Option Nat} {x : Int}
    {t1 : BinaryTreeNode} (e : unwind a v l r p x = some t1) :
    ∃ k, t1 = node a v l r p k ∨ t1 = _rightSingleRotate (node a v l r p k) ∨
      t1 = _leftRightRotate (node a v l r p k) ∨ t1 = _leftSingleRotate (node a v l r p k) ∨
      t1 = _rightLeftRotate (node a v l r p k) := by
  refine ⟨1 + max (getHeight l) (getHeight r), ?_⟩
  unfold unwind at e
  simp only at e
  split_ifs at e with h1 h2
  · rcases l with _ | ⟨b, w, ll, lr, pb, hb⟩
    · simp at e
    · simp only at e
      split_ifs at e <;> simp only [Option.some.injEq] at e <;> simp [← e]
  · rcases r with _ | ⟨b, w, rl, rr, pb, hb⟩
    · simp at e
    · simp only at e
      split_ifs at e <;> simp only [Option.some.injEq] at e <;> simp [← e]
  · simp only [Option.some.injEq] at e
    simp [← e]

theorem unwind_spec {a : Nat} {v : Int} {l r : BinaryTreeNode} {p : Option Nat} {x : Int}
    {t1 : BinaryTreeNode} (e : unwind a v l r p x = some t1) :
    _inorderHelp t1 = _inorderHelp l ++ v :: _inorderHelp r ∧
      addrs t1 = addrs l ++ a :: addrs r ∧ parentPtr t1 = p ∧
      (BST (node a v l r p 0) → BST t1) ∧ (ParentsOK (node a v l r p 0) → ParentsOK t1) := by
  obtain ⟨k, rfl | rfl | rfl | rfl | rfl⟩ := unwind_cases e
  · exact ⟨rfl, rfl, rfl, bst_node_height _ _ _ _ _ _ _, parentsOK_node_height _ _ _ _ _ _ _⟩
  · exact ⟨inorder_rightSingleRotate _, addrs_rightSingleRotate _,
      parentPtr_rightSingleRotate _,
      fun h => bst_rightSingleRotate _ (bst_node_height _ _ _ _ _ _ _ h),
      fun h => parentsOK_rightSingleRotate _ (parentsOK_node_height _ _ _ _ _ _ _ h)⟩
  · exact ⟨inorder_leftRightRotate _, addrs_leftRightRotate _,
      parentPtr_leftRightRotate _,
      fun h => bst_leftRightRotate _ (bst_node_height _ _ _ _ _ _ _ h),
      fun h => parentsOK_leftRightRotate _ (parentsOK_node_height _ _ _ _ _ _ _ h)⟩
  · exact ⟨inorder_leftSingleRotate _, addrs_leftSingleRotate _,
      parentPtr_leftSingleRotate _,
      fun h => bst_leftSingleRotate _ (bst_node_height _ _ _ _ _ _ _ h),
      fun h => parentsOK_leftSingleRotate _ (parentsOK_node_height _ _ _ _ _ _ _ h)⟩
  · exact ⟨inorder_rightLeftRotate _, addrs_rightLeftRotate _,
      parentPtr_rightLeftRotate _,
      fun h => bst_rightLeftRotate _ (bst_node_height _ _ _ _ _ _ _ h),
      fun h => parentsOK_rightLeftRotate _ (parentsOK_node_height _ _ _ _ _ _ _ h)⟩

theorem insertHelp_node_cases {a : Nat} {v : Int} {l r : BinaryTreeNode} {p : Option Nat}
    {h x : Int} {c n c1 n1 : Nat} {t1 : BinaryTreeNode}
    (e : _insertHelp (node a v l r p h) x c n = some (t1, c1, n1)) :
    (x < v ∧ ∃ l1, _insertHelp l x c n = some (l1, c1, n1) ∧
        unwind a v (setParent l1 (some a)) r p x = some t1) ∨
      (v < x ∧ ∃ r1, _insertHelp r x c n = some (r1, c1, n1) ∧
        unwind a v l (setParent r1 (some a)) p x = some t1) ∨
      (x = v ∧ t1 = node a v l r p h ∧ c1 = c ∧ n1 = n) := by
  simp only [_insertHelp] at e
  split_ifs at e with h1 h2
  · left
    refine ⟨h1, ?_⟩
    rcases hl : _insertHelp l x c n with _ | ⟨l1, c2, n2⟩
    · simp [hl] at e
    · simp only [hl, Option.map_eq_some', Prod.mk.injEq] at e
      obtain ⟨t2, e1, rfl, rfl, rfl⟩ := e
      exact ⟨l1, rfl, e1⟩
  · right; left
    refine ⟨h2, ?_⟩
    rcases hr : _insertHelp r x c n with _ | ⟨r1, c2, n2⟩
    · simp [hr] at e
    · simp only [hr, Option.map_eq_some', Prod.mk.injEq] at e
      obtain ⟨t2, e1, rfl, rfl, rfl⟩ := e
      exact ⟨r1, rfl, e1⟩
  · right; right
    simp only [Option.some.injEq, Prod.mk.injEq] at e
    exact ⟨by omega, e.1.symm, e.2.1.symm, e.2.2.symm⟩

theorem Adds.mem_iff {t t1 : BinaryTreeNode} {x : Int} {c n c1 n1 : Nat}
    (h : Adds t t1 x c n c1 n1) (y : Int) :
    y ∈ _inorderHelp t1 ↔ y = x ∨ y ∈ _inorderHelp t := by
  rcases h with ⟨hx, -, -, -, e⟩ | ⟨-, -, -, e⟩
  · rw [e]
    constructor
    · exact Or.inr
    · rintro (rfl | h)
      · exact hx
      · exact h
  · rw [e.mem_iff, List.mem_cons]

theorem insertHelp_adds {t : BinaryTreeNode} {x : Int} {c n c1 n1 : Nat} {t1 : BinaryTreeNode}
    (e : _insertHelp t x c n = some (t1, c1, n1)) :
    Adds t t1 x c n c1 n1 ∧ parentPtr t1 = parentPtr t := by
  induction t generalizing t1 with
  | null =>
      simp only [_insertHelp, Option.some.injEq, Prod.mk.injEq] at e
      obtain ⟨rfl, rfl, rfl⟩ := e
      exact ⟨Or.inr ⟨rfl, rfl, by simp [addrs], by simp [_inorderHelp]⟩, rfl⟩
  | node a v l r p h ihl ihr =>
      rcases insertHelp_node_cases e with ⟨hlt, l1, e1, e2⟩ | ⟨hgt, r1, e1, e2⟩ |
        ⟨rfl, rfl, rfl, rfl⟩
      · obtain ⟨hi, ha, hp, -, -⟩ := unwind_spec e2
        refine ⟨?_, hp⟩
        rcases (ihl e1).1 with ⟨hx, rfl, rfl, ea, ei⟩ | ⟨rfl, rfl, ea, ei⟩
        · left
          refine ⟨?_, rfl, rfl, ?_, ?_⟩
          · simp [_inorderHelp, hx]
          · simp [ha, addrs, ea]
          · simp [hi, _inorderHelp, ei]
        · right
          refine ⟨rfl, rfl, ?_, ?_⟩
          · simp only [ha, addrs, addrs_setParent]
            exact (ea.append_right _)
          · simp only [hi, _inorderHelp, inorder_setParent]
            exact (ei.append_right _)
      · obtain ⟨hi, ha, hp, -, -⟩ := unwind_spec e2
        refine ⟨?_, hp⟩
        rcases (ihr e1).1 with ⟨hx, rfl, rfl, ea, ei⟩ | ⟨rfl, rfl, ea, ei⟩
        · left
          refine ⟨?_, rfl, rfl, ?_, ?_⟩
          · simp [_inorderHelp, hx]
          · simp [ha, addrs, ea]
          · simp [hi, _inorderHelp, ei]
        · right
          refine ⟨rfl, rfl, ?_, ?_⟩
          · simp only [ha, addrs, addrs_setParent]
            exact ((ea.cons a).append_left (addrs l)).trans
              (((List.Perm.swap n a _).append_left _).trans List.perm_middle)
          · simp only [hi, _inorderHelp, inorder_setParent]
            exact ((ei.cons v).append_left (_inorderHelp l)).trans
              (((List.Perm.swap x v _).append_left _).trans List.perm_middle)
      · exact ⟨Or.inl ⟨by simp [_inorderHelp], rfl, rfl, rfl, rfl⟩, rfl⟩

theorem insertHelp_bst {t : BinaryTreeNode} {x : Int} {c n c1 n1 : Nat} {t1 : BinaryTreeNode}
    (e : _insertHelp t x c n = some (t1, c1, n1)) (ht : BST t) : BST t1 := by
  induction t generalizing t1 with
  | null =>
      simp only [_insertHelp, Option.some.injEq, Prod.mk.injEq] at e
      obtain ⟨rfl, rfl, rfl⟩ := e
      simp [BST, _inorderHelp]
  | node a v l r p h ihl ihr =>
      simp only [BST] at ht
      obtain ⟨hl, hr, h1, h2⟩ := ht
      rcases insertHelp_node_cases e with ⟨hlt, l1, e1, e2⟩ | ⟨hgt, r1, e1, e2⟩ |
        ⟨rfl, rfl, rfl, rfl⟩
      · apply (unwind_spec e2).2.2.2.1
        simp only [BST, bst_setParent, inorder_setParent]
        refine ⟨ihl e1 hl, hr, ?_, h2⟩
        intro y hy
        rcases ((insertHelp_adds e1).1.mem_iff y).1 hy with rfl | hy
        · exact hlt
        · exact h1 y hy
      · apply (unwind_spec e2).2.2.2.1
        simp only [BST, bst_setParent, inorder_setParent]
        refine ⟨hl, ihr e1 hr, h1, ?_⟩
        intro y hy
        rcases ((insertHelp_adds e1).1.mem_iff y).1 hy with rfl | hy
        · exact hgt
        · exact h2 y hy
      · simp only [BST]
        exact ⟨hl, hr, h1, h2⟩

theorem insertHelp_parentsOK {t : BinaryTreeNode} {x : Int} {c n c1 n1 : Nat}
    {t1 : BinaryTreeNode} (e : _insertHelp t x c n = some (t1, c1, n1)) (ht : ParentsOK t) :
    ParentsOK t1 := by
  induction t generalizing t1 with
  | null =>
      simp only [_insertHelp, Option.some.injEq, Prod.mk.injEq] at e
      obtain ⟨rfl, rfl, rfl⟩ := e
      simp [ParentsOK]
  | node a v l r p h ihl ihr =>
      simp only [ParentsOK] at ht
      obtain ⟨hl, hr, h1, h2⟩ := ht
      rcases insertHelp_node_cases e with ⟨hlt, l1, e1, e2⟩ | ⟨hgt, r1, e1, e2⟩ |
        ⟨rfl, rfl, rfl, rfl⟩
      · apply (unwind_spec e2).2.2.2.2
        simp only [ParentsOK, parentsOK_setParent, setParent_setParent]
        exact ⟨ihl e1 hl, hr, trivial, h2⟩
      · apply (unwind_spec e2).2.2.2.2
        simp only [ParentsOK, parentsOK_setParent, setParent_setParent]
        exact ⟨hl, ihr e1 hr, h1, trivial⟩
      · simp only [ParentsOK]
        exact ⟨hl, hr, h1, h2⟩

/-- Inserting an item that is stored in a well-formed subtree returns the subtree, the
counter and the allocator as they were. -/
theorem insertHelp_present (x : Int) (c n : Nat) (t : BinaryTreeNode) (havl : Avl t)
    (hbst : BST t) (hpar : ParentsOK t) (hx : x ∈ _inorderHelp t) :
    _insertHelp t x c n = some (t, c, n) := by
  induction t with
  | null => simp [_inorderHelp] at hx
  | node a v l r p h ihl ihr =>
      simp only [Avl] at havl
      obtain ⟨al, ar, hh, hb1, hb2⟩ := havl
      simp only [BST] at hbst
      obtain ⟨bl, br, h1, h2⟩ := hbst
      simp only [ParentsOK] at hpar
      obtain ⟨pl, pr, q1, q2⟩ := hpar
      simp only [_inorderHelp, List.mem_append, List.mem_cons] at hx
      have e1 := getHeight_eq_height al
      have e2 := getHeight_eq_height ar
      rcases lt_trichotomy x v with hlt | heq | hgt
      · have hxl : x ∈ _inorderHelp l := by
          rcases hx with hx | hx | hx
          · exact hx
          · omega
          · have := h2 x hx
            omega
        have c1 : ¬ height l - height r > 1 := by omega
        have c2 : ¬ height l - height r < -1 := by omega
        simp only [_insertHelp, if_pos hlt, ihl al bl pl hxl, q1, unwind, e1, e2, if_neg c1,
          if_neg c2, Option.map_some', ← hh]
      · subst heq
        simp [_insertHelp]
      · have hxr : x ∈ _inorderHelp r := by
          rcases hx with hx | hx | hx
          · have := h1 x hx
            omega
          · omega
          · exact hx
        have hnlt : ¬ x < v := by omega
        have c1 : ¬ height l - height r > 1 := by omega
        have c2 : ¬ height l - height r < -1 := by omega
        simp only [_insertHelp, if_neg hnlt, if_pos hgt, ihr ar br pr hxr, q2, unwind, e1, e2,
          if_neg c1, if_neg c2, Option.map_some', ← hh]

/-! The invariant of the whole tree under `insert`, `clear` and sequences of them. -/

theorem inv_new (next : Nat) : Inv AVLTree.new next :=
  ⟨trivial, trivial, trivial, rfl, List.nodup_nil, by simp [AVLTree.new, addrs], rfl⟩

theorem inv_clear (t : AVLTree) (next : Nat) : Inv t.clear next :=
  ⟨trivial, trivial, trivial, rfl, List.nodup_nil, by simp [AVLTree.clear, addrs], rfl⟩

theorem inv_insert {t : AVLTree} {next : Nat} (ht : Inv t next) (x : Int) :
    ∃ t1 next1, t.insert x next = some (t1, next1) ∧ Inv t1 next1 ∧ next ≤ next1 ∧
      Adds t._root t1._root x t._count next t1._count next1 := by
  obtain ⟨r1, c1, n1, e, havl, -⟩ := insertHelp_avl x t._count next t._root ht.avl
  obtain ⟨hadds, hp⟩ := insertHelp_adds e
  refine ⟨⟨r1, c1⟩, n1, by simp [AVLTree.insert, e], ?_, ?_, hadds⟩
  · refine ⟨havl, insertHelp_bst e ht.bst, insertHelp_parentsOK e ht.parents,
      hp.trans ht.rootParent, ?_, ?_, ?_⟩
    · rcases hadds with ⟨-, -, -, ea, -⟩ | ⟨-, -, ea, -⟩
      · simpa only [ea] using ht.nodup
      · refine ea.nodup_iff.2 (List.nodup_cons.2 ⟨?_, ht.nodup⟩)
        intro hmem
        exact absurd (ht.below _ hmem) (lt_irrefl _)
    · rcases hadds with ⟨-, -, rfl, ea, -⟩ | ⟨-, rfl, ea, -⟩
      · simpa only [ea] using ht.below
      · intro b hb
        rcases List.mem_cons.1 (ea.mem_iff.1 hb) with rfl | hb
        · exact Nat.lt_succ_self _
        · exact Nat.lt_succ_of_lt (ht.below b hb)
    · have hc := ht.count
      rcases hadds with ⟨-, rfl, -, -, ei⟩ | ⟨rfl, -, -, ei⟩
      · simp only [ei]
        exact hc
      · simp only [ei.length_eq, List.length_cons, hc]
  · rcases hadds with ⟨-, -, rfl, -, -⟩ | ⟨-, rfl, -, -⟩
    · exact le_rfl
    · exact Nat.le_succ _

theorem inv_insertAll (xs : List Int) {s : AVLTree × Nat} (hs : Inv s.1 s.2) :
    ∃ s1, insertAll xs s = some s1 ∧ Inv s1.1 s1.2 ∧
      ∀ y, y ∈ _inorderHelp s1.1._root ↔ y ∈ xs ∨ y ∈ _inorderHelp s.1._root := by
  induction xs generalizing s with
  | nil => exact ⟨s, rfl, hs, by simp⟩
  | cons x xs ih =>
      obtain ⟨t1, n1, e, h1, -, hadds⟩ := inv_insert hs x
      obtain ⟨s2, e2, h2, hm⟩ := ih (s := (t1, n1)) h1
      refine ⟨s2, by simp [insertAll, e, e2], h2, ?_⟩
      intro y
      rw [hm y, hadds.mem_iff y, List.mem_cons]
      tauto

/-! Facts about the nodes of a tree. -/

theorem mem_nodes_ne_null {t m : BinaryTreeNode} (h : m ∈ nodes t) : m ≠ null := by
  induction t with
  | null => simp [nodes] at h
  | node a v l r p hh ihl ihr =>
      simp only [nodes, List.mem_append, List.mem_cons] at h
      rcases h with h | rfl | h
      · exact ihl h
      · simp
      · exact ihr h

theorem avl_of_mem_nodes {t m : BinaryTreeNode} (ht : Avl t) (h : m ∈ nodes t) : Avl m := by
  induction t with
  | null => simp [nodes] at h
  | node a v l r p hh ihl ihr =>
      simp only [nodes, List.mem_append, List.mem_cons] at h
      rcases h with h | rfl | h
      · exact ihl (by simp only [Avl] at ht; exact ht.1) h
      · exact ht
      · exact ihr (by simp only [Avl] at ht; exact ht.2.1) h

theorem bst_of_mem_nodes {t m : BinaryTreeNode} (ht : BST t) (h : m ∈ nodes t) : BST m := by
  induction t with
  | null => simp [nodes] at h
  | node a v l r p hh ihl ihr =>
      simp only [nodes, List.mem_append, List.mem_cons] at h
      rcases h with h | rfl | h
      · exact ihl (by simp only [BST] at ht; exact ht.1) h
      · exact ht
      · exact ihr (by simp only [BST] at ht; exact ht.2.1) h

theorem item_mem_inorder {t m : BinaryTreeNode} {x : Int} (h : m ∈ nodes t)
    (hx : item m = some x) : x ∈ _inorderHelp t := by
  induction t with
  | null => simp [nodes] at h
  | node a v l r p hh ihl ihr =>
      simp only [nodes, List.mem_append, List.mem_cons] at h
      simp only [_inorderHelp, List.mem_append, List.mem_cons]
      rcases h with h | rfl | h
      · exact Or.inl (ihl h)
      · simp only [item, Option.some.injEq] at hx
        exact Or.inr (Or.inl hx.symm)
      · exact Or.inr (Or.inr (ihr h))

theorem bst_sorted {t : BinaryTreeNode} (ht : BST t) : (_inorderHelp t).Sorted (· < ·) := by
  induction t with
  | null => simp [_inorderHelp]
  | node a v l r p hh ihl ihr =>
      simp only [BST] at ht
      obtain ⟨hl, hr, h1, h2⟩ := ht
      simp only [_inorderHelp, List.Sorted, List.pairwise_append, List.pairwise_cons,
        List.mem_cons]
      refine ⟨ihl hl, ⟨h2, ihr hr⟩, ?_⟩
      rintro y hy z (rfl | hz)
      · exact h1 y hy
      · exact lt_trans (h1 y hy) (h2 z hz)

/-! Lookup by item. -/

theorem findHelp_null_or (t : BinaryTreeNode) (x : Int) :
    _findHelp t x = null ∨ (_findHelp t x ∈ nodes t ∧ item (_findHelp t x) = some x) := by
  induction t with
  | null => exact Or.inl rfl
  | node a v l r p hh ihl ihr =>
      simp only [_findHelp, nodes, List.mem_append, List.mem_cons]
      split_ifs with h1 h2
      · exact Or.inr ⟨Or.inr (Or.inl rfl), by simp [item, h1]⟩
      · exact ihl.imp id (fun h => ⟨Or.inl h.1, h.2⟩)
      · exact ihr.imp id (fun h => ⟨Or.inr (Or.inr h.1), h.2⟩)

/-- On an ordered tree `_findHelp` returns the very node that holds the item. -/
theorem findHelp_eq_of_mem_nodes {t m : BinaryTreeNode} {x : Int} (ht : BST t)
    (h : m ∈ nodes t) (hx : item m = some x) : _findHelp t x = m := by
  induction t with
  | null => simp [nodes] at h
  | node a v l r p hh ihl ihr =>
      simp only [BST] at ht
      obtain ⟨hl, hr, h1, h2⟩ := ht
      simp only [nodes, List.mem_append, List.mem_cons] at h
      rcases h with h | rfl | h
      · have hlt := h1 x (item_mem_inorder h hx)
        have hne : ¬ v = x := by omega
        simp only [_findHelp, if_neg hne, if_pos hlt]
        exact ihl hl h
      · simp only [item, Option.some.injEq] at hx
        simp [_findHelp, hx]
      · have hgt := h2 x (item_mem_inorder h hx)
        have hne : ¬ v = x := by omega
        have hnlt : ¬ x < v := by omega
        simp only [_findHelp, if_neg hne, if_neg hnlt]
        exact ihr hr h

theorem exists_node_of_mem_inorder {t : BinaryTreeNode} {x : Int} (hx : x ∈ _inorderHelp t) :
    ∃ m, m ∈ nodes t ∧ item m = some x := by
  induction t with
  | null => simp [_inorderHelp] at hx
  | node a v l r p hh ihl ihr =>
      simp only [_inorderHelp, List.mem_append, List.mem_cons] at hx
      simp only [nodes, List.mem_append, List.mem_cons]
      rcases hx with hx | rfl | hx
      · obtain ⟨m, hm, e⟩ := ihl hx
        exact ⟨m, Or.inl hm, e⟩
      · exact ⟨_, Or.inr (Or.inl rfl), rfl⟩
      · obtain ⟨m, hm, e⟩ := ihr hx
        exact ⟨m, Or.inr (Or.inr hm), e⟩

/-! Leftmost and rightmost node. -/

theorem minimumNodeHelp_spec (a : Nat) (v : Int) (l r : BinaryTreeNode) (p : Option Nat)
    (h : Int) :
    ∃ m rest, item (_minimumNodeHelp (node a v l r p h)) = some m ∧
      _inorderHelp (node a v l r p h) = m :: rest ∧
      _minimumNodeHelp (node a v l r p h) ∈ nodes (node a v l r p h) := by
  induction l generalizing a v r p h with
  | null => exact ⟨v, _inorderHelp r, rfl, rfl, by simp [_minimumNodeHelp, nodes]⟩
  | node b w ll lr pb hb ihl _ =>
      obtain ⟨m, rest, e1, e2, e3⟩ := ihl b w lr pb hb
      refine ⟨m, rest ++ v :: _inorderHelp r, ?_, ?_, ?_⟩
      · simpa only [_minimumNodeHelp] using e1
      · rw [_inorderHelp, e2]
        rfl
      · rw [_minimumNodeHelp, nodes]
        exact List.mem_append_left _ e3

theorem maximumNodeHelp_spec (a : Nat) (v : Int) (l r : BinaryTreeNode) (p : Option Nat)
    (h : Int) :
    ∃ m rest, item (_maximumNodeHelp (node a v l r p h)) = some m ∧
      _inorderHelp (node a v l r p h) = rest ++ [m] ∧
      _maximumNodeHelp (node a v l r p h) ∈ nodes (node a v l r p h) := by
  induction r generalizing a v l p h with
  | null => exact ⟨v, _inorderHelp l, rfl, rfl, by simp [_maximumNodeHelp, nodes]⟩
  | node b w rl rr pb hb _ ihr =>
      obtain ⟨m, rest, e1, e2, e3⟩ := ihr b w rl pb hb
      refine ⟨m, _inorderHelp l ++ v :: rest, ?_, ?_, ?_⟩
      · simpa only [_maximumNodeHelp] using e1
      · rw [_inorderHelp, e2]
        simp
      · rw [_maximumNodeHelp, nodes]
        exact List.mem_append_right _ (List.mem_cons_of_mem _ e3)

theorem inv_run (ops : List Op) {s : AVLTree × Nat} (hs : Inv s.1 s.2) :
    ∃ s1, run ops s = some s1 ∧ Inv s1.1 s1.2 := by
  induction ops generalizing s with
  | nil => exact ⟨s, rfl, hs⟩
  | cons op ops ih =>
      cases op with
      | insert x =>
          obtain ⟨t1, n1, e, h1, -, -⟩ := inv_insert hs x
          obtain ⟨s2, e2, h2⟩ := ih (s := (t1, n1)) h1
          exact ⟨s2, by simp [run, e, e2], h2⟩
      | clear =>
          obtain ⟨s2, e2, h2⟩ := ih (s := (s.1.clear, s.2)) (inv_clear s.1 s.2)
          exact ⟨s2, by simp [run, e2], h2⟩

/-! The claims. -/

/-- C1: AVL balance is kept by insert.  For every allocator state and every finite
sequence of insert calls on the empty tree, the calls return and every node of the
resulting tree has subtrees whose recursive heights differ by at most one. -/
theorem C1_balance_kept_by_insert (next : Nat) (xs : List Int) :
    ∃ t next1, insertAll xs (AVLTree.new, next) = some (t, next1) ∧
      ∀ a v l r p h, node a v l r p h ∈ nodes t._root → |height l - height r| ≤ 1 := by
  obtain ⟨s1, e, hinv, -⟩ := inv_insertAll xs (s := (AVLTree.new, next)) (inv_new next)
  refine ⟨s1.1, s1.2, e, ?_⟩
  intro a v l r p h hm
  have := avl_of_mem_nodes hinv.avl hm
  simp only [Avl] at this
  rw [abs_le]
  omega

/-- C2: binary-search-tree order is kept by insert.  In every tree built by inserts from
the empty tree, at every node all items of the left subtree are strictly less than the
item of the node and all items of the right subtree are strictly greater. -/
theorem C2_order_kept_by_insert (next : Nat) (xs : List Int) :
    ∃ t next1, insertAll xs (AVLTree.new, next) = some (t, next1) ∧
      ∀ a v l r p h, node a v l r p h ∈ nodes t._root →
        (∀ y ∈ _inorderHelp l, y < v) ∧ (∀ y ∈ _inorderHelp r, v < y) := by
  obtain ⟨s1, e, hinv, -⟩ := inv_insertAll xs (s := (AVLTree.new, next)) (inv_new next)
  refine ⟨s1.1, s1.2, e, ?_⟩
  intro a v l r p h hm
  have := bst_of_mem_nodes hinv.bst hm
  simp only [BST] at this
  exact this.2.2

/-- C3: height cache correctness.  In every tree built by inserts from the empty tree the
stored height of every node is the recursive height of its subtree, and the stored
height read through getHeight agrees with the recursive height at the root too. -/
theorem C3_height_cache_correct (next : Nat) (xs : List Int) :
    ∃ t next1, insertAll xs (AVLTree.new, next) = some (t, next1) ∧
      getHeight t._root = height t._root ∧
      ∀ a v l r p h, node a v l r p h ∈ nodes t._root →
        h = height (node a v l r p h) ∧ h = 1 + max (height l) (height r) := by
  obtain ⟨s1, e, hinv, -⟩ := inv_insertAll xs (s := (AVLTree.new, next)) (inv_new next)
  refine ⟨s1.1, s1.2, e, getHeight_eq_height hinv.avl, ?_⟩
  intro a v l r p h hm
  have := avl_of_mem_nodes hinv.avl hm
  simp only [Avl] at this
  exact ⟨by simp only [height]; exact this.2.2.1, this.2.2.1⟩

/-- C4: inserting the elements of a list one by one into an empty tree yields a tree whose
inorder is the strictly ascending sorted list of the distinct elements of the list. -/
theorem C4_inorder_sorted_distinct (next : Nat) (xs : List Int) :
    ∃ t next1, insertAll xs (AVLTree.new, next) = some (t, next1) ∧
      t.inorder = xs.toFinset.sort (· ≤ ·) ∧ t.inorder.Sorted (· < ·) ∧
      ∀ y, y ∈ t.inorder ↔ y ∈ xs := by
  obtain ⟨s1, e, hinv, hm⟩ := inv_insertAll xs (s := (AVLTree.new, next)) (inv_new next)
  have hsorted := bst_sorted hinv.bst
  have hmem : ∀ y, y ∈ _inorderHelp s1.1._root ↔ y ∈ xs := by
    intro y
    rw [hm y]
    simp [AVLTree.new, _inorderHelp]
  refine ⟨s1.1, s1.2, e, ?_, hsorted, hmem⟩
  have hfin : xs.toFinset = (_inorderHelp s1.1._root).toFinset := by
    ext y
    simp [hmem y]
  simp only [AVLTree.inorder]
  rw [hfin]
  exact ((List.toFinset_sort (· ≤ ·) hsorted.nodup).2 hsorted.le_of_lt).symm

/-- C5: duplicate insertion is a no-op.  For every tree built by inserts and every item
stored in it, insert returns the same tree value (same count, same root, and below it
the same shape, items, stored heights, addresses and parent links) and leaves the
allocator untouched; in particular count and inorder are unchanged. -/
theorem C5_duplicate_insert_noop (next : Nat) (xs : List Int) :
    ∃ t next1, insertAll xs (AVLTree.new, next) = some (t, next1) ∧
      ∀ x, x ∈ t.inorder → t.insert x next1 = some (t, next1) ∧
        ∀ t1 n1, t.insert x next1 = some (t1, n1) →
          t1.count = t.count ∧ t1.inorder = t.inorder ∧ t1._root = t._root := by
  obtain ⟨s1, e, hinv, -⟩ := inv_insertAll xs (s := (AVLTree.new, next)) (inv_new next)
  refine ⟨s1.1, s1.2, e, ?_⟩
  intro x hx
  have key : s1.1.insert x s1.2 = some (s1.1, s1.2) := by
    simp [AVLTree.insert,
      insertHelp_present x s1.1._count s1.2 s1.1._root hinv.avl hinv.bst hinv.parents hx]
  refine ⟨key, ?_⟩
  intro t1 n1 e1
  rw [key] at e1
  simp only [Option.some.injEq, Prod.mk.injEq] at e1
  obtain ⟨rfl, rfl⟩ := e1
  exact ⟨rfl, rfl, rfl⟩

/-- C6: count equals the number of stored nodes.  After every finite sequence of insert
and clear calls on a newly constructed tree, the calls return and count equals the
length of inorder. -/
theorem C6_count_eq_length_inorder (next : Nat) (ops : List Op) :
    ∃ t next1, run ops (AVLTree.new, next) = some (t, next1) ∧
      t.count = t.inorder.length := by
  obtain ⟨s1, e, hinv⟩ := inv_run ops (s := (AVLTree.new, next)) (inv_new next)
  exact ⟨s1.1, s1.2, e, hinv.count⟩

/-- C7: find is correct on every tree built by inserts.  It returns a node exactly when
the item is in inorder; the node returned is a node of the tree holding that item; and
for an item that is not stored it returns the null pointer. -/
theorem C7_find_correct (next : Nat) (xs : List Int) :
    ∃ t next1, insertAll xs (AVLTree.new, next) = some (t, next1) ∧
      ∀ x, (t.find x ≠ null ↔ x ∈ t.inorder) ∧
        (t.find x ≠ null → t.find x ∈ nodes t._root ∧ item (t.find x) = some x) ∧
        (x ∉ t.inorder → t.find x = null) := by
  obtain ⟨s1, e, hinv, -⟩ := inv_insertAll xs (s := (AVLTree.new, next)) (inv_new next)
  refine ⟨s1.1, s1.2, e, ?_⟩
  intro x
  simp only [AVLTree.find, AVLTree.inorder]
  have h1 : _findHelp s1.1._root x ≠ null → x ∈ _inorderHelp s1.1._root := by
    intro hne
    rcases findHelp_null_or s1.1._root x with h | ⟨hm, hi⟩
    · exact absurd h hne
    · exact item_mem_inorder hm hi
  have h2 : x ∈ _inorderHelp s1.1._root → _findHelp s1.1._root x ≠ null := by
    intro hx
    obtain ⟨m, hm, hi⟩ := exists_node_of_mem_inorder hx
    rw [findHelp_eq_of_mem_nodes hinv.bst hm hi]
    exact mem_nodes_ne_null hm
  refine ⟨⟨h1, h2⟩, ?_, ?_⟩
  · intro hne
    exact (findHelp_null_or s1.1._root x).resolve_left hne
  · intro hx
    by_contra hne
    exact hx (h1 hne)

/-- C10: minimumNode is correct.  On every tree built by inserts, minimumNode returns the
null pointer exactly when the tree is empty; otherwise it returns a node of the tree
that holds the first element of inorder, which is the least stored item, and it is the
very node that find returns for that item. -/
theorem C10_minimumNode_correct (next : Nat) (xs : List Int) :
    ∃ t next1, insertAll xs (AVLTree.new, next) = some (t, next1) ∧
      (t.minimumNode = null ↔ t.inorder = []) ∧ (t.minimumNode = null ↔ t.count = 0) ∧
      ∀ m rest, t.inorder = m :: rest →
        t.minimumNode ∈ nodes t._root ∧ item t.minimumNode = some m ∧
          (∀ y ∈ t.inorder, m ≤ y) ∧ t.find m = t.minimumNode := by
  obtain ⟨s1, e, hinv, -⟩ := inv_insertAll xs (s := (AVLTree.new, next)) (inv_new next)
  refine ⟨s1.1, s1.2, e, ?_⟩
  have hcount := hinv.count
  have hbst := hinv.bst
  simp only [AVLTree.minimumNode, AVLTree.inorder, AVLTree.count, AVLTree.find]
  rcases hroot : s1.1._root with _ | ⟨a, v, l, r, p, h⟩
  · rw [hroot] at hcount
    simp [_minimumNodeHelp, _inorderHelp, hcount]
  · rw [hroot] at hcount hbst
    obtain ⟨m0, rest0, e1, e2, e3⟩ := minimumNodeHelp_spec a v l r p h
    have hne := mem_nodes_ne_null e3
    refine ⟨?_, ?_, ?_⟩
    · simp [hne, e2]
    · simp [hne, hcount, e2]
    · intro m rest hm
      rw [e2] at hm
      simp only [List.cons.injEq] at hm
      obtain ⟨rfl, rfl⟩ := hm
      refine ⟨e3, e1, ?_, findHelp_eq_of_mem_nodes hbst e3 e1⟩
      have hs := bst_sorted hbst
      rw [e2] at hs ⊢
      intro y hy
      rcases List.mem_cons.1 hy with rfl | hy
      · exact le_rfl
      · exact le_of_lt (List.rel_of_sorted_cons hs y hy)

/-! Addresses, dereferencing and the climb along parent links. -/

theorem mem_nodes_self (a : Nat) (v : Int) (l r : BinaryTreeNode) (p : Option Nat) (h : Int) :
    node a v l r p h ∈ nodes (node a v l r p h) := by
  simp [nodes]

theorem mem_nodes_trans {m t s : BinaryTreeNode} (h1 : m ∈ nodes t) (h2 : t ∈ nodes s) :
    m ∈ nodes s := by
  induction s with
  | null => simp [nodes] at h2
  | node a v l r p hh ihl ihr =>
      simp only [nodes, List.mem_append, List.mem_cons] at h2
      rcases h2 with h2 | rfl | h2
      · simp only [nodes, List.mem_append, List.mem_cons]
        exact Or.inl (ihl h2)
      · exact h1
      · simp only [nodes, List.mem_append, List.mem_cons]
        exact Or.inr (Or.inr (ihr h2))

theorem length_nodes (t : BinaryTreeNode) : (nodes t).length = (_inorderHelp t).length := by
  induction t with
  | null => rfl
  | node a v l r p hh ihl ihr => simp [nodes, _inorderHelp, ihl, ihr]

theorem ptr_mem_addrs {t m : BinaryTreeNode} {b : Nat} (h : m ∈ nodes t)
    (hb : ptr m = some b) : b ∈ addrs t := by
  induction t with
  | null => simp [nodes] at h
  | node a v l r p hh ihl ihr =>
      simp only [nodes, List.mem_append, List.mem_cons] at h
      simp only [addrs, List.mem_append, List.mem_cons]
      rcases h with h | rfl | h
      · exact Or.inl (ihl h)
      · simp only [ptr, Option.some.injEq] at hb
        exact Or.inr (Or.inl hb.symm)
      · exact Or.inr (Or.inr (ihr h))

theorem lookup_eq_null {t : BinaryTreeNode} {b : Nat} (h : b ∉ addrs t) :
    lookup t b = null := by
  induction t with
  | null => rfl
  | node a v l r p hh ihl ihr =>
      simp only [addrs, List.mem_append, List.mem_cons, not_or] at h
      have hne : ¬ a = b := fun e => h.2.1 e.symm
      simp only [lookup, if_neg hne, ihl h.1, ihr h.2.2]

theorem lookup_eq_of_mem {t m : BinaryTreeNode} {b : Nat} (hnd : (addrs t).Nodup)
    (h : m ∈ nodes t) (hb : ptr m = some b) : lookup t b = m := by
  induction t with
  | null => simp [nodes] at h
  | node a v l r p hh ihl ihr =>
      simp only [addrs, List.nodup_append, List.nodup_cons] at hnd
      obtain ⟨hl, ⟨har, hr⟩, hdis⟩ := hnd
      simp only [nodes, List.mem_append, List.mem_cons] at h
      rcases h with h | rfl | h
      · have hbl := ptr_mem_addrs h hb
        have hne : ¬ a = b := by
          rintro rfl
          exact hdis hbl (List.mem_cons_self _ _)
        have e := ihl hl h
        have hmn := mem_nodes_ne_null h
        rcases m with _ | ⟨a1, v1, l1, r1, p1, h1⟩
        · exact absurd rfl hmn
        · simp only [lookup, if_neg hne, e]
      · simp only [ptr, Option.some.injEq] at hb
        simp [lookup, hb]
      · have hbr := ptr_mem_addrs h hb
        have hne : ¬ a = b := by
          rintro rfl
          exact har hbr
        have hbl : b ∉ addrs l := fun hbl => hdis hbl (List.mem_cons_of_mem _ hbr)
        simp only [lookup, if_neg hne, lookup_eq_null hbl]
        exact ihr hr h

theorem parentsOK_of_mem_nodes {t m : BinaryTreeNode} (ht : ParentsOK t) (h : m ∈ nodes t) :
    ParentsOK m := by
  induction t with
  | null => simp [nodes] at h
  | node a v l r p hh ihl ihr =>
      simp only [nodes, List.mem_append, List.mem_cons] at h
      rcases h with h | rfl | h
      · exact ihl (by simp only [ParentsOK] at ht; exact ht.1) h
      · exact ht
      · exact ihr (by simp only [ParentsOK] at ht; exact ht.2.1) h

theorem nodup_addrs_of_mem_nodes {t m : BinaryTreeNode} (ht : (addrs t).Nodup)
    (h : m ∈ nodes t) : (addrs m).Nodup := by
  induction t with
  | null => simp [nodes] at h
  | node a v l r p hh ihl ihr =>
      simp only [nodes, List.mem_append, List.mem_cons] at h
      have ht1 := ht
      simp only [addrs, List.nodup_append, List.nodup_cons] at ht1
      rcases h with h | rfl | h
      · exact ihl ht1.1 h
      · exact ht
      · exact ihr ht1.2.1.2 h

/-- The items of a subtree of an ordered tree form an interval of the stored items: an
item of the tree outside the subtree is below all of the subtree or above all of it. -/
theorem subtree_interval {t m : BinaryTreeNode} (ht : BST t) (h : m ∈ nodes t) {y : Int}
    (hy : y ∈ _inorderHelp t) :
    y ∈ _inorderHelp m ∨ (∀ z ∈ _inorderHelp m, y < z) ∨ (∀ z ∈ _inorderHelp m, z < y) := by
  induction t with
  | null => simp [nodes] at h
  | node a v l r p hh ihl ihr =>
      simp only [BST] at ht
      obtain ⟨hl, hr, h1, h2⟩ := ht
      simp only [nodes, List.mem_append, List.mem_cons] at h
      rcases h with h | rfl | h
      · have hsub : ∀ z ∈ _inorderHelp m, z < v := by
          intro z hz
          obtain ⟨k, hk, ek⟩ := exists_node_of_mem_inorder hz
          exact h1 z (item_mem_inorder (mem_nodes_trans hk h) ek)
        simp only [_inorderHelp, List.mem_append, List.mem_cons] at hy
        rcases hy with hy | rfl | hy
        · exact ihl hl h hy
        · exact Or.inr (Or.inr hsub)
        · exact Or.inr (Or.inr (fun z hz => lt_trans (hsub z hz) (h2 y hy)))
      · exact Or.inl hy
      · have hsub : ∀ z ∈ _inorderHelp m, v < z := by
          intro z hz
          obtain ⟨k, hk, ek⟩ := exists_node_of_mem_inorder hz
          exact h2 z (item_mem_inorder (mem_nodes_trans hk h) ek)
        simp only [_inorderHelp, List.mem_append, List.mem_cons] at hy
        rcases hy with hy | rfl | hy
        · exact Or.inr (Or.inl (fun z hz => lt_trans (h1 y hy) (hsub z hz)))
        · exact Or.inr (Or.inl hsub)
        · exact ihr hr h hy

theorem climbRight_mono (T : BinaryTreeNode) {k : Nat} {c q res : BinaryTreeNode}
    (h : climbRight T k c q = some res) {k1 : Nat} (hk : k ≤ k1) :
    climbRight T k1 c q = some res := by
  induction k generalizing c q k1 with
  | zero => simp [climbRight] at h
  | succ k ih =>
      obtain ⟨k2, rfl⟩ : ∃ k2, k1 = k2 + 1 := ⟨k1 - 1, by omega⟩
      rcases q with _ | ⟨a, v, l, r, p, hh⟩
      · simpa [climbRight] using h
      · simp only [climbRight] at h ⊢
        split_ifs at h ⊢ with hc
        · exact ih h (by omega)
        · exact h

theorem climbLeft_mono (T : BinaryTreeNode) {k : Nat} {c q res : BinaryTreeNode}
    (h : climbLeft T k c q = some res) {k1 : Nat} (hk : k ≤ k1) :
    climbLeft T k1 c q = some res := by
  induction k generalizing c q k1 with
  | zero => simp [climbLeft] at h
  | succ k ih =>
      obtain ⟨k2, rfl⟩ : ∃ k2, k1 = k2 + 1 := ⟨k1 - 1, by omega⟩
      rcases q with _ | ⟨a, v, l, r, p, hh⟩
      · simpa [climbLeft] using h
      · simp only [climbLeft] at h ⊢
        split_ifs at h ⊢ with hc
        · exact ih h (by omega)
        · exact h

/-- The loop of `nextLargestNode`, started at a node `m` without right child inside a
subtree `t` of the tree `T`: either it stops inside `t`, at the node holding the least
item of `t` above the item of `m`; or `m` holds the greatest item of `t` and the loop
goes on from the root of `t` and its parent. -/
theorem climbRight_spec {T : BinaryTreeNode} (hnd : (addrs T).Nodup) (hbst : BST T)
    (hpar : ParentsOK T) (t : BinaryTreeNode) (ht : t ∈ nodes T)
    (am : Nat) (vm : Int) (lm : BinaryTreeNode) (pm : Option Nat) (hm : Int)
    (hmem : node am vm lm null pm hm ∈ nodes t) :
    (∃ A va, A ∈ nodes t ∧ item A = some va ∧ vm < va ∧
        (∀ y ∈ _inorderHelp t, vm < y → va ≤ y) ∧
        ∀ k, (nodes t).length ≤ k →
          climbRight T k (node am vm lm null pm hm) (lock T pm) = some A) ∨
      ((∀ y ∈ _inorderHelp t, y ≤ vm) ∧
        ∀ k res, climbRight T k t (lock T (parentPtr t)) = some res →
          climbRight T (k + (nodes t).length) (node am vm lm null pm hm) (lock T pm) =
            some res) := by
  induction t with
  | null => simp [nodes] at hmem
  | node a v l r p h ihl ihr =>
      have hb := bst_of_mem_nodes hbst ht
      simp only [BST] at hb
      obtain ⟨-, -, h1, h2⟩ := hb
      have hp := parentsOK_of_mem_nodes hpar ht
      simp only [ParentsOK] at hp
      obtain ⟨-, -, q1, q2⟩ := hp
      have hn := nodup_addrs_of_mem_nodes hnd ht
      simp only [addrs, List.nodup_append, List.nodup_cons] at hn
      obtain ⟨-, ⟨nar, -⟩, ndis⟩ := hn
      have hlock : lookup T a = node a v l r p h := lookup_eq_of_mem hnd ht rfl
      simp only [nodes, List.mem_append, List.mem_cons] at hmem
      rcases hmem with hmem | hmem | hmem
      · rcases l with _ | ⟨b, w, ll, lr, pb, hb⟩
        · simp [nodes] at hmem
        · have hlT : node b w ll lr pb hb ∈ nodes T :=
            mem_nodes_trans (by simp [nodes]) ht
          simp only [setParent_node, node.injEq, true_and, and_true] at q1
          subst q1
          have hvm : vm < v := h1 vm (item_mem_inorder hmem rfl)
          left
          rcases ihl hlT hmem with ⟨A, va, hA, ea, hlt, hleast, hclimb⟩ | ⟨hmax, hclimb⟩
          · have hva : va < v := h1 va (item_mem_inorder hA ea)
            refine ⟨A, va, ?_, ea, hlt, ?_, ?_⟩
            · rw [nodes]
              exact List.mem_append_left _ hA
            · intro y hy hvy
              rw [_inorderHelp, List.mem_append, List.mem_cons] at hy
              rcases hy with hy | rfl | hy
              · exact hleast y hy hvy
              · exact le_of_lt hva
              · exact le_of_lt (lt_trans hva (h2 y hy))
            · intro k hk
              apply hclimb
              rw [nodes, List.length_append] at hk
              omega
          · refine ⟨node a v (node b w ll lr (some a) hb) r p h, v, mem_nodes_self _ _ _ _ _ _,
              rfl, hvm, ?_, ?_⟩
            · intro y hy hvy
              rw [_inorderHelp, List.mem_append, List.mem_cons] at hy
              rcases hy with hy | rfl | hy
              · have := hmax y hy
                omega
              · exact le_rfl
              · exact le_of_lt (h2 y hy)
            · intro k hk
              have hne : ¬ ptr (node b w ll lr (some a) hb) = ptr r := by
                rcases r with _ | ⟨c, u, rl, rr, pc, hc⟩
                · simp [ptr]
                · simp only [ptr, Option.some.injEq]
                  rintro rfl
                  have hb1 : b ∈ addrs (node b w ll lr (some a) hb) := by simp [addrs]
                  have hb2 : b ∈ addrs (node b u rl rr pc hc) := by simp [addrs]
                  exact ndis hb1 (List.mem_cons_of_mem _ hb2)
              have step : climbRight T 1 (node b w ll lr (some a) hb)
                  (lock T (parentPtr (node b w ll lr (some a) hb))) =
                    some (node a v (node b w ll lr (some a) hb) r p h) := by
                simp only [parentPtr, lock, hlock, climbRight, if_neg hne]
              have h3 := hclimb 1 _ step
              refine climbRight_mono T h3 ?_
              rw [nodes, List.length_append, List.length_cons] at hk
              omega
      · simp only [node.injEq] at hmem
        obtain ⟨rfl, rfl, rfl, rfl, rfl, rfl⟩ := hmem
        right
        refine ⟨?_, ?_⟩
        · intro y hy
          simp only [_inorderHelp, List.mem_append, List.mem_cons, List.not_mem_nil,
            or_false] at hy
          rcases hy with hy | rfl
          · exact le_of_lt (h1 y hy)
          · exact le_rfl
        · intro k res hres
          exact climbRight_mono T hres (Nat.le_add_right _ _)
      · rcases r with _ | ⟨b, w, rl, rr, pb, hb⟩
        · simp [nodes] at hmem
        · have hrT : node b w rl rr pb hb ∈ nodes T :=
            mem_nodes_trans (by simp [nodes]) ht
          simp only [setParent_node, node.injEq, true_and, and_true] at q2
          subst q2
          have hvm : v < vm := h2 vm (item_mem_inorder hmem rfl)
          rcases ihr hrT hmem with ⟨A, va, hA, ea, hlt, hleast, hclimb⟩ | ⟨hmax, hclimb⟩
          · left
            refine ⟨A, va, ?_, ea, hlt, ?_, ?_⟩
            · rw [nodes]
              exact List.mem_append_right _ (List.mem_cons_of_mem _ hA)
            · intro y hy hvy
              rw [_inorderHelp, List.mem_append, List.mem_cons] at hy
              rcases hy with hy | rfl | hy
              · have := h1 y hy
                omega
              · omega
              · exact hleast y hy hvy
            · intro k hk
              apply hclimb
              rw [nodes, List.length_append, List.length_cons] at hk
              omega
          · right
            refine ⟨?_, ?_⟩
            · intro y hy
              rw [_inorderHelp, List.mem_append, List.mem_cons] at hy
              rcases hy with hy | rfl | hy
              · have := h1 y hy
                omega
              · omega
              · exact hmax y hy
            · intro k res hres
              have step : climbRight T (k + 1) (node b w rl rr (some a) hb)
                  (lock T (parentPtr (node b w rl rr (some a) hb))) = some res := by
                simp only [parentPtr, lock, hlock, climbRight, if_true]
                exact hres
              have h3 := hclimb (k + 1) res step
              refine climbRight_mono T h3 ?_
              simp only [nodes, List.length_append, List.length_cons]
              omega

/-- The loop of `nextSmallestNode`, started at a node `m` without left child inside a
subtree `t` of the tree `T`: either it stops inside `t`, at the node holding the greatest
item of `t` below the item of `m`; or `m` holds the least item of `t` and the loop goes
on from the root of `t` and its parent. -/
theorem climbLeft_spec {T : BinaryTreeNode} (hnd : (addrs T).Nodup) (hbst : BST T)
    (hpar : ParentsOK T) (t : BinaryTreeNode) (ht : t ∈ nodes T)
    (am : Nat) (vm : Int) (rm : BinaryTreeNode) (pm : Option Nat) (hm : Int)
    (hmem : node am vm null rm pm hm ∈ nodes t) :
    (∃ A va, A ∈ nodes t ∧ item A = some va ∧ va < vm ∧
        (∀ y ∈ _inorderHelp t, y < vm → y ≤ va) ∧
        ∀ k, (nodes t).length ≤ k →
          climbLeft T k (node am vm null rm pm hm) (lock T pm) = some A) ∨
      ((∀ y ∈ _inorderHelp t, vm ≤ y) ∧
        ∀ k res, climbLeft T k t (lock T (parentPtr t)) = some res →
          climbLeft T (k + (nodes t).length) (node am vm null rm pm hm) (lock T pm) =
            some res) := by
  induction t with
  | null => simp [nodes] at hmem
  | node a v l r p h ihl ihr =>
      have hb := bst_of_mem_nodes hbst ht
      simp only [BST] at hb
      obtain ⟨-, -, h1, h2⟩ := hb
      have hp := parentsOK_of_mem_nodes hpar ht
      simp only [ParentsOK] at hp
      obtain ⟨-, -, q1, q2⟩ := hp
      have hn := nodup_addrs_of_mem_nodes hnd ht
      simp only [addrs, List.nodup_append, List.nodup_cons] at hn
      obtain ⟨-, ⟨nar, -⟩, ndis⟩ := hn
      have hlock : lookup T a = node a v l r p h := lookup_eq_of_mem hnd ht rfl
      simp only [nodes, List.mem_append, List.mem_cons] at hmem
      rcases hmem with hmem | hmem | hmem
      · rcases l with _ | ⟨b, w, ll, lr, pb, hb⟩
        · simp [nodes] at hmem
        · have hlT : node b w ll lr pb hb ∈ nodes T :=
            mem_nodes_trans (by simp [nodes]) ht
          simp only [setParent_node, node.injEq, true_and, and_true] at q1
          subst q1
          have hvm : vm < v := h1 vm (item_mem_inorder hmem rfl)
          rcases ihl hlT hmem with ⟨A, va, hA, ea, hlt, hleast, hclimb⟩ | ⟨hmin, hclimb⟩
          · left
            refine ⟨A, va, ?_, ea, hlt, ?_, ?_⟩
            · rw [nodes]
              exact List.mem_append_left _ hA
            · intro y hy hvy
              rw [_inorderHelp, List.mem_append, List.mem_cons] at hy
              rcases hy with hy | rfl | hy
              · exact hleast y hy hvy
              · omega
              · have := h2 y hy
                omega
            · intro k hk
              apply hclimb
              rw [nodes, List.length_append] at hk
              omega
          · right
            refine ⟨?_, ?_⟩
            · intro y hy
              rw [_inorderHelp, List.mem_append, List.mem_cons] at hy
              rcases hy with hy | rfl | hy
              · exact hmin y hy
              · omega
              · have := h2 y hy
                omega
            · intro k res hres
              have step : climbLeft T (k + 1) (node b w ll lr (some a) hb)
                  (lock T (parentPtr (node b w ll lr (some a) hb))) = some res := by
                simp only [parentPtr, lock, hlock, climbLeft, if_true]
                exact hres
              have h3 := hclimb (k + 1) res step
              refine climbLeft_mono T h3 ?_
              simp only [nodes, List.length_append, List.length_cons]
              omega
      · simp only [node.injEq] at hmem
        obtain ⟨rfl, rfl, rfl, rfl, rfl, rfl⟩ := hmem
        right
        refine ⟨?_, ?_⟩
        · intro y hy
          simp only [_inorderHelp, List.nil_append, List.mem_cons] at hy
          rcases hy with rfl | hy
          · exact le_rfl
          · exact le_of_lt (h2 y hy)
        · intro k res hres
          exact climbLeft_mono T hres (Nat.le_add_right _ _)
      · rcases r with _ | ⟨b, w, rl, rr, pb, hb⟩
        · simp [nodes] at hmem
        · have hrT : node b w rl rr pb hb ∈ nodes T :=
            mem_nodes_trans (by simp [nodes]) ht
          simp only [setParent_node, node.injEq, true_and, and_true] at q2
          subst q2
          have hvm : v < vm := h2 vm (item_mem_inorder hmem rfl)
          left
          rcases ihr hrT hmem with ⟨A, va, hA, ea, hlt, hleast, hclimb⟩ | ⟨hmin, hclimb⟩
          · have hva : v < va := h2 va (item_mem_inorder hA ea)
            refine ⟨A, va, ?_, ea, hlt, ?_, ?_⟩
            · rw [nodes]
              exact List.mem_append_right _ (List.mem_cons_of_mem _ hA)
            · intro y hy hvy
              rw [_inorderHelp, List.mem_append, List.mem_cons] at hy
              rcases hy with hy | rfl | hy
              · exact le_of_lt (lt_trans (h1 y hy) hva)
              · exact le_of_lt hva
              · exact hleast y hy hvy
            · intro k hk
              apply hclimb
              rw [nodes, List.length_append, List.length_cons] at hk
              omega
          · refine ⟨node a v l (node b w rl rr (some a) hb) p h, v, mem_nodes_self _ _ _ _ _ _,
              rfl, hvm, ?_, ?_⟩
            · intro y hy hvy
              rw [_inorderHelp, List.mem_append, List.mem_cons] at hy
              rcases hy with hy | rfl | hy
              · exact le_of_lt (h1 y hy)
              · exact le_rfl
              · have := hmin y hy
                omega
            · intro k hk
              have hne : ¬ ptr (node b w rl rr (some a) hb) = ptr l := by
                rcases l with _ | ⟨c, u, ll, lr, pc, hc⟩
                · simp [ptr]
                · simp only [ptr, Option.some.injEq]
                  rintro rfl
                  have hb1 : b ∈ addrs (node b u ll lr pc hc) := by simp [addrs]
                  have hb2 : b ∈ addrs (node b w rl rr (some a) hb) := by simp [addrs]
                  exact ndis hb1 (List.mem_cons_of_mem _ hb2)
              have step : climbLeft T 1 (node b w rl rr (some a) hb)
                  (lock T (parentPtr (node b w rl rr (some a) hb))) =
                    some (node a v l (node b w rl rr (some a) hb) p h) := by
                simp only [parentPtr, lock, hlock, climbLeft, if_neg hne]
              have h3 := hclimb 1 _ step
              refine climbLeft_mono T h3 ?_
              rw [nodes, List.length_append, List.length_cons] at hk
              omega

/-- What `nextLargestNode` returns on a tree satisfying the invariant. -/
theorem nextLargestNode_spec {t : AVLTree} {next : Nat} (hinv : Inv t next)
    {n : BinaryTreeNode} (hn : n ∈ nodes t._root) {v : Int} (hv : item n = some v) :
    ∃ r, (∀ fuel, t.count + 1 ≤ fuel → t.nextLargestNode n fuel = some r) ∧
      (r = null ↔ ∀ y ∈ t.inorder, y ≤ v) ∧
      (r ≠ null → r ∈ nodes t._root ∧ ∃ w, item r = some w ∧ v < w ∧
        (∀ y ∈ t.inorder, v < y → w ≤ y) ∧ t.find w = r) := by
  obtain ⟨T, c⟩ := t
  have hbst : BST T := hinv.bst
  have hcount : c = (_inorderHelp T).length := hinv.count
  simp only [AVLTree.count, AVLTree.inorder, AVLTree.find, AVLTree.nextLargestNode] at hn ⊢
  rcases n with _ | ⟨a, x, l, r, p, h⟩
  · exact absurd rfl (mem_nodes_ne_null hn)
  simp only [item, Option.some.injEq] at hv
  subst hv
  rcases r with _ | ⟨b, w, rl, rr, pb, hb⟩
  · have hT : T ∈ nodes T := by
      rcases T with _ | ⟨a1, v1, l1, r1, p1, h1⟩
      · simp [nodes] at hn
      · exact mem_nodes_self _ _ _ _ _ _
    have hlen : (nodes T).length = c := by rw [length_nodes, hcount]
    rcases climbRight_spec hinv.nodup hbst hinv.parents T hT a x l p h hn with
      ⟨A, va, hA, ea, hlt, hleast, hclimb⟩ | ⟨hmax, hclimb⟩
    · refine ⟨A, ?_, ?_, ?_⟩
      · intro fuel hf
        exact hclimb fuel (by omega)
      · constructor
        · intro e
          exact absurd e (mem_nodes_ne_null hA)
        · intro hall
          have := hall va (item_mem_inorder hA ea)
          omega
      · intro _
        exact ⟨hA, va, ea, hlt, hleast, findHelp_eq_of_mem_nodes hbst hA ea⟩
    · refine ⟨null, ?_, ?_, ?_⟩
      · intro fuel hf
        have hroot : parentPtr T = none := hinv.rootParent
        have step : climbRight T 1 T (lock T (parentPtr T)) = some null := by
          rw [hroot]
          rfl
        exact climbRight_mono T (hclimb 1 null step) (by omega)
      · exact ⟨fun _ => hmax, fun _ => rfl⟩
      · intro hne
        exact absurd rfl hne
  · obtain ⟨m0, rest, e1, e2, e3⟩ := minimumNodeHelp_spec b w rl rr pb hb
    have hnb := bst_of_mem_nodes hbst hn
    simp only [BST] at hnb
    obtain ⟨-, hbr, g1, g2⟩ := hnb
    have hm0r : m0 ∈ _inorderHelp (node b w rl rr pb hb) := by
      rw [e2]
      exact List.mem_cons_self _ _
    have hxm : x < m0 := g2 m0 hm0r
    have hsub : node b w rl rr pb hb ∈ nodes (node a x l (node b w rl rr pb hb) p h) := by
      rw [nodes]
      exact List.mem_append_right _ (List.mem_cons_of_mem _ (mem_nodes_self _ _ _ _ _ _))
    have hminT : _minimumNodeHelp (node b w rl rr pb hb) ∈ nodes T :=
      mem_nodes_trans e3 (mem_nodes_trans hsub hn)
    have hleast_r : ∀ y ∈ _inorderHelp (node b w rl rr pb hb), m0 ≤ y := by
      intro y hy
      have hbr2 : BST (node b w rl rr pb hb) := by
        simp only [BST]
        exact hbr
      have hs := bst_sorted hbr2
      rw [e2] at hs hy
      rcases List.mem_cons.1 hy with rfl | hy
      · exact le_rfl
      · exact le_of_lt (List.rel_of_sorted_cons hs y hy)
    refine ⟨_minimumNodeHelp (node b w rl rr pb hb), fun _ _ => rfl, ?_, ?_⟩
    · constructor
      · intro e
        exact absurd e (mem_nodes_ne_null e3)
      · intro hall
        have := hall m0 (item_mem_inorder hminT e1)
        omega
    · intro _
      refine ⟨hminT, m0, e1, hxm, ?_, findHelp_eq_of_mem_nodes hbst hminT e1⟩
      intro y hy hxy
      rcases subtree_interval hbst hn hy with h3 | h3 | h3
      · rw [_inorderHelp, List.mem_append, List.mem_cons] at h3
        rcases h3 with h3 | rfl | h3
        · have := g1 y h3
          omega
        · omega
        · exact hleast_r y h3
      · have := h3 x (by simp [_inorderHelp])
        omega
      · have hm0n : m0 ∈ _inorderHelp (node a x l (node b w rl rr pb hb) p h) := by
          rw [_inorderHelp]
          exact List.mem_append_right _ (List.mem_cons_of_mem _ hm0r)
        exact le_of_lt (h3 m0 hm0n)

/-- What `nextSmallestNode` returns on a tree satisfying the invariant. -/
theorem nextSmallestNode_spec {t : AVLTree} {next : Nat} (hinv : Inv t next)
    {n : BinaryTreeNode} (hn : n ∈ nodes t._root) {v : Int} (hv : item n = some v) :
    ∃ r, (∀ fuel, t.count + 1 ≤ fuel → t.nextSmallestNode n fuel = some r) ∧
      (r = null ↔ ∀ y ∈ t.inorder, v ≤ y) ∧
      (r ≠ null → r ∈ nodes t._root ∧ ∃ w, item r = some w ∧ w < v ∧
        (∀ y ∈ t.inorder, y < v → y ≤ w) ∧ t.find w = r) := by
  obtain ⟨T, c⟩ := t
  have hbst : BST T := hinv.bst
  have hcount : c = (_inorderHelp T).length := hinv.count
  simp only [AVLTree.count, AVLTree.inorder, AVLTree.find, AVLTree.nextSmallestNode] at hn ⊢
  rcases n with _ | ⟨a, x, l, r, p, h⟩
  · exact absurd rfl (mem_nodes_ne_null hn)
  simp only [item, Option.some.injEq] at hv
  subst hv
  rcases l with _ | ⟨b, w, ll, lr, pb, hb⟩
  · have hT : T ∈ nodes T := by
      rcases T with _ | ⟨a1, v1, l1, r1, p1, h1⟩
      · simp [nodes] at hn
      · exact mem_nodes_self _ _ _ _ _ _
    have hlen : (nodes T).length = c := by rw [length_nodes, hcount]
    rcases climbLeft_spec hinv.nodup hbst hinv.parents T hT a x r p h hn with
      ⟨A, va, hA, ea, hlt, hleast, hclimb⟩ | ⟨hmin, hclimb⟩
    · refine ⟨A, ?_, ?_, ?_⟩
      · intro fuel hf
        exact hclimb fuel (by omega)
      · constructor
        · intro e
          exact absurd e (mem_nodes_ne_null hA)
        · intro hall
          have := hall va (item_mem_inorder hA ea)
          omega
      · intro _
        exact ⟨hA, va, ea, hlt, hleast, findHelp_eq_of_mem_nodes hbst hA ea⟩
    · refine ⟨null, ?_, ?_, ?_⟩
      · intro fuel hf
        have hroot : parentPtr T = none := hinv.rootParent
        have step : climbLeft T 1 T (lock T (parentPtr T)) = some null := by
          rw [hroot]
          rfl
        exact climbLeft_mono T (hclimb 1 null step) (by omega)
      · exact ⟨fun _ => hmin, fun _ => rfl⟩
      · intro hne
        exact absurd rfl hne
  · obtain ⟨m0, rest, e1, e2, e3⟩ := maximumNodeHelp_spec b w ll lr pb hb
    have hnb := bst_of_mem_nodes hbst hn
    simp only [BST] at hnb
    obtain ⟨hbl, -, g1, g2⟩ := hnb
    have hm0l : m0 ∈ _inorderHelp (node b w ll lr pb hb) := by
      rw [e2]
      simp
    have hxm : m0 < x := g1 m0 hm0l
    have hsub : node b w ll lr pb hb ∈ nodes (node a x (node b w ll lr pb hb) r p h) := by
      rw [nodes]
      exact List.mem_append_left _ (mem_nodes_self _ _ _ _ _ _)
    have hmaxT : _maximumNodeHelp (node b w ll lr pb hb) ∈ nodes T :=
      mem_nodes_trans e3 (mem_nodes_trans hsub hn)
    have hgreatest_l : ∀ y ∈ _inorderHelp (node b w ll lr pb hb), y ≤ m0 := by
      intro y hy
      have hbl2 : BST (node b w ll lr pb hb) := by
        simp only [BST]
        exact hbl
      have hs := bst_sorted hbl2
      rw [e2] at hs hy
      rcases List.mem_append.1 hy with hy | hy
      · have := (List.pairwise_append.1 hs).2.2 y hy m0 (List.mem_singleton_self _)
        exact le_of_lt this
      · rw [List.mem_singleton] at hy
        exact le_of_eq hy
    refine ⟨_maximumNodeHelp (node b w ll lr pb hb), fun _ _ => rfl, ?_, ?_⟩
    · constructor
      · intro e
        exact absurd e (mem_nodes_ne_null e3)
      · intro hall
        have := hall m0 (item_mem_inorder hmaxT e1)
        omega
    · intro _
      refine ⟨hmaxT, m0, e1, hxm, ?_, findHelp_eq_of_mem_nodes hbst hmaxT e1⟩
      intro y hy hxy
      rcases subtree_interval hbst hn hy with h3 | h3 | h3
      · rw [_inorderHelp, List.mem_append, List.mem_cons] at h3
        rcases h3 with h3 | rfl | h3
        · exact hgreatest_l y h3
        · omega
        · have := g2 y h3
          omega
      · have hm0n : m0 ∈ _inorderHelp (node a x (node b w ll lr pb hb) r p h) := by
          rw [_inorderHelp]
          exact List.mem_append_left _ hm0l
        exact le_of_lt (h3 m0 hm0n)
      · have := h3 x (by simp [_inorderHelp])
        omega

/-- C8: nextLargestNode is the in-order successor.  On every tree built by inserts and
for every node of it, the call returns (for every fuel above the number of stored
items) one pointer: it is null exactly when the node holds the greatest stored item, and
otherwise it is the node of the tree holding the least stored item strictly greater
than the item of the given node, the same node that find returns for that item. -/
theorem C8_nextLargestNode_successor (next : Nat) (xs : List Int) :
    ∃ t next1, insertAll xs (AVLTree.new, next) = some (t, next1) ∧
      ∀ n v, n ∈ nodes t._root → item n = some v →
        ∃ r, (∀ fuel, t.count + 1 ≤ fuel → t.nextLargestNode n fuel = some r) ∧
          (r = null ↔ ∀ y ∈ t.inorder, y ≤ v) ∧
          (r ≠ null → r ∈ nodes t._root ∧ ∃ w, item r = some w ∧ v < w ∧
            (∀ y ∈ t.inorder, v < y → w ≤ y) ∧ t.find w = r) := by
  obtain ⟨s1, e, hinv, -⟩ := inv_insertAll xs (s := (AVLTree.new, next)) (inv_new next)
  exact ⟨s1.1, s1.2, e, fun n v hn hv => nextLargestNode_spec hinv hn hv⟩

/-- C9: nextSmallestNode is the in-order predecessor.  On every tree built by inserts and
for every node of it, the call returns (for every fuel above the number of stored
items) one pointer: it is null exactly when the node holds the least stored item, and
otherwise it is the node of the tree holding the greatest stored item strictly less
than the item of the given node, the same node that find returns for that item. -/
theorem C9_nextSmallestNode_predecessor (next : Nat) (xs : List Int) :
    ∃ t next1, insertAll xs (AVLTree.new, next) = some (t, next1) ∧
      ∀ n v, n ∈ nodes t._root → item n = some v →
        ∃ r, (∀ fuel, t.count + 1 ≤ fuel → t.nextSmallestNode n fuel = some r) ∧
          (r = null ↔ ∀ y ∈ t.inorder, v ≤ y) ∧
          (r ≠ null → r ∈ nodes t._root ∧ ∃ w, item r = some w ∧ w < v ∧
            (∀ y ∈ t.inorder, y < v → y ≤ w) ∧ t.find w = r) := by
  obtain ⟨s1, e, hinv, -⟩ := inv_insertAll xs (s := (AVLTree.new, next)) (inv_new next)
  exact ⟨s1.1, s1.2, e, fun n v hn hv => nextSmallestNode_spec hinv hn hv⟩

/-! The embedding evaluated on scenarios of the test driver `main.cpp`. -/

/-- Scenario `test_insert_and_traversals_basic`: twelve items, inorder sorted, count 12. -/
theorem scenario_insert_and_traversals_basic :
    (insertAll [10, 20, 5, 4, 8, 15, 30, 25, 40, 7, 9, 6] (AVLTree.new, 0)).map
        (fun s => (s.1.inorder, s.1.count)) =
      some ([4, 5, 6, 7, 8, 9, 10, 15, 20, 25, 30, 40], 12) := by
  decide

/-- Scenario `test_min_max_and_find`: the extreme nodes are the nodes `find` returns, a
stored item is found and a missing one is not. -/
theorem scenario_min_max_and_find :
    (insertAll [50, 40, 30, 20, 10] (AVLTree.new, 0)).map
        (fun s => (decide (s.1.minimumNode = s.1.find 10), decide (s.1.maximumNode = s.1.find 50),
          decide (s.1.find 30 = null), decide (s.1.find 999999 = null))) =
      some (true, true, false, true) := by
  decide

/-- Scenario `test_predecessor_successor_structural`: successor through the right
subtree and through the ancestors, predecessor through the left subtree and through the
ancestors. -/
theorem scenario_predecessor_successor_structural :
    (insertAll [20, 10, 30, 5, 15, 25, 40, 17, 45] (AVLTree.new, 0)).map
        (fun s => (decide (s.1.nextLargestNode (s.1.find 15) 10 = some (s.1.find 17)),
          decide (s.1.nextLargestNode (s.1.find 17) 10 = some (s.1.find 20)),
          decide (s.1.nextSmallestNode (s.1.find 30) 10 = some (s.1.find 25)),
          decide (s.1.nextSmallestNode (s.1.find 25) 10 = some (s.1.find 20)),
          decide (s.1.nextLargestNode (s.1.find 45) 10 = some null))) =
      some (true, true, true, true, true) := by
  decide

/-! Claims on the greatest node, parent links, traversals, copies and rotations. -/

/-- C11: maximumNode is correct.  On every tree built by inserts, maximumNode returns the
null pointer exactly when the tree is empty; otherwise it returns a node of the tree
that holds the last element of inorder, which is the greatest stored item, and it is
the very node that find returns for that item. -/
theorem C11_maximumNode_correct (next : Nat) (xs : List Int) :
    ∃ t next1, insertAll xs (AVLTree.new, next) = some (t, next1) ∧
      (t.maximumNode = null ↔ t.inorder = []) ∧ (t.maximumNode = null ↔ t.count = 0) ∧
      ∀ m rest, t.inorder = rest ++ [m] →
        t.maximumNode ∈ nodes t._root ∧ item t.maximumNode = some m ∧
          (∀ y ∈ t.inorder, y ≤ m) ∧ t.find m = t.maximumNode := by
  obtain ⟨s1, e, hinv, -⟩ := inv_insertAll xs (s := (AVLTree.new, next)) (inv_new next)
  refine ⟨s1.1, s1.2, e, ?_⟩
  have hcount := hinv.count
  have hbst := hinv.bst
  simp only [AVLTree.maximumNode, AVLTree.inorder, AVLTree.count, AVLTree.find]
  rcases hroot : s1.1._root with _ | ⟨a, v, l, r, p, h⟩
  · rw [hroot] at hcount
    simp [_maximumNodeHelp, _inorderHelp, hcount]
  · rw [hroot] at hcount hbst
    obtain ⟨m0, rest0, e1, e2, e3⟩ := maximumNodeHelp_spec a v l r p h
    have hne := mem_nodes_ne_null e3
    refine ⟨?_, ?_, ?_⟩
    · simp [hne, e2]
    · simp [hne, hcount, e2]
    · intro m rest hm
      rw [e2] at hm
      obtain ⟨rfl, hm2⟩ := List.append_inj' hm rfl
      simp only [List.cons.injEq, and_true] at hm2
      subst hm2
      refine ⟨e3, e1, ?_, findHelp_eq_of_mem_nodes hbst e3 e1⟩
      have hs := bst_sorted hbst
      rw [e2] at hs ⊢
      intro y hy
      rcases List.mem_append.1 hy with hy | hy
      · exact le_of_lt ((List.pairwise_append.1 hs).2.2 y hy m0 (List.mem_singleton_self _))
      · rw [List.mem_singleton] at hy
        exact le_of_eq hy

/-- C13: traversal consistency.  For every tree, of any shape, preorder and postorder are
permutations of inorder, so the three traversals hold the same multiset of items and
have the same length. -/
theorem C13_traversals_are_permutations (t : AVLTree) :
    t.preorder.Perm t.inorder ∧ t.postorder.Perm t.inorder ∧
      (↑t.preorder : Multiset Int) = ↑t.inorder ∧ (↑t.postorder : Multiset Int) = ↑t.inorder ∧
      t.preorder.length = t.inorder.length ∧ t.postorder.length = t.inorder.length := by
  have hpre : ∀ r : BinaryTreeNode, (_preorderHelp r).Perm (_inorderHelp r) := by
    intro r
    induction r with
    | null => exact List.Perm.refl _
    | node a v l r p h ihl ihr =>
        simp only [_preorderHelp, _inorderHelp]
        exact ((ihl.append ihr).cons v).trans List.perm_middle.symm
  have hpost : ∀ r : BinaryTreeNode, (_postorderHelp r).Perm (_inorderHelp r) := by
    intro r
    induction r with
    | null => exact List.Perm.refl _
    | node a v l r p h ihl ihr =>
        simp only [_postorderHelp, _inorderHelp]
        refine (List.perm_append_comm).trans ?_
        exact ((ihl.append ihr).cons v).trans List.perm_middle.symm
  exact ⟨hpre _, hpost _, Quotient.sound (hpre _), Quotient.sound (hpost _),
    (hpre _).length_eq, (hpost _).length_eq⟩

/-- C17: absence is returned, never signalled as a fault.  On the empty tree minimumNode,
maximumNode and find of every item return the null pointer; and on every tree, with any
fuel, nextSmallestNode and nextLargestNode of the null pointer return the null
pointer. -/
theorem C17_absence_is_returned (t : AVLTree) (x : Int) (fuel : Nat) :
    AVLTree.new.minimumNode = null ∧ AVLTree.new.maximumNode = null ∧
      AVLTree.new.find x = null ∧ t.nextSmallestNode null fuel = some null ∧
      t.nextLargestNode null fuel = some null :=
  ⟨rfl, rfl, rfl, rfl, rfl⟩

/-- C18: left rotation contract.  On a subtree with root A (address a, left subtree X)
whose right child B (address b) has left subtree Y and right subtree Z,
_leftSingleRotate returns B as root, with left child A and right subtree Z; A keeps X as
left subtree and gets Y as right subtree; the stored height of A is
1 + max of the stored heights of X and Y, that of B is 1 + max of the new stored height
of A and the stored height of Z.  X and Z are returned as they were, and Y as it was but
for the parent reference of its root, which now names A. -/
theorem C18_leftSingleRotate_contract (a b : Nat) (v w : Int) (X Y Z : BinaryTreeNode)
    (pA pB : Option Nat) (hA hB : Int) :
    ∃ newA newB,
      _leftSingleRotate (node a v X (node b w Y Z pB hB) pA hA) = newB ∧
      newA = node a v X (setParent Y (some a)) (some b) (1 + max (getHeight X) (getHeight Y)) ∧
      newB = node b w newA Z pA (1 + max (getHeight newA) (getHeight Z)) ∧
      getHeight newA = 1 + max (getHeight X) (getHeight Y) ∧
      getHeight newB = 1 + max (getHeight newA) (getHeight Z) ∧
      shapeOf (setParent Y (some a)) = shapeOf Y ∧
      _inorderHelp (setParent Y (some a)) = _inorderHelp Y := by
  refine ⟨_, _, rfl, rfl, ?_, rfl, ?_, ?_, ?_⟩
  · simp [_leftSingleRotate]
  · simp [_leftSingleRotate]
  · cases Y <;> rfl
  · simp

/-- C19: right rotation contract.  On a subtree with root A (address a, right subtree Z)
whose left child B (address b) has left subtree X and right subtree Y,
_rightSingleRotate returns B as root, with left subtree X and right child A; A gets Y as
left subtree and keeps Z as right subtree; the stored height of A is 1 + max of the
stored heights of Y and Z, that of B is 1 + max of the stored height of X and the new
stored height of A.  X and Z are returned as they were, and Y as it was but for the
parent reference of its root, which now names A. -/
theorem C19_rightSingleRotate_contract (a b : Nat) (v w : Int) (X Y Z : BinaryTreeNode)
    (pA pB : Option Nat) (hA hB : Int) :
    ∃ newA newB,
      _rightSingleRotate (node a v (node b w X Y pB hB) Z pA hA) = newB ∧
      newA = node a v (setParent Y (some a)) Z (some b) (1 + max (getHeight Y) (getHeight Z)) ∧
      newB = node b w X newA pA (1 + max (getHeight X) (getHeight newA)) ∧
      getHeight newA = 1 + max (getHeight Y) (getHeight Z) ∧
      getHeight newB = 1 + max (getHeight X) (getHeight newA) ∧
      shapeOf (setParent Y (some a)) = shapeOf Y ∧
      _inorderHelp (setParent Y (some a)) = _inorderHelp Y := by
  refine ⟨_, _, rfl, rfl, ?_, rfl, ?_, ?_, ?_⟩
  · simp [_rightSingleRotate]
  · simp [_rightSingleRotate]
  · cases Y <;> rfl
  · simp

/-- C20: every rotation preserves the in-order sequence.  For every subtree, of any
shape, the inorder item sequence after _leftSingleRotate, _rightSingleRotate,
_rightLeftRotate or _leftRightRotate is the inorder item sequence before it. -/
theorem C20_rotations_preserve_inorder (t : BinaryTreeNode) :
    _inorderHelp (_leftSingleRotate t) = _inorderHelp t ∧
      _inorderHelp (_rightSingleRotate t) = _inorderHelp t ∧
      _inorderHelp (_rightLeftRotate t) = _inorderHelp t ∧
      _inorderHelp (_leftRightRotate t) = _inorderHelp t :=
  ⟨inorder_leftSingleRotate t, inorder_rightSingleRotate t, inorder_rightLeftRotate t,
    inorder_leftRightRotate t⟩

/-- A node of a tree is its root or a child of a node of the tree. -/
theorem mem_nodes_root_or_child {t n : BinaryTreeNode} (hn : n ∈ nodes t) :
    n = t ∨ ∃ a v l r p h, node a v l r p h ∈ nodes t ∧ (l = n ∨ r = n) := by
  induction t with
  | null => simp [nodes] at hn
  | node a v l r p h ihl ihr =>
      rw [nodes, List.mem_append, List.mem_cons] at hn
      rcases hn with hn | rfl | hn
      · right
        rcases ihl hn with rfl | ⟨a1, v1, l1, r1, p1, h1, hm, hc⟩
        · exact ⟨a, v, n, r, p, h, mem_nodes_self _ _ _ _ _ _, Or.inl rfl⟩
        · refine ⟨a1, v1, l1, r1, p1, h1, ?_, hc⟩
          rw [nodes]
          exact List.mem_append_left _ hm
      · exact Or.inl rfl
      · right
        rcases ihr hn with rfl | ⟨a1, v1, l1, r1, p1, h1, hm, hc⟩
        · exact ⟨a, v, l, n, p, h, mem_nodes_self _ _ _ _ _ _, Or.inr rfl⟩
        · refine ⟨a1, v1, l1, r1, p1, h1, ?_, hc⟩
          rw [nodes]
          exact List.mem_append_right _ (List.mem_cons_of_mem _ hm)

/-- C12: parent-link consistency is kept by insert.  In every tree built by inserts the
parent reference of the root is empty; at every node the parent reference of each child
is the address of that node; every node other than the root is the left or the right
child of the node its parent reference locks to; and so, whenever the parent reference
of a node is not empty, it locks to a node of the tree one of whose child links holds
the node. -/
theorem C12_parent_links_consistent (next : Nat) (xs : List Int) :
    ∃ t next1, insertAll xs (AVLTree.new, next) = some (t, next1) ∧
      parentPtr t._root = none ∧
      (∀ a v l r p h, node a v l r p h ∈ nodes t._root →
        (l ≠ null → parentPtr l = some a) ∧ (r ≠ null → parentPtr r = some a)) ∧
      (∀ n, n ∈ nodes t._root → n = t._root ∨
        ∃ a v l r p h, node a v l r p h ∈ nodes t._root ∧ (l = n ∨ r = n) ∧
          parentPtr n = some a ∧ lock t._root (parentPtr n) = node a v l r p h) ∧
      (∀ n q, n ∈ nodes t._root → parentPtr n = some q →
        ∃ v l r p h, lock t._root (some q) = node q v l r p h ∧
          node q v l r p h ∈ nodes t._root ∧ (l = n ∨ r = n)) := by
  obtain ⟨s1, e, hinv, -⟩ := inv_insertAll xs (s := (AVLTree.new, next)) (inv_new next)
  refine ⟨s1.1, s1.2, e, hinv.rootParent, ?_⟩
  have hchild : ∀ a v l r p h, node a v l r p h ∈ nodes s1.1._root →
      (l ≠ null → parentPtr l = some a) ∧ (r ≠ null → parentPtr r = some a) := by
    intro a v l r p h hm
    have hp := parentsOK_of_mem_nodes hinv.parents hm
    simp only [ParentsOK] at hp
    obtain ⟨-, -, q1, q2⟩ := hp
    exact ⟨fun hne => ((setParent_eq_iff _ _).1 q1).resolve_left hne,
      fun hne => ((setParent_eq_iff _ _).1 q2).resolve_left hne⟩
  have hup : ∀ n, n ∈ nodes s1.1._root → n = s1.1._root ∨
      ∃ a v l r p h, node a v l r p h ∈ nodes s1.1._root ∧ (l = n ∨ r = n) ∧
        parentPtr n = some a ∧ lock s1.1._root (parentPtr n) = node a v l r p h := by
    intro n hn
    rcases mem_nodes_root_or_child hn with h | ⟨a, v, l, r, p, h, hm, hc⟩
    · exact Or.inl h
    · right
      have hne := mem_nodes_ne_null hn
      have hpn : parentPtr n = some a := by
        rcases hc with rfl | rfl
        · exact (hchild a v _ r p h hm).1 hne
        · exact (hchild a v l _ p h hm).2 hne
      refine ⟨a, v, l, r, p, h, hm, hc, hpn, ?_⟩
      rw [hpn]
      exact lookup_eq_of_mem hinv.nodup hm rfl
  refine ⟨hchild, hup, ?_⟩
  intro n q hn hq
  rcases hup n hn with rfl | ⟨a, v, l, r, p, h, hm, hc, hpn, hl⟩
  · rw [hinv.rootParent] at hq
    exact absurd hq (by simp)
  · rw [hpn] at hq
    simp only [Option.some.injEq] at hq
    subst hq
    rw [hpn] at hl
    exact ⟨v, l, r, p, h, hl, hm, hc⟩

/-! Shapes and copies. -/

@[simp] theorem shapeOf_setParent (t : BinaryTreeNode) (p : Option Nat) :
    shapeOf (setParent t p) = shapeOf t := by
  cases t <;> rfl

theorem inorder_eq_of_shape {t s : BinaryTreeNode} (h : shapeOf t = shapeOf s) :
    _inorderHelp t = _inorderHelp s := by
  induction t generalizing s with
  | null => cases s <;> simp [shapeOf] at h ⊢
  | node a v l r p hh ihl ihr =>
      cases s with
      | null => simp [shapeOf] at h
      | node a1 v1 l1 r1 p1 h1 =>
          simp only [shapeOf, Shape.node.injEq] at h
          simp only [_inorderHelp, ihl h.1, ihr h.2.2.2, h.2.1]

theorem preorder_eq_of_shape {t s : BinaryTreeNode} (h : shapeOf t = shapeOf s) :
    _preorderHelp t = _preorderHelp s := by
  induction t generalizing s with
  | null => cases s <;> simp [shapeOf] at h ⊢
  | node a v l r p hh ihl ihr =>
      cases s with
      | null => simp [shapeOf] at h
      | node a1 v1 l1 r1 p1 h1 =>
          simp only [shapeOf, Shape.node.injEq] at h
          simp only [_preorderHelp, ihl h.1, ihr h.2.2.2, h.2.1]

theorem postorder_eq_of_shape {t s : BinaryTreeNode} (h : shapeOf t = shapeOf s) :
    _postorderHelp t = _postorderHelp s := by
  induction t generalizing s with
  | null => cases s <;> simp [shapeOf] at h ⊢
  | node a v l r p hh ihl ihr =>
      cases s with
      | null => simp [shapeOf] at h
      | node a1 v1 l1 r1 p1 h1 =>
          simp only [shapeOf, Shape.node.injEq] at h
          simp only [_postorderHelp, ihl h.1, ihr h.2.2.2, h.2.1]

theorem getHeight_eq_of_shape {t s : BinaryTreeNode} (h : shapeOf t = shapeOf s) :
    getHeight t = getHeight s := by
  cases t <;> cases s <;> simp [shapeOf] at h ⊢
  exact h.2.2.1

theorem parentsOK_children {t : BinaryTreeNode} (ht : ParentsOK t) {a : Nat} {v : Int}
    {l r : BinaryTreeNode} {p : Option Nat} {h : Int} (hm : node a v l r p h ∈ nodes t) :
    (l ≠ null → parentPtr l = some a) ∧ (r ≠ null → parentPtr r = some a) := by
  have hp := parentsOK_of_mem_nodes ht hm
  simp only [ParentsOK] at hp
  obtain ⟨-, -, q1, q2⟩ := hp
  exact ⟨fun hne => ((setParent_eq_iff _ _).1 q1).resolve_left hne,
    fun hne => ((setParent_eq_iff _ _).1 q2).resolve_left hne⟩

/-- What `_copyNodes` returns: a subtree of the same shape, items and stored heights, made
of newly allocated nodes with consistent parent links below a root without parent. -/
theorem copyNodes_spec (t : BinaryTreeNode) (next : Nat) :
    shapeOf (_copyNodes t next).1 = shapeOf t ∧ ParentsOK (_copyNodes t next).1 ∧
      parentPtr (_copyNodes t next).1 = none ∧ next ≤ (_copyNodes t next).2 ∧
      (addrs (_copyNodes t next).1).Nodup ∧
      ∀ a ∈ addrs (_copyNodes t next).1, next ≤ a ∧ a < (_copyNodes t next).2 := by
  induction t generalizing next with
  | null => simp [_copyNodes, shapeOf, ParentsOK, parentPtr, addrs]
  | node a v l r p h ihl ihr =>
      obtain ⟨l1, l2, l3, l4, l5, l6⟩ := ihl (next + 1)
      obtain ⟨r1, r2, r3, r4, r5, r6⟩ := ihr (_copyNodes l (next + 1)).2
      simp only [_copyNodes, shapeOf, shapeOf_setParent, ParentsOK, parentsOK_setParent,
        setParent_setParent, parentPtr, addrs, addrs_setParent, l1, r1]
      refine ⟨trivial, ⟨l2, r2, trivial, trivial⟩, trivial, by omega, ?_, ?_⟩
      · rw [List.nodup_append]
        refine ⟨l5, List.nodup_cons.2 ⟨?_, r5⟩, ?_⟩
        · intro hm
          have := (r6 _ hm).1
          omega
        · intro b hb1 hb2
          have h1 := l6 b hb1
          rcases List.mem_cons.1 hb2 with rfl | hb2
          · omega
          · have h2 := r6 b hb2
            omega
      · intro b hb
        rcases List.mem_append.1 hb with hb | hb
        · have := l6 b hb
          omega
        · rcases List.mem_cons.1 hb with rfl | hb
          · omega
          · have := r6 b hb
            omega

/-- C14: copy round trip.  For every tree, the copy-constructed tree has the same shape
with the same item and the same stored height at every position, parent references
that agree with its own child links below a root without parent, and the same count;
hence its traversals and its count equal those of the source.  Its nodes are newly
allocated: their addresses are pairwise distinct and were not in use before the copy. -/
theorem C14_copy_round_trip (T : AVLTree) (next : Nat) :
    ∃ c next1, T.copy next = (c, next1) ∧
      shapeOf c._root = shapeOf T._root ∧
      parentPtr c._root = none ∧
      (∀ a v l r p h, node a v l r p h ∈ nodes c._root →
        (l ≠ null → parentPtr l = some a) ∧ (r ≠ null → parentPtr r = some a)) ∧
      c.count = T.count ∧ c.inorder = T.inorder ∧ c.preorder = T.preorder ∧
      c.postorder = T.postorder ∧
      (addrs c._root).Nodup ∧ (∀ a ∈ addrs c._root, next ≤ a ∧ a < next1) := by
  obtain ⟨h1, h2, h3, -, h5, h6⟩ := copyNodes_spec T._root next
  refine ⟨_, _, rfl, h1, h3, ?_, rfl, inorder_eq_of_shape h1, preorder_eq_of_shape h1,
    postorder_eq_of_shape h1, h5, h6⟩
  intro a v l r p h hm
  exact parentsOK_children h2 hm

/-- C15: assignment.  When the target and the source are different tree objects, after
the assignment the target has the same shape, items, stored heights, count and
traversals as the source, with consistent parent links, and every other object, the
source included, is unchanged; when they are the same object nothing changes. -/
theorem C15_assignment (mem : Nat → AVLTree) (self source next : Nat) :
    ∃ mem1 next1, AVLTree.assign mem self source next = (mem1, next1) ∧
      (∀ k, k ≠ self → mem1 k = mem k) ∧
      (self ≠ source →
        mem1 source = mem source ∧
        shapeOf (mem1 self)._root = shapeOf (mem source)._root ∧
        (mem1 self).count = (mem source).count ∧
        (mem1 self).inorder = (mem source).inorder ∧
        parentPtr (mem1 self)._root = none ∧ ParentsOK (mem1 self)._root) ∧
      (self = source → mem1 = mem ∧ next1 = next) := by
  by_cases hs : self = source
  · subst hs
    refine ⟨mem, next, by simp [AVLTree.assign], fun _ _ => rfl, fun h => absurd rfl h,
      fun _ => ⟨rfl, rfl⟩⟩
  · have hsrc : Function.update mem self (mem self).clear source = mem source :=
      Function.update_noteq (Ne.symm hs) _ _
    obtain ⟨h1, h2, h3, -, -, -⟩ := copyNodes_spec (mem source)._root next
    refine ⟨Function.update (Function.update mem self (mem self).clear) self
        ⟨(_copyNodes (mem source)._root next).1, (mem source)._count⟩,
      (_copyNodes (mem source)._root next).2,
      by simp only [AVLTree.assign, if_pos hs, hsrc], ?_, ?_, ?_⟩
    · intro k hk
      rw [Function.update_noteq hk, Function.update_noteq hk]
    · intro _
      refine ⟨?_, ?_, ?_, ?_, ?_, ?_⟩
      · rw [Function.update_noteq (Ne.symm hs), Function.update_noteq (Ne.symm hs)]
      · simpa only [Function.update_same] using h1
      · simp only [Function.update_same, AVLTree.count]
      · simp only [Function.update_same, AVLTree.inorder]
        exact inorder_eq_of_shape h1
      · simpa only [Function.update_same] using h3
      · simpa only [Function.update_same] using h2
    · intro h
      exact absurd h hs

/-! The shape of the result of an insertion depends on the shape of the tree only, not
on the addresses the allocator hands out. -/

theorem shape_leftSingleRotate {t s : BinaryTreeNode} (h : shapeOf t = shapeOf s) :
    shapeOf (_leftSingleRotate t) = shapeOf (_leftSingleRotate s) := by
  rcases t with _ | ⟨a, v, l, r, p, hh⟩ <;> rcases s with _ | ⟨a1, v1, l1, r1, p1, hh1⟩
  · rfl
  · simp [shapeOf] at h
  · simp [shapeOf] at h
  · simp only [shapeOf, Shape.node.injEq] at h
    obtain ⟨e1, rfl, rfl, e2⟩ := h
    rcases r with _ | ⟨b, w, rl, rr, pb, hb⟩ <;> rcases r1 with _ | ⟨b1, w1, rl1, rr1, pb1, hb1⟩
    · simp [_leftSingleRotate, shapeOf, e1]
    · simp [shapeOf] at e2
    · simp [shapeOf] at e2
    · simp only [shapeOf, Shape.node.injEq] at e2
      obtain ⟨e3, rfl, rfl, e4⟩ := e2
      simp only [_leftSingleRotate, shapeOf, shapeOf_setParent, getHeight_node,
        getHeight_setParent, e1, e3, e4, getHeight_eq_of_shape e1, getHeight_eq_of_shape e3,
        getHeight_eq_of_shape e4]

theorem shape_rightSingleRotate {t s : BinaryTreeNode} (h : shapeOf t = shapeOf s) :
    shapeOf (_rightSingleRotate t) = shapeOf (_rightSingleRotate s) := by
  rcases t with _ | ⟨a, v, l, r, p, hh⟩ <;> rcases s with _ | ⟨a1, v1, l1, r1, p1, hh1⟩
  · rfl
  · simp [shapeOf] at h
  · simp [shapeOf] at h
  · simp only [shapeOf, Shape.node.injEq] at h
    obtain ⟨e1, rfl, rfl, e2⟩ := h
    rcases l with _ | ⟨b, w, ll, lr, pb, hb⟩ <;> rcases l1 with _ | ⟨b1, w1, ll1, lr1, pb1, hb1⟩
    · simp [_rightSingleRotate, shapeOf, e2]
    · simp [shapeOf] at e1
    · simp [shapeOf] at e1
    · simp only [shapeOf, Shape.node.injEq] at e1
      obtain ⟨e3, rfl, rfl, e4⟩ := e1
      simp only [_rightSingleRotate, shapeOf, shapeOf_setParent, getHeight_node,
        getHeight_setParent, e2, e3, e4, getHeight_eq_of_shape e2, getHeight_eq_of_shape e3,
        getHeight_eq_of_shape e4]

theorem shape_rightLeftRotate {t s : BinaryTreeNode} (h : shapeOf t = shapeOf s) :
    shapeOf (_rightLeftRotate t) = shapeOf (_rightLeftRotate s) := by
  rcases t with _ | ⟨a, v, l, r, p, hh⟩ <;> rcases s with _ | ⟨a1, v1, l1, r1, p1, hh1⟩
  · rfl
  · simp [shapeOf] at h
  · simp [shapeOf] at h
  · simp only [shapeOf, Shape.node.injEq] at h
    obtain ⟨e1, rfl, rfl, e2⟩ := h
    rcases r with _ | ⟨b, w, rl, rr, pb, hb⟩ <;> rcases r1 with _ | ⟨b1, w1, rl1, rr1, pb1, hb1⟩
    · simp [_rightLeftRotate, shapeOf, e1]
    · simp [shapeOf] at e2
    · simp [shapeOf] at e2
    · simp only [_rightLeftRotate]
      apply shape_leftSingleRotate
      simp only [shapeOf, e1, shape_rightSingleRotate e2]

theorem shape_leftRightRotate {t s : BinaryTreeNode} (h : shapeOf t = shapeOf s) :
    shapeOf (_leftRightRotate t) = shapeOf (_leftRightRotate s) := by
  rcases t with _ | ⟨a, v, l, r, p, hh⟩ <;> rcases s with _ | ⟨a1, v1, l1, r1, p1, hh1⟩
  · rfl
  · simp [shapeOf] at h
  · simp [shapeOf] at h
  · simp only [shapeOf, Shape.node.injEq] at h
    obtain ⟨e1, rfl, rfl, e2⟩ := h
    rcases l with _ | ⟨b, w, ll, lr, pb, hb⟩ <;> rcases l1 with _ | ⟨b1, w1, ll1, lr1, pb1, hb1⟩
    · simp [_leftRightRotate, shapeOf, e2]
    · simp [shapeOf] at e1
    · simp [shapeOf] at e1
    · simp only [_leftRightRotate]
      apply shape_rightSingleRotate
      simp only [shapeOf, e2, shape_leftSingleRotate e1]

theorem unwind_shape {a : Nat} (a1 : Nat) {v : Int} {l l1 r r1 : BinaryTreeNode}
    {p : Option Nat} (p1 : Option Nat) {x : Int} {t1 : BinaryTreeNode} (hl : shapeOf l = shapeOf l1) (hr : shapeOf r = shapeOf r1)
    (e : unwind a v l r p x = some t1) :
    ∃ t2, unwind a1 v l1 r1 p1 x = some t2 ∧ shapeOf t1 = shapeOf t2 := by
  have gl := getHeight_eq_of_shape hl
  have gr := getHeight_eq_of_shape hr
  have hroot : ∀ k : Int, shapeOf (node a v l r p k) = shapeOf (node a1 v l1 r1 p1 k) := by
    intro k
    simp only [shapeOf, hl, hr]
  unfold unwind at e ⊢
  simp only [← gl, ← gr] at e ⊢
  split_ifs at e ⊢ with c1 c2
  · rcases l with _ | ⟨b, w, ll, lr, pb, hb⟩ <;> rcases l1 with _ | ⟨b1, w1, ll1, lr1, pb1, hb1⟩
    · simp at e
    · simp [shapeOf] at hl
    · simp [shapeOf] at hl
    · have hw : w = w1 := by
        simp only [shapeOf, Shape.node.injEq] at hl
        exact hl.2.1
      subst hw
      simp only at e ⊢
      split_ifs at e ⊢ with c3
      · simp only [Option.some.injEq] at e
        subst e
        exact ⟨_, rfl, shape_rightSingleRotate (hroot _)⟩
      · simp only [Option.some.injEq] at e
        subst e
        exact ⟨_, rfl, shape_leftRightRotate (hroot _)⟩
  · rcases r with _ | ⟨b, w, rl, rr, pb, hb⟩ <;> rcases r1 with _ | ⟨b1, w1, rl1, rr1, pb1, hb1⟩
    · simp at e
    · simp [shapeOf] at hr
    · simp [shapeOf] at hr
    · have hw : w = w1 := by
        simp only [shapeOf, Shape.node.injEq] at hr
        exact hr.2.1
      subst hw
      simp only at e ⊢
      split_ifs at e ⊢ with c3
      · simp only [Option.some.injEq] at e
        subst e
        exact ⟨_, rfl, shape_leftSingleRotate (hroot _)⟩
      · simp only [Option.some.injEq] at e
        subst e
        exact ⟨_, rfl, shape_rightLeftRotate (hroot _)⟩
  · simp only [Option.some.injEq] at e
    subst e
    exact ⟨_, rfl, hroot _⟩

theorem insertHelp_shape {t s : BinaryTreeNode} {x : Int} {c n c1 n1 : Nat}
    {t1 : BinaryTreeNode} (h : shapeOf t = shapeOf s)
    (e : _insertHelp t x c n = some (t1, c1, n1)) (m : Nat) :
    ∃ s1 m1, _insertHelp s x c m = some (s1, c1, m1) ∧ shapeOf t1 = shapeOf s1 := by
  induction t generalizing s t1 with
  | null =>
      cases s with
      | null =>
          simp only [_insertHelp, Option.some.injEq, Prod.mk.injEq] at e
          obtain ⟨rfl, rfl, rfl⟩ := e
          exact ⟨_, _, rfl, rfl⟩
      | node a1 v1 l1 r1 p1 h1 => simp [shapeOf] at h
  | node a v l r p hh ihl ihr =>
      cases s with
      | null => simp [shapeOf] at h
      | node a1 v1 l1 r1 p1 h1 =>
          simp only [shapeOf, Shape.node.injEq] at h
          obtain ⟨el, rfl, rfl, er⟩ := h
          rcases insertHelp_node_cases e with ⟨hlt, l2, e1, e2⟩ | ⟨hgt, r2, e1, e2⟩ |
            ⟨rfl, rfl, rfl, rfl⟩
          · obtain ⟨l3, m1, e3, e4⟩ := ihl el e1
            have e5 : shapeOf (setParent l2 (some a)) = shapeOf (setParent l3 (some a1)) := by
              simpa using e4
            obtain ⟨t2, e6, e7⟩ := unwind_shape a1 p1 e5 er e2
            exact ⟨t2, m1, by simp [_insertHelp, hlt, e3, e6], e7⟩
          · obtain ⟨r3, m1, e3, e4⟩ := ihr er e1
            have e5 : shapeOf (setParent r2 (some a)) = shapeOf (setParent r3 (some a1)) := by
              simpa using e4
            obtain ⟨t2, e6, e7⟩ := unwind_shape a1 p1 el e5 e2
            have hnlt : ¬ x < v := by omega
            exact ⟨t2, m1, by simp [_insertHelp, hnlt, hgt, e3, e6], e7⟩
          · refine ⟨node a1 x l1 r1 p1 hh, m, by simp [_insertHelp], ?_⟩
            simp only [shapeOf, el, er]

theorem insertAll_shape (xs : List Int) (s s1 : AVLTree × Nat) {r : AVLTree × Nat}
    (h : shapeOf s.1._root = shapeOf s1.1._root) (hc : s.1._count = s1.1._count)
    (e : insertAll xs s = some r) :
    ∃ r1, insertAll xs s1 = some r1 ∧ shapeOf r.1._root = shapeOf r1.1._root ∧
      r.1._count = r1.1._count := by
  induction xs generalizing s s1 with
  | nil =>
      simp only [insertAll, Option.some.injEq] at e
      subst e
      exact ⟨s1, rfl, h, hc⟩
  | cons x xs ih =>
      simp only [insertAll] at e
      rcases hi : s.1.insert x s.2 with _ | s2
      · simp [hi] at e
      · simp only [hi] at e
        simp only [AVLTree.insert, Option.map_eq_some'] at hi
        obtain ⟨⟨t1, c1, n1⟩, e1, rfl⟩ := hi
        obtain ⟨t2, m1, e2, e3⟩ := insertHelp_shape h e1 s1.2
        rw [hc] at e2
        obtain ⟨r1, e4, e5⟩ := ih (⟨t1, c1⟩, n1) (⟨t2, c1⟩, m1) e3 rfl e
        exact ⟨r1, by simp [insertAll, AVLTree.insert, e2, e4], e5⟩

/-- C16: clear resets the tree.  For every tree, after clear the count is 0, the three
traversals are empty and minimumNode and maximumNode return the null pointer; clear of
a cleared tree, and of a new tree, is the empty tree again; and inserting a list into
the cleared tree returns what inserting it into a newly constructed tree returns: the
very same tree when the allocator is in the same state, and for any two allocator
states trees of the same shape, items, stored heights, count and inorder. -/
theorem C16_clear_resets (t : AVLTree) (next next2 : Nat) (xs : List Int) :
    t.clear.count = 0 ∧ t.clear.inorder = [] ∧ t.clear.preorder = [] ∧
      t.clear.postorder = [] ∧ t.clear.minimumNode = null ∧ t.clear.maximumNode = null ∧
      t.clear.clear = t.clear ∧ AVLTree.new.clear = AVLTree.new ∧
      insertAll xs (t.clear, next) = insertAll xs (AVLTree.new, next) ∧
      ∃ r1 r2, insertAll xs (t.clear, next) = some r1 ∧
        insertAll xs (AVLTree.new, next2) = some r2 ∧
        shapeOf r1.1._root = shapeOf r2.1._root ∧ r1.1.count = r2.1.count ∧
        r1.1.inorder = r2.1.inorder := by
  refine ⟨rfl, rfl, rfl, rfl, rfl, rfl, rfl, rfl, rfl, ?_⟩
  obtain ⟨r1, e1, -, -⟩ := inv_insertAll xs (s := (t.clear, next)) (inv_clear t next)
  obtain ⟨r2, e2, e3, e4⟩ :=
    insertAll_shape xs (t.clear, next) (AVLTree.new, next2) rfl rfl e1
  exact ⟨r1, r2, e1, e2, e3, e4, inorder_eq_of_shape e3⟩

/-- Scenario `test_copy_ctor_and_assignment`: the copy of a seven-item tree has the count
and the inorder of the source; assigning it to another object gives that object the same
inorder, and a self-assignment afterwards leaves it so. -/
theorem scenario_copy_ctor_and_assignment :
    (insertAll [10, 5, 15, 2, 7, 12, 18] (AVLTree.new, 0)).map
        (fun s =>
          let t2 := s.1.copy s.2
          let mem : Nat → AVLTree := fun k => if k = 2 then t2.1 else AVLTree.new
          let m3 := AVLTree.assign mem 3 2 t2.2
          let m4 := AVLTree.assign m3.1 3 3 m3.2
          (t2.1.count, t2.1.inorder, (m3.1 3).inorder, (m4.1 3).inorder, (m4.1 3).count)) =
      some (7, [2, 5, 7, 10, 12, 15, 18], [2, 5, 7, 10, 12, 15, 18],
        [2, 5, 7, 10, 12, 15, 18], 7) := by
  decide

/-! Claims on the rotation guards, small trees, the height bound, iteration and the
rebalancing sites of one insertion. -/

/-- C21: each rotation is a no-op when the child it requires is absent.
_leftSingleRotate and _rightLeftRotate return the null pointer for the null pointer and
a node without right child as it is; _rightSingleRotate and _leftRightRotate do the same
for the null pointer and a node without left child.  The value returned is the value
given: same root address, links, items and stored heights. -/
theorem C21_rotation_guards_noop (a : Nat) (v : Int) (c : BinaryTreeNode) (p : Option Nat)
    (h : Int) :
    _leftSingleRotate null = null ∧ _rightLeftRotate null = null ∧
      _rightSingleRotate null = null ∧ _leftRightRotate null = null ∧
      _leftSingleRotate (node a v c null p h) = node a v c null p h ∧
      _rightLeftRotate (node a v c null p h) = node a v c null p h ∧
      _rightSingleRotate (node a v null c p h) = node a v null c p h ∧
      _leftRightRotate (node a v null c p h) = node a v null c p h :=
  ⟨rfl, rfl, rfl, rfl, rfl, rfl, rfl, rfl⟩

/-- C22: three-item rebalancing.  For items a < b < c and each of the six orders of
inserting them into an empty tree, the calls return a tree with b at the root with
stored height 1, a as its left leaf and c as its right leaf, both with stored height 0,
with consistent parent links, inorder [a, b, c] and count 3. -/
theorem C22_three_item_rebalancing (next : Nat) (a b c : Int) (hab : a < b) (hbc : b < c)
    (order : List Int)
    (ho : order ∈ [[a, b, c], [a, c, b], [b, a, c], [b, c, a], [c, a, b], [c, b, a]]) :
    ∃ t next1, insertAll order (AVLTree.new, next) = some (t, next1) ∧
      shapeOf t._root =
        Shape.node (Shape.node Shape.leaf a 0 Shape.leaf) b 1
          (Shape.node Shape.leaf c 0 Shape.leaf) ∧
      parentPtr t._root = none ∧ ParentsOK t._root ∧
      t.inorder = [a, b, c] ∧ t.count = 3 := by
  have hac : a < c := lt_trans hab hbc
  have h1 : ¬ b < a := not_lt.2 (le_of_lt hab)
  have h2 : ¬ c < b := not_lt.2 (le_of_lt hbc)
  have h3 : ¬ c < a := not_lt.2 (le_of_lt hac)
  simp only [List.mem_cons, List.mem_singleton, List.not_mem_nil, or_false] at ho
  rcases ho with rfl | rfl | rfl | rfl | rfl | rfl <;>
    simp [insertAll, AVLTree.insert, AVLTree.new, AVLTree.inorder, AVLTree.count, _insertHelp,
      unwind, _leftSingleRotate, _rightSingleRotate, _leftRightRotate, _rightLeftRotate,
      shapeOf, parentPtr, ParentsOK, _inorderHelp, hab, hbc, hac, h1, h2, h3]

/-- Witness for C22 at the items 10 < 20 < 30 inserted in the order 30, 10, 20. -/
theorem C22_three_item_rebalancing_witness :
    ∃ t next1, insertAll [30, 10, 20] (AVLTree.new, 0) = some (t, next1) ∧
      shapeOf t._root =
        Shape.node (Shape.node Shape.leaf 10 0 Shape.leaf) 20 1
          (Shape.node Shape.leaf 30 0 Shape.leaf) ∧
      parentPtr t._root = none ∧ ParentsOK t._root ∧
      t.inorder = [10, 20, 30] ∧ t.count = 3 :=
  C22_three_item_rebalancing 0 10 20 30 (by decide) (by decide) [30, 10, 20] (by simp)

/-- C23: insert into an empty tree.  For every item x and allocator state, insert on the
empty tree returns the tree whose root is one new node holding x, without children and
without parent, with stored height 0, and count 1; the three traversals are [x]; find of
x, minimumNode and maximumNode return that node; and nextSmallestNode and
nextLargestNode of that node return the null pointer once the loop test may run. -/
theorem C23_insert_into_empty (next : Nat) (x : Int) (fuel : Nat) :
    ∃ t, AVLTree.new.insert x next = some (t, next + 1) ∧
      t._root = node next x null null none 0 ∧ t.count = 1 ∧
      t.inorder = [x] ∧ t.preorder = [x] ∧ t.postorder = [x] ∧
      t.find x = t._root ∧ t.minimumNode = t._root ∧ t.maximumNode = t._root ∧
      t.nextSmallestNode t._root (fuel + 1) = some null ∧
      t.nextLargestNode t._root (fuel + 1) = some null := by
  refine ⟨⟨node next x null null none 0, 1⟩, rfl, rfl, rfl, rfl, rfl, rfl, ?_, rfl, rfl,
    rfl, rfl⟩
  simp [AVLTree.find, _findHelp]

/-- An AVL tree of height `k - 1` stores at least `fib (k + 2) - 1` items. -/
theorem fib_le_length {t : BinaryTreeNode} (ht : Avl t) (k : Nat)
    (hk : height t = (k : Int) - 1) : Nat.fib (k + 2) ≤ (_inorderHelp t).length + 1 := by
  induction t generalizing k with
  | null =>
      simp only [height] at hk
      have : k = 0 := by omega
      subst this
      simp [_inorderHelp]
  | node a v l r p h ihl ihr =>
      simp only [Avl] at ht
      obtain ⟨hl, hr, -, hb1, hb2⟩ := ht
      have gl := height_ge l
      have gr := height_ge r
      simp only [height] at hk
      have e1 := ihl hl (height l + 1).toNat (by omega)
      have e2 := ihr hr (height r + 1).toNat (by omega)
      simp only [_inorderHelp, List.length_append, List.length_cons]
      rcases le_total (height r) (height l) with hc | hc
      · have hkl : k = (height l + 1).toNat + 1 := by omega
        have hm : Nat.fib ((height l + 1).toNat + 1) ≤ Nat.fib ((height r + 1).toNat + 2) :=
          Nat.fib_mono (by omega)
        rw [hkl, Nat.fib_add_two]
        have e3 : (height l + 1).toNat + 1 + 1 = (height l + 1).toNat + 2 := rfl
        rw [e3]
        omega
      · have hkr : k = (height r + 1).toNat + 1 := by omega
        have hm : Nat.fib ((height r + 1).toNat + 1) ≤ Nat.fib ((height l + 1).toNat + 2) :=
          Nat.fib_mono (by omega)
        rw [hkr, Nat.fib_add_two]
        have e3 : (height r + 1).toNat + 1 + 1 = (height r + 1).toNat + 2 := rfl
        rw [e3]
        omega

/-- C24: height is logarithmic in count.  For every tree built by inserts, with root
height h (the recursive height, which is also the stored height read by getHeight) and
count n, n is at least Fib (h + 3) - 1; in particular a tree holding 7 items has height
at most 3, as has the tree built by inserting 1 to 7 in ascending order. -/
theorem C24_height_logarithmic (next : Nat) (xs : List Int) :
    ∃ t next1, insertAll xs (AVLTree.new, next) = some (t, next1) ∧
      getHeight t._root = height t._root ∧
      Nat.fib (height t._root + 3).toNat - 1 ≤ t.count ∧
      (t.count = 7 → height t._root ≤ 3) ∧
      ∃ t7 n7, insertAll [1, 2, 3, 4, 5, 6, 7] (AVLTree.new, next) = some (t7, n7) ∧
        t7.count = 7 ∧ height t7._root ≤ 3 := by
  have key : ∀ ys : List Int, ∃ t next1, insertAll ys (AVLTree.new, next) = some (t, next1) ∧
      getHeight t._root = height t._root ∧
      Nat.fib (height t._root + 3).toNat - 1 ≤ t.count ∧
      (t.count = 7 → height t._root ≤ 3) ∧ (∀ y, y ∈ t.inorder ↔ y ∈ ys) ∧
      t.inorder.Sorted (· < ·) := by
    intro ys
    obtain ⟨s1, e, hinv, hm⟩ := inv_insertAll ys (s := (AVLTree.new, next)) (inv_new next)
    have hg := height_ge s1.1._root
    have hfib := fib_le_length hinv.avl (height s1.1._root + 1).toNat (by omega)
    have hc : s1.1.count = (_inorderHelp s1.1._root).length := hinv.count
    have e3 : (height s1.1._root + 3).toNat = (height s1.1._root + 1).toNat + 2 := by omega
    refine ⟨s1.1, s1.2, e, getHeight_eq_height hinv.avl, ?_, ?_, ?_, bst_sorted hinv.bst⟩
    · rw [e3]
      omega
    · intro h7
      by_contra hcon
      have h13 : Nat.fib 7 ≤ Nat.fib ((height s1.1._root + 1).toNat + 2) :=
        Nat.fib_mono (by omega)
      have : Nat.fib 7 = 13 := by decide
      omega
    · intro y
      rw [AVLTree.inorder, hm y]
      simp [AVLTree.new, _inorderHelp]
  obtain ⟨t, next1, e, h1, h2, h3, -, -⟩ := key xs
  obtain ⟨t7, n7, e7, -, -, g3, g4, g5⟩ := key [1, 2, 3, 4, 5, 6, 7]
  refine ⟨t, next1, e, h1, h2, h3, t7, n7, e7, ?_, ?_⟩
  · have hperm : t7.inorder = [1, 2, 3, 4, 5, 6, 7] := by
      refine List.eq_of_perm_of_sorted ?_ g5.le_of_lt (by decide)
      refine (List.perm_ext_iff_of_nodup g5.nodup (by decide)).2 ?_
      exact g4
    obtain ⟨s1, e1, hinv, -⟩ :=
      inv_insertAll [1, 2, 3, 4, 5, 6, 7] (s := (AVLTree.new, next)) (inv_new next)
    rw [e7] at e1
    simp only [Option.some.injEq] at e1
    subst e1
    have hc : t7.count = (_inorderHelp t7._root).length := hinv.count
    rw [hc]
    have : _inorderHelp t7._root = [1, 2, 3, 4, 5, 6, 7] := hperm
    rw [this]
    rfl
  · apply g3
    have hperm : t7.inorder = [1, 2, 3, 4, 5, 6, 7] := by
      refine List.eq_of_perm_of_sorted ?_ g5.le_of_lt (by decide)
      refine (List.perm_ext_iff_of_nodup g5.nodup (by decide)).2 ?_
      exact g4
    obtain ⟨s1, e1, hinv, -⟩ :=
      inv_insertAll [1, 2, 3, 4, 5, 6, 7] (s := (AVLTree.new, next)) (inv_new next)
    rw [e7] at e1
    simp only [Option.some.injEq] at e1
    subst e1
    have hc : t7.count = (_inorderHelp t7._root).length := hinv.count
    rw [hc]
    have : _inorderHelp t7._root = [1, 2, 3, 4, 5, 6, 7] := hperm
    rw [this]
    rfl

/-! Iteration along successors. -/

theorem inorder_eq_filterMap_nodes (t : BinaryTreeNode) :
    _inorderHelp t = (nodes t).filterMap item := by
  induction t with
  | null => rfl
  | node a v l r p h ihl ihr =>
      simp only [_inorderHelp, nodes, List.filterMap_append, List.filterMap_cons, item, ihl,
        ihr]

theorem nodes_map_item (t : BinaryTreeNode) :
    (nodes t).map item = (_inorderHelp t).map some := by
  induction t with
  | null => rfl
  | node a v l r p h ihl ihr =>
      simp only [_inorderHelp, nodes, List.map_append, List.map_cons, item, ihl, ihr]

theorem nodes_eq_minimum_cons (a : Nat) (v : Int) (l r : BinaryTreeNode) (p : Option Nat)
    (h : Int) :
    ∃ rest, nodes (node a v l r p h) = _minimumNodeHelp (node a v l r p h) :: rest := by
  induction l generalizing a v r p h with
  | null => exact ⟨nodes r, rfl⟩
  | node b w ll lr pb hb ihl _ =>
      obtain ⟨rest, e⟩ := ihl b w lr pb hb
      refine ⟨rest ++ node a v (node b w ll lr pb hb) r p h :: nodes r, ?_⟩
      rw [nodes, e]
      rfl

theorem getD_split {α : Type} (l : List α) (k : Nat) (d : α) (h : k < l.length) :
    ∃ pre rest, l = pre ++ l.getD k d :: rest ∧ rest.headD d = l.getD (k + 1) d := by
  induction l generalizing k with
  | nil => simp at h
  | cons x xs ih =>
      cases k with
      | zero =>
          refine ⟨[], xs, rfl, ?_⟩
          cases xs <;> rfl
      | succ k =>
          obtain ⟨pre, rest, e1, e2⟩ := ih k (by simpa using h)
          refine ⟨x :: pre, rest, ?_, ?_⟩
          · simp only [List.getD_cons_succ, List.cons_append]
            rw [← e1]
          · simpa only [List.getD_cons_succ] using e2

/-- In a tree satisfying the invariant, `nextLargestNode` of a node is the node that
follows it in the in-order list of nodes, or the null pointer after the last one. -/
theorem nextLargestNode_next {t : AVLTree} {next : Nat} (hinv : Inv t next)
    {pre rest : List BinaryTreeNode} {n : BinaryTreeNode}
    (hsplit : nodes t._root = pre ++ n :: rest) (fuel : Nat) (hf : t.count + 1 ≤ fuel) :
    t.nextLargestNode n fuel = some (rest.headD null) := by
  have hn : n ∈ nodes t._root := by
    rw [hsplit]
    simp
  have hnn := mem_nodes_ne_null hn
  obtain ⟨v, hv⟩ : ∃ v, item n = some v := by
    rcases n with _ | ⟨a, v, l, r, p, h⟩
    · exact absurd rfl hnn
    · exact ⟨v, rfl⟩
  have hs := bst_sorted hinv.bst
  have hin : _inorderHelp t._root =
      pre.filterMap item ++ v :: rest.filterMap item := by
    rw [inorder_eq_filterMap_nodes, hsplit, List.filterMap_append, List.filterMap_cons, hv]
  rw [hin] at hs
  obtain ⟨-, hs2, hs3⟩ := List.pairwise_append.1 hs
  obtain ⟨hs4, hs5⟩ := List.pairwise_cons.1 hs2
  obtain ⟨r, hr1, hr2, hr3⟩ := nextLargestNode_spec hinv hn hv
  rw [hr1 fuel hf]
  congr 1
  rcases rest with _ | ⟨m, rest1⟩
  · apply hr2.2
    intro y hy
    rw [AVLTree.inorder, hin] at hy
    simp only [List.filterMap_nil, List.mem_append, List.mem_singleton] at hy
    rcases hy with hy | rfl
    · exact le_of_lt (hs3 y hy v (List.mem_cons_self _ _))
    · exact le_rfl
  · have hm : m ∈ nodes t._root := by
      rw [hsplit]
      simp
    have hmn := mem_nodes_ne_null hm
    obtain ⟨w1, hw1⟩ : ∃ w1, item m = some w1 := by
      rcases m with _ | ⟨a, w1, l, r, p, h⟩
      · exact absurd rfl hmn
      · exact ⟨w1, rfl⟩
    simp only [List.filterMap_cons, hw1] at hs4 hs5
    have hvw1 : v < w1 := hs4 w1 (List.mem_cons_self _ _)
    have hrn : r ≠ null := by
      intro hnull
      have := hr2.1 hnull w1 (item_mem_inorder hm hw1)
      omega
    obtain ⟨hrm, w, hw, hvw, hleast, hfind⟩ := hr3 hrn
    have hww1 : w ≤ w1 := hleast w1 (item_mem_inorder hm hw1) hvw1
    have hwin := item_mem_inorder hrm hw
    rw [hin] at hwin
    simp only [List.filterMap_cons, hw1, List.mem_append, List.mem_cons] at hwin
    have hweq : w = w1 := by
      rcases hwin with h1 | rfl | rfl | h1
      · have := hs3 w h1 v (List.mem_cons_self _ _)
        omega
      · omega
      · rfl
      · have := (List.pairwise_cons.1 hs5).1 w h1
        omega
    subst hweq
    simp only [List.headD_cons]
    rw [← hfind]
    exact findHelp_eq_of_mem_nodes hinv.bst hm hw1

theorem nextLargestIter_eq {t : AVLTree} {next : Nat} (hinv : Inv t next) (fuel : Nat)
    (hf : t.count + 1 ≤ fuel) (k : Nat) :
    nextLargestIter t fuel k t.minimumNode = some ((nodes t._root).getD k null) := by
  induction k with
  | zero =>
      simp only [nextLargestIter, AVLTree.minimumNode]
      rcases hroot : t._root with _ | ⟨a, v, l, r, p, h⟩
      · rfl
      · obtain ⟨rest, e⟩ := nodes_eq_minimum_cons a v l r p h
        rw [e]
        rfl
  | succ k ih =>
      simp only [nextLargestIter, ih]
      by_cases hk : k < (nodes t._root).length
      · obtain ⟨pre, rest, e1, e2⟩ := getD_split (nodes t._root) k null hk
        rw [nextLargestNode_next hinv e1 fuel hf, e2]
      · have h1 : (nodes t._root).getD k null = null := by
          simp only [List.getD_eq_getElem?_getD]
          rw [List.getElem?_eq_none (by omega)]
          rfl
        have h2 : (nodes t._root).getD (k + 1) null = null := by
          simp only [List.getD_eq_getElem?_getD]
          rw [List.getElem?_eq_none (by omega)]
          rfl
        rw [h1, h2]
        rfl

/-- C25: ordered iteration by successor.  On every tree built by inserts, with n the
count, and with any fuel above n for each call: the pointer reached from minimumNode
after k applications of nextLargestNode is, for every k below n, a node of the tree
holding the k-th element of inorder; after n applications it is the null pointer.  So
the walk visits n nodes whose items are inorder in that order and then ends. -/
theorem C25_iteration_by_successor (next : Nat) (xs : List Int) :
    ∃ t next1, insertAll xs (AVLTree.new, next) = some (t, next1) ∧
      t.inorder.length = t.count ∧
      ∀ fuel, t.count + 1 ≤ fuel →
        (∀ k x, t.inorder[k]? = some x →
          ∃ m, nextLargestIter t fuel k t.minimumNode = some m ∧ m ∈ nodes t._root ∧
            item m = some x) ∧
        nextLargestIter t fuel t.count t.minimumNode = some null := by
  obtain ⟨s1, e, hinv, -⟩ := inv_insertAll xs (s := (AVLTree.new, next)) (inv_new next)
  refine ⟨s1.1, s1.2, e, hinv.count.symm, ?_⟩
  intro fuel hf
  have hlen : (nodes s1.1._root).length = s1.1.count := by
    rw [length_nodes]
    exact hinv.count.symm
  refine ⟨?_, ?_⟩
  · intro k x hx
    have hmap := nodes_map_item s1.1._root
    have h1 : ((nodes s1.1._root).map item)[k]? = some (some x) := by
      rw [hmap, List.getElem?_map]
      simp only [AVLTree.inorder] at hx
      rw [hx]
      rfl
    rw [List.getElem?_map] at h1
    rcases hm : (nodes s1.1._root)[k]? with _ | m
    · rw [hm] at h1
      simp at h1
    · rw [hm] at h1
      simp only [Option.map_some', Option.some.injEq] at h1
      refine ⟨m, ?_, List.getElem?_mem hm, h1⟩
      rw [nextLargestIter_eq hinv fuel hf k, List.getD_eq_getElem?_getD, hm]
      rfl
  · rw [nextLargestIter_eq hinv fuel hf, List.getD_eq_getElem?_getD,
      List.getElem?_eq_none (by omega)]
    rfl

/-! The instrumented insertion. -/

theorem unwindLog_fst (a : Nat) (v : Int) (l r : BinaryTreeNode) (p : Option Nat) (x : Int) :
    (unwindLog a v l r p x).map Prod.fst = unwind a v l r p x := by
  unfold unwindLog unwind
  simp only
  split_ifs with h1 h2
  · rcases l with _ | ⟨b, w, ll, lr, pb, hb⟩
    · rfl
    · simp only
      split_ifs <;> rfl
  · rcases r with _ | ⟨b, w, rl, rr, pb, hb⟩
    · rfl
    · simp only
      split_ifs <;> rfl
  · rfl

/-- Erasing the log from the instrumented insertion gives `_insertHelp`. -/
theorem insertHelpLog_fst (t : BinaryTreeNode) (x : Int) (c n : Nat) :
    (_insertHelpLog t x c n).map Prod.fst = _insertHelp t x c n := by
  induction t with
  | null => rfl
  | node a v l r p h ihl ihr =>
      simp only [_insertHelpLog, _insertHelp]
      split_ifs with h1 h2
      · rw [← ihl]
        rcases _insertHelpLog l x c n with _ | ⟨⟨l1, c1, n1⟩, log⟩
        · rfl
        · simp only [Option.map_some', ← unwindLog_fst, Option.map_map]
          rfl
      · rw [← ihr]
        rcases _insertHelpLog r x c n with _ | ⟨⟨r1, c1, n1⟩, log⟩
        · rfl
        · simp only [Option.map_some', ← unwindLog_fst, Option.map_map]
          rfl
      · rfl

/-- The visit after an insertion into the left subtree of a balanced node. -/
theorem unwindLog_left (a : Nat) (v : Int) (l l1 r : BinaryTreeNode) (p : Option Nat)
    (h x : Int) (hl1 : Avl l1) (hr : Avl r) (hb1 : height l ≤ height r + 1)
    (hb2 : height r ≤ height l + 1) (hg : Grows l l1 x) :
    ∃ t1 bf cs, unwindLog a v (setParent l1 (some a)) r p x = some (t1, bf, cs) ∧
      Visit.Sound ⟨node a v l r p h,
        node a v (setParent l1 (some a)) r p
          (1 + max (getHeight (setParent l1 (some a))) (getHeight r)), bf, cs, t1⟩ ∧
      (cs ≠ RotationCase.noRotation → height l1 = height l + 1) := by
  obtain ⟨hg1, hg2⟩ := hg
  have hgr := height_ge r
  have hgl := height_ge l
  have e1 : getHeight (setParent l1 (some a)) = height l1 := by
    simp [getHeight_eq_height hl1]
  have e2 : getHeight r = height r := getHeight_eq_height hr
  simp only [unwindLog, e1, e2]
  by_cases hbf : height l1 - height r > 1
  · have hgrow : height l1 = height l + 1 := by omega
    have hlnn : l ≠ null := by
      rintro rfl
      simp only [height] at hgrow hbf
      omega
    obtain ⟨b, w, ll, lr, pb, hb, rfl, hcase⟩ := (hg2 hgrow).resolve_left hlnn
    simp only [Avl] at hl1
    obtain ⟨hll, hlr, hhb, hbb1, hbb2⟩ := hl1
    have hbf1 := hbf
    simp only [height] at hgrow hbf1 hg1
    rcases hcase with ⟨hxw, hhh⟩ | ⟨hxw, hhh⟩
    · simp only [if_pos hbf, setParent_node, if_pos hxw]
      refine ⟨_, _, _, rfl, ?_, fun _ => by simp only [height]; omega⟩
      simp only [Visit.Sound, leftNode, rightNode, getHeight_node, e2, _rightSingleRotate, ptr,
        height, height_setParent, ne_eq, not_false_eq_true, true_and, reduceCtorEq]
      refine ⟨?_, ?_, ?_⟩ <;> omega
    · have hnlt : ¬ x < w := by omega
      have hlrnn : lr ≠ null := by
        rintro rfl
        have := height_ge ll
        simp only [height] at hhh
        omega
      cases lr with
      | null => exact absurd rfl hlrnn
      | node d u lrl lrr pd hd =>
          simp only [Avl] at hlr
          obtain ⟨hlrl, hlrr, hhd, hd1, hd2⟩ := hlr
          have hbf3 := hbf
          simp only [height] at hgrow hbf1 hbf3 hg1 hhh hbb1 hbb2 hhb
          simp only [if_pos hbf, setParent_node, if_neg hnlt]
          refine ⟨_, _, _, rfl, ?_, fun _ => by simp only [height]; omega⟩
          simp only [Visit.Sound, leftNode, rightNode, getHeight_node, e2, _leftRightRotate,
            _leftSingleRotate, _rightSingleRotate, ptr, height, height_setParent, ne_eq,
            not_false_eq_true, true_and, reduceCtorEq]
          refine ⟨?_, ?_, ?_⟩ <;> omega
  · have hbf2 : ¬ height l1 - height r < -1 := by omega
    simp only [if_neg hbf, if_neg hbf2]
    refine ⟨_, _, _, rfl, ?_, fun hc => absurd rfl hc⟩
    simp only [Visit.Sound, leftNode, rightNode, e1, e2, and_true, true_and]
    omega

/-- The visit after an insertion into the right subtree of a balanced node. -/
theorem unwindLog_right (a : Nat) (v : Int) (l r r1 : BinaryTreeNode) (p : Option Nat)
    (h x : Int) (hl : Avl l) (hr1 : Avl r1) (hb1 : height l ≤ height r + 1)
    (hb2 : height r ≤ height l + 1) (hg : Grows r r1 x) :
    ∃ t1 bf cs, unwindLog a v l (setParent r1 (some a)) p x = some (t1, bf, cs) ∧
      Visit.Sound ⟨node a v l r p h,
        node a v l (setParent r1 (some a)) p
          (1 + max (getHeight l) (getHeight (setParent r1 (some a)))), bf, cs, t1⟩ ∧
      (cs ≠ RotationCase.noRotation → height r1 = height r + 1) := by
  obtain ⟨hg1, hg2⟩ := hg
  have hgr := height_ge r
  have hgl := height_ge l
  have e1 : getHeight (setParent r1 (some a)) = height r1 := by
    simp [getHeight_eq_height hr1]
  have e2 : getHeight l = height l := getHeight_eq_height hl
  simp only [unwindLog, e1, e2]
  by_cases hbf : height l - height r1 < -1
  · have hbf0 : ¬ height l - height r1 > 1 := by omega
    have hgrow : height r1 = height r + 1 := by omega
    have hrnn : r ≠ null := by
      rintro rfl
      simp only [height] at hgrow hbf
      omega
    obtain ⟨b, w, rl, rr, pb, hb, rfl, hcase⟩ := (hg2 hgrow).resolve_left hrnn
    simp only [Avl] at hr1
    obtain ⟨hrl, hrr, hhb, hbb1, hbb2⟩ := hr1
    have hbf1 := hbf
    simp only [height] at hgrow hbf1 hg1
    rcases hcase with ⟨hxw, hhh⟩ | ⟨hxw, hhh⟩
    · have hngt : ¬ x > w := by omega
      have hrlnn : rl ≠ null := by
        rintro rfl
        have := height_ge rr
        simp only [height] at hhh
        omega
      cases rl with
      | null => exact absurd rfl hrlnn
      | node d u rll rlr pd hd =>
          simp only [Avl] at hrl
          obtain ⟨hrll, hrlr, hhd, hd1, hd2⟩ := hrl
          have hbf3 := hbf
          simp only [height] at hgrow hbf1 hbf3 hg1 hhh hbb1 hbb2 hhb
          simp only [if_pos hbf, if_neg hbf0, setParent_node, if_neg hngt]
          refine ⟨_, _, _, rfl, ?_, fun _ => by simp only [height]; omega⟩
          simp only [Visit.Sound, leftNode, rightNode, getHeight_node, e2, _rightLeftRotate,
            _leftSingleRotate, _rightSingleRotate, ptr, height, height_setParent, ne_eq,
            not_false_eq_true, true_and, reduceCtorEq]
          refine ⟨?_, ?_, ?_⟩ <;> omega
    · have hxw2 : x > w := hxw
      simp only [if_pos hbf, if_neg hbf0, setParent_node, if_pos hxw2]
      refine ⟨_, _, _, rfl, ?_, fun _ => by simp only [height]; omega⟩
      simp only [Visit.Sound, leftNode, rightNode, getHeight_node, e2, _leftSingleRotate, ptr,
        height, height_setParent, ne_eq, not_false_eq_true, true_and, reduceCtorEq]
      refine ⟨?_, ?_, ?_⟩ <;> omega
  · have hbf2 : ¬ height l - height r1 > 1 := by omega
    simp only [if_neg hbf, if_neg hbf2]
    refine ⟨_, _, _, rfl, ?_, fun hc => absurd rfl hc⟩
    simp only [Visit.Sound, leftNode, rightNode, e1, e2, and_true, true_and]
    omega

theorem Visit.Sound.height_eq {e : Visit} (he : e.Sound)
    (hr : e.rotation ≠ RotationCase.noRotation) : height e.after = height e.before := by
  obtain ⟨-, h2⟩ := he
  rcases e with ⟨b, u, bf, cs, af⟩
  cases cs
  · exact absurd rfl hr
  · exact h2.2.2.2.2
  · exact h2.2.2.2.2.2
  · exact h2.2.2.2.2
  · exact h2.2.2.2.2.2

theorem Visit.Sound.after_eq {e : Visit} (he : e.Sound)
    (hr : e.rotation = RotationCase.noRotation) : e.after = e.updated := by
  obtain ⟨-, h2⟩ := he
  rcases e with ⟨b, u, bf, cs, af⟩
  simp only at hr
  subst hr
  exact h2.2.2

theorem rotations_append_singleton (log : List Visit) (e : Visit) :
    rotations (log ++ [e]) =
      rotations log + (if e.rotation = RotationCase.noRotation then 0 else 1) := by
  unfold rotations
  rw [List.countP_append, List.countP_cons, List.countP_nil]
  by_cases h : e.rotation = RotationCase.noRotation <;> simp [h]

theorem rotations_pos_of_mem {log : List Visit} {e : Visit} (he : e ∈ log)
    (hr : e.rotation ≠ RotationCase.noRotation) : 0 < rotations log := by
  unfold rotations
  exact List.countP_pos_iff.2 ⟨e, he, by simpa using hr⟩

theorem exists_shape_setParent {t m : BinaryTreeNode} (p : Option Nat) (hm : m ∈ nodes t) :
    ∃ m1, m1 ∈ nodes (setParent t p) ∧ shapeOf m1 = shapeOf m := by
  rcases t with _ | ⟨a, v, l, r, q, h⟩
  · simp [nodes] at hm
  · simp only [setParent_node, nodes, List.mem_append, List.mem_cons] at hm ⊢
    rcases hm with hm | rfl | hm
    · exact ⟨m, Or.inl hm, rfl⟩
    · exact ⟨node a v l r p h, Or.inr (Or.inl rfl), rfl⟩
    · exact ⟨m, Or.inr (Or.inr hm), rfl⟩

/-- Appending the visit of a node to the log of the insertion into one of its children
`c0`, which became `c1`. -/
theorem log_step (c0 c1 : BinaryTreeNode) (log : List Visit) (e0 : Visit)
    (hs : ∀ e ∈ log, e.Sound)
    (hrot : rotations log = 0 ∨ (rotations log = 1 ∧ height c1 = height c0))
    (hsub : ∀ e ∈ log, e.rotation ≠ RotationCase.noRotation →
      ∃ m, m ∈ nodes c1 ∧ shapeOf m = shapeOf e.after)
    (h0 : e0.Sound)
    (hcs : e0.rotation ≠ RotationCase.noRotation → height c1 = height c0 + 1)
    (hkeep : e0.rotation = RotationCase.noRotation → height c1 = height c0 →
      height e0.after = height e0.before)
    (hin : e0.rotation = RotationCase.noRotation → ∀ m, m ∈ nodes c1 →
      ∃ m1, m1 ∈ nodes e0.after ∧ shapeOf m1 = shapeOf m)
    (hself : e0.after ∈ nodes e0.after) :
    (∀ e ∈ log ++ [e0], e.Sound) ∧
      (rotations (log ++ [e0]) = 0 ∨
        (rotations (log ++ [e0]) = 1 ∧ height e0.after = height e0.before)) ∧
      (∀ e ∈ log ++ [e0], e.rotation ≠ RotationCase.noRotation →
        ∃ m, m ∈ nodes e0.after ∧ shapeOf m = shapeOf e.after) := by
  have hall : ∀ e ∈ log ++ [e0], e.Sound := by
    intro e he
    rcases List.mem_append.1 he with he | he
    · exact hs e he
    · rw [List.mem_singleton] at he
      rw [he]
      exact h0
  refine ⟨hall, ?_, ?_⟩
  · rw [rotations_append_singleton]
    by_cases hc : e0.rotation = RotationCase.noRotation
    · simp only [if_pos hc, Nat.add_zero]
      rcases hrot with h1 | ⟨h1, h2⟩
      · exact Or.inl h1
      · exact Or.inr ⟨h1, hkeep hc h2⟩
    · simp only [if_neg hc]
      have hgrow := hcs hc
      rcases hrot with h1 | ⟨h1, h2⟩
      · exact Or.inr ⟨by omega, h0.height_eq hc⟩
      · omega
  · intro e he hr
    rcases List.mem_append.1 he with he | he
    · have hpos := rotations_pos_of_mem he hr
      have hc : e0.rotation = RotationCase.noRotation := by
        by_contra hc
        have hgrow := hcs hc
        rcases hrot with h1 | ⟨h1, h2⟩ <;> omega
      obtain ⟨m, hm, hshape⟩ := hsub e he hr
      obtain ⟨m1, hm1, hshape1⟩ := hin hc m hm
      exact ⟨m1, hm1, hshape1.trans hshape⟩
    · rw [List.mem_singleton] at he
      subst he
      exact ⟨e.after, hself, rfl⟩

theorem unwind_ne_null {a : Nat} {v : Int} {l r : BinaryTreeNode} {p : Option Nat} {x : Int}
    {t1 : BinaryTreeNode} (e : unwind a v l r p x = some t1) : t1 ∈ nodes t1 := by
  have hi := (unwind_spec e).1
  rcases t1 with _ | ⟨a1, v1, l1, r1, p1, h1⟩
  · simp [_inorderHelp] at hi
  · exact mem_nodes_self _ _ _ _ _ _

/-- The instrumented insertion into a balanced subtree returns; every visit is sound; a
rotation branch is entered at no visit, or at exactly one and then the subtree keeps its
height; and the subtree a rotation returns is, up to addresses and parent links, a
subtree of the result. -/
theorem insertHelpLog_spec (x : Int) (c n : Nat) (t : BinaryTreeNode) (ht : Avl t) :
    ∃ t1 c1 n1 log, _insertHelpLog t x c n = some ((t1, c1, n1), log) ∧
      (∀ e ∈ log, e.Sound) ∧
      (rotations log = 0 ∨ (rotations log = 1 ∧ height t1 = height t)) ∧
      (∀ e ∈ log, e.rotation ≠ RotationCase.noRotation →
        ∃ m, m ∈ nodes t1 ∧ shapeOf m = shapeOf e.after) := by
  induction t with
  | null =>
      refine ⟨_, _, _, [], rfl, ?_, Or.inl rfl, ?_⟩ <;> simp
  | node a v l r p h ihl ihr =>
      have ht1 := ht
      simp only [Avl] at ht1
      obtain ⟨hl, hr, hh, hb1, hb2⟩ := ht1
      rcases lt_trichotomy x v with hlt | heq | hgt
      · obtain ⟨l1, c1, n1, log, e, hs, hrot, hsub⟩ := ihl hl
        have er : _insertHelp l x c n = some (l1, c1, n1) := by
          rw [← insertHelpLog_fst, e]
          rfl
        obtain ⟨l2, c2, n2, e2, hl1, hg⟩ := insertHelp_avl x c n l hl
        rw [er] at e2
        simp only [Option.some.injEq, Prod.mk.injEq] at e2
        obtain ⟨rfl, rfl, rfl⟩ := e2
        obtain ⟨t1, bf, cs, eu, hsound, hcs⟩ := unwindLog_left a v l l1 r p h x hl1 hr hb1 hb2 hg
        have eun : unwind a v (setParent l1 (some a)) r p x = some t1 := by
          rw [← unwindLog_fst, eu]
          rfl
        have key := log_step l l1 log
          ⟨node a v l r p h, node a v (setParent l1 (some a)) r p
            (1 + max (getHeight (setParent l1 (some a))) (getHeight r)), bf, cs, t1⟩
          hs hrot hsub hsound hcs
          (by
            intro hc hk
            have := hsound.after_eq hc
            simp only at this
            rw [this]
            simp only [height, height_setParent, hk])
          (by
            intro hc m hm
            have := hsound.after_eq hc
            simp only at this
            obtain ⟨m1, hm1, hshape⟩ := exists_shape_setParent (some a) hm
            refine ⟨m1, ?_, hshape⟩
            simp only
            rw [this, nodes]
            exact List.mem_append_left _ hm1)
          (unwind_ne_null eun)
        exact ⟨t1, c1, n1, _, by simp [_insertHelpLog, hlt, e, eu], key.1, key.2.1, key.2.2⟩
      · subst heq
        refine ⟨node a x l r p h, c, n, [], by simp [_insertHelpLog], ?_, Or.inl rfl, ?_⟩ <;>
          simp
      · obtain ⟨r1, c1, n1, log, e, hs, hrot, hsub⟩ := ihr hr
        have hnlt : ¬ x < v := by omega
        have er : _insertHelp r x c n = some (r1, c1, n1) := by
          rw [← insertHelpLog_fst, e]
          rfl
        obtain ⟨r2, c2, n2, e2, hr1, hg⟩ := insertHelp_avl x c n r hr
        rw [er] at e2
        simp only [Option.some.injEq, Prod.mk.injEq] at e2
        obtain ⟨rfl, rfl, rfl⟩ := e2
        obtain ⟨t1, bf, cs, eu, hsound, hcs⟩ :=
          unwindLog_right a v l r r1 p h x hl hr1 hb1 hb2 hg
        have eun : unwind a v l (setParent r1 (some a)) p x = some t1 := by
          rw [← unwindLog_fst, eu]
          rfl
        have key := log_step r r1 log
          ⟨node a v l r p h, node a v l (setParent r1 (some a)) p
            (1 + max (getHeight l) (getHeight (setParent r1 (some a)))), bf, cs, t1⟩
          hs hrot hsub hsound hcs
          (by
            intro hc hk
            have := hsound.after_eq hc
            simp only at this
            rw [this]
            simp only [height, height_setParent, hk])
          (by
            intro hc m hm
            have := hsound.after_eq hc
            simp only at this
            obtain ⟨m1, hm1, hshape⟩ := exists_shape_setParent (some a) hm
            refine ⟨m1, ?_, hshape⟩
            simp only
            rw [this, nodes]
            exact List.mem_append_right _ (List.mem_cons_of_mem _ hm1))
          (unwind_ne_null eun)
        exact ⟨t1, c1, n1, _, by simp [_insertHelpLog, hnlt, hgt, e, eu], key.1, key.2.1,
          key.2.2⟩

theorem height_eq_of_shape {t s : BinaryTreeNode} (h : shapeOf t = shapeOf s) :
    height t = height s := by
  induction t generalizing s with
  | null => cases s <;> simp [shapeOf] at h ⊢
  | node a v l r p hh ihl ihr =>
      cases s with
      | null => simp [shapeOf] at h
      | node a1 v1 l1 r1 p1 h1 =>
          simp only [shapeOf, Shape.node.injEq] at h
          simp only [height, ihl h.1, ihr h.2.2.2]

/-- Every visit of the instrumented insertion is at a node of the tree given, and the
node updated there is the node that was there. -/
theorem insertHelpLog_sites {t : BinaryTreeNode} {x : Int} {c n : Nat}
    {res : BinaryTreeNode × Nat × Nat} {log : List Visit}
    (e : _insertHelpLog t x c n = some (res, log)) :
    ∀ w ∈ log, w.before ∈ nodes t ∧ ptr w.updated = ptr w.before := by
  induction t generalizing res log with
  | null =>
      simp only [_insertHelpLog, Option.some.injEq, Prod.mk.injEq] at e
      obtain ⟨-, rfl⟩ := e
      simp
  | node a v l r p h ihl ihr =>
      simp only [_insertHelpLog] at e
      split_ifs at e with h1 h2
      · rcases hl : _insertHelpLog l x c n with _ | ⟨⟨l1, c1, n1⟩, log0⟩
        · simp [hl] at e
        · simp only [hl, Option.map_eq_some', Prod.mk.injEq] at e
          obtain ⟨u, -, -, rfl⟩ := e
          intro w hw
          rcases List.mem_append.1 hw with hw | hw
          · obtain ⟨g1, g2⟩ := ihl hl w hw
            refine ⟨?_, g2⟩
            rw [nodes]
            exact List.mem_append_left _ g1
          · rw [List.mem_singleton] at hw
            subst hw
            exact ⟨mem_nodes_self _ _ _ _ _ _, rfl⟩
      · rcases hr : _insertHelpLog r x c n with _ | ⟨⟨r1, c1, n1⟩, log0⟩
        · simp [hr] at e
        · simp only [hr, Option.map_eq_some', Prod.mk.injEq] at e
          obtain ⟨u, -, -, rfl⟩ := e
          intro w hw
          rcases List.mem_append.1 hw with hw | hw
          · obtain ⟨g1, g2⟩ := ihr hr w hw
            refine ⟨?_, g2⟩
            rw [nodes]
            exact List.mem_append_right _ (List.mem_cons_of_mem _ g1)
          · rw [List.mem_singleton] at hw
            subst hw
            exact ⟨mem_nodes_self _ _ _ _ _ _, rfl⟩
      · simp only [Option.some.injEq, Prod.mk.injEq] at e
        obtain ⟨-, rfl⟩ := e
        simp

/-- The instrumented insertion on a tree built by inserts: it returns, its results are
those of `insert`, and its log has the properties of `insertHelpLog_spec`. -/
theorem insertLog_built (next : Nat) (xs : List Int) (x : Int) :
    ∃ t next1, insertAll xs (AVLTree.new, next) = some (t, next1) ∧
      ∃ t1 c1 n1 log, _insertHelpLog t._root x t._count next1 = some ((t1, c1, n1), log) ∧
        t.insert x next1 = some (⟨t1, c1⟩, n1) ∧ Avl t._root ∧ Avl t1 ∧
        Grows t._root t1 x ∧
        (∀ e ∈ log, e.Sound) ∧
        (rotations log = 0 ∨ (rotations log = 1 ∧ height t1 = height t._root)) ∧
        (∀ e ∈ log, e.rotation ≠ RotationCase.noRotation →
          ∃ m, m ∈ nodes t1 ∧ shapeOf m = shapeOf e.after) ∧
        (∀ e ∈ log, e.before ∈ nodes t._root ∧ ptr e.updated = ptr e.before) := by
  obtain ⟨s1, e, hinv, -⟩ := inv_insertAll xs (s := (AVLTree.new, next)) (inv_new next)
  obtain ⟨t1, c1, n1, log, e1, h1, h2, h3⟩ :=
    insertHelpLog_spec x s1.1._count s1.2 s1.1._root hinv.avl
  have er : _insertHelp s1.1._root x s1.1._count s1.2 = some (t1, c1, n1) := by
    rw [← insertHelpLog_fst, e1]
    rfl
  obtain ⟨t2, c2, n2, e2, g1, g2⟩ := insertHelp_avl x s1.1._count s1.2 s1.1._root hinv.avl
  rw [er] at e2
  simp only [Option.some.injEq, Prod.mk.injEq] at e2
  obtain ⟨rfl, rfl, rfl⟩ := e2
  exact ⟨s1.1, s1.2, e, t1, c1, n1, log, e1, by simp [AVLTree.insert, er], hinv.avl, g1, g2,
    h1, h2, h3, insertHelpLog_sites e1⟩

theorem ptr_leftSingleRotate {t : BinaryTreeNode} (h : rightNode t ≠ null) :
    ptr (_leftSingleRotate t) = ptr (rightNode t) ∧ _leftSingleRotate t ≠ null := by
  rcases t with _ | ⟨a, v, l, r, p, hh⟩
  · exact absurd rfl h
  · rcases r with _ | ⟨b, w, rl, rr, pb, hb⟩
    · exact absurd rfl h
    · simp [_leftSingleRotate, ptr, rightNode]

theorem ptr_rightSingleRotate {t : BinaryTreeNode} (h : leftNode t ≠ null) :
    ptr (_rightSingleRotate t) = ptr (leftNode t) ∧ _rightSingleRotate t ≠ null := by
  rcases t with _ | ⟨a, v, l, r, p, hh⟩
  · exact absurd rfl h
  · rcases l with _ | ⟨b, w, ll, lr, pb, hb⟩
    · exact absurd rfl h
    · simp [_rightSingleRotate, ptr, leftNode]

/-- C26: at most one rebalancing site per insertion.  For every tree built by inserts
and every item, the insertion returns, and among the visits of its unwind (one for each
node of the search path at which the balance factor is recomputed) a rotation branch is
entered at no more than one; a branch is entered exactly where the balance factor is
above 1 or below -1, and at every other visit the balance factor lies in [-1, 1]. -/
theorem C26_at_most_one_rebalancing_site (next : Nat) (xs : List Int) (x : Int) :
    ∃ t next1, insertAll xs (AVLTree.new, next) = some (t, next1) ∧
      ∃ t1 c1 n1 log, _insertHelpLog t._root x t._count next1 = some ((t1, c1, n1), log) ∧
        t.insert x next1 = some (⟨t1, c1⟩, n1) ∧
        rotations log ≤ 1 ∧
        ∀ e ∈ log, e.before ∈ nodes t._root ∧
          e.balanceFactor = getHeight (leftNode e.updated) - getHeight (rightNode e.updated) ∧
          (e.rotation ≠ RotationCase.noRotation ↔
            (1 < e.balanceFactor ∨ e.balanceFactor < -1)) ∧
          (e.rotation = RotationCase.noRotation →
            -1 ≤ e.balanceFactor ∧ e.balanceFactor ≤ 1) := by
  obtain ⟨t, next1, e, t1, c1, n1, log, e1, e2, -, -, -, h1, h2, -, h4⟩ :=
    insertLog_built next xs x
  refine ⟨t, next1, e, t1, c1, n1, log, e1, e2, ?_, ?_⟩
  · rcases h2 with h2 | ⟨h2, -⟩ <;> omega
  · intro w hw
    have hs := h1 w hw
    refine ⟨(h4 w hw).1, hs.1, ?_, ?_⟩
    · obtain ⟨-, hs2⟩ := hs
      rcases w with ⟨b, u, bf, cs, af⟩
      cases cs <;> simp only [ne_eq, not_true_eq_false, reduceCtorEq, not_false_eq_true,
        false_iff, true_iff, not_or, not_lt] at hs2 ⊢
      · exact ⟨hs2.2.1, hs2.1⟩
      · exact Or.inl hs2.1
      · exact Or.inl hs2.1
      · exact Or.inr hs2.1
      · exact Or.inr hs2.1
    · intro hc
      obtain ⟨-, hs2⟩ := hs
      rcases w with ⟨b, u, bf, cs, af⟩
      simp only at hc
      subst hc
      exact ⟨hs2.1, hs2.2.1⟩

/-- C27: insert never dereferences an absent child and never hits a rotation guard.
For every tree built by inserts and every item, the insertion returns; at every visit
with balance factor above 1 the left child exists, and below -1 the right child; in the
Left-Left case the right rotation moves the left child to the root; in the Left-Right
case the left child has a right child, the inner left rotation moves it to the top of
the left subtree, so the outer right rotation finds a left child, and it ends at the
root; and the mirror images hold in the Right-Right and Right-Left cases. -/
theorem C27_insert_never_hits_guard (next : Nat) (xs : List Int) (x : Int) :
    ∃ t next1, insertAll xs (AVLTree.new, next) = some (t, next1) ∧
      ∃ t1 c1 n1 log, _insertHelpLog t._root x t._count next1 = some ((t1, c1, n1), log) ∧
        t.insert x next1 = some (⟨t1, c1⟩, n1) ∧
        ∀ e ∈ log,
          (1 < e.balanceFactor → leftNode e.updated ≠ null) ∧
          (e.balanceFactor < -1 → rightNode e.updated ≠ null) ∧
          (e.rotation = RotationCase.leftLeft →
            leftNode e.updated ≠ null ∧ e.after = _rightSingleRotate e.updated ∧
              ptr e.after = ptr (leftNode e.updated)) ∧
          (e.rotation = RotationCase.leftRight →
            leftNode e.updated ≠ null ∧ rightNode (leftNode e.updated) ≠ null ∧
              ptr (_leftSingleRotate (leftNode e.updated)) =
                ptr (rightNode (leftNode e.updated)) ∧
              _leftSingleRotate (leftNode e.updated) ≠ null ∧
              e.after = _leftRightRotate e.updated ∧
              ptr e.after = ptr (rightNode (leftNode e.updated))) ∧
          (e.rotation = RotationCase.rightRight →
            rightNode e.updated ≠ null ∧ e.after = _leftSingleRotate e.updated ∧
              ptr e.after = ptr (rightNode e.updated)) ∧
          (e.rotation = RotationCase.rightLeft →
            rightNode e.updated ≠ null ∧ leftNode (rightNode e.updated) ≠ null ∧
              ptr (_rightSingleRotate (rightNode e.updated)) =
                ptr (leftNode (rightNode e.updated)) ∧
              _rightSingleRotate (rightNode e.updated) ≠ null ∧
              e.after = _rightLeftRotate e.updated ∧
              ptr e.after = ptr (leftNode (rightNode e.updated))) := by
  obtain ⟨t, next1, e, t1, c1, n1, log, e1, e2, -, -, -, h1, -, -, -⟩ :=
    insertLog_built next xs x
  refine ⟨t, next1, e, t1, c1, n1, log, e1, e2, ?_⟩
  intro w hw
  obtain ⟨-, hs2⟩ := h1 w hw
  rcases w with ⟨b, u, bf, cs, af⟩
  cases cs
  · simp only at hs2 ⊢
    refine ⟨fun h => by omega, fun h => by omega, ?_, ?_, ?_, ?_⟩ <;> intro h <;> cases h
  · simp only at hs2 ⊢
    obtain ⟨g1, g2, g3, g4, -⟩ := hs2
    refine ⟨fun _ => g2, fun h => by omega, fun _ => ⟨g2, g3, g4⟩, ?_, ?_, ?_⟩ <;>
      intro h <;> cases h
  · simp only at hs2 ⊢
    obtain ⟨g1, g2, g3, g4, g5, -⟩ := hs2
    refine ⟨fun _ => g2, fun h => by omega, ?_,
      fun _ => ⟨g2, g3, (ptr_leftSingleRotate g3).1, (ptr_leftSingleRotate g3).2, g4, g5⟩,
      ?_, ?_⟩ <;> intro h <;> cases h
  · simp only at hs2 ⊢
    obtain ⟨g1, g2, g3, g4, -⟩ := hs2
    refine ⟨fun h => by omega, fun _ => g2, ?_, ?_, fun _ => ⟨g2, g3, g4⟩, ?_⟩ <;>
      intro h <;> cases h
  · simp only at hs2 ⊢
    obtain ⟨g1, g2, g3, g4, g5, -⟩ := hs2
    refine ⟨fun h => by omega, fun _ => g2, ?_, ?_, ?_,
      fun _ => ⟨g2, g3, (ptr_rightSingleRotate g3).1, (ptr_rightSingleRotate g3).2, g4, g5⟩⟩ <;>
      intro h <;> cases h

/-- C28: insert changes the height by 0 or +1.  For every tree built by inserts and every
item, the height of the root after the insertion (recursive and stored alike) is the
height before or one more; and at every visit where a rotation was performed, the
subtree the rotation returns has the height the subtree at that node had before the
insertion, and it is found, up to addresses and parent links, in the tree after the
insertion. -/
theorem C28_insert_height_change (next : Nat) (xs : List Int) (x : Int) :
    ∃ t next1, insertAll xs (AVLTree.new, next) = some (t, next1) ∧
      ∃ t1 c1 n1 log, _insertHelpLog t._root x t._count next1 = some ((t1, c1, n1), log) ∧
        t.insert x next1 = some (⟨t1, c1⟩, n1) ∧
        (height t1 = height t._root ∨ height t1 = height t._root + 1) ∧
        getHeight t._root = height t._root ∧ getHeight t1 = height t1 ∧
        ∀ e ∈ log, e.rotation ≠ RotationCase.noRotation →
          e.before ∈ nodes t._root ∧ height e.after = height e.before ∧
            ∃ m, m ∈ nodes t1 ∧ shapeOf m = shapeOf e.after ∧ height m = height e.before := by
  obtain ⟨t, next1, e, t1, c1, n1, log, e1, e2, ha, ha1, hg, h1, -, h3, h4⟩ :=
    insertLog_built next xs x
  refine ⟨t, next1, e, t1, c1, n1, log, e1, e2, hg.1, getHeight_eq_height ha,
    getHeight_eq_height ha1, ?_⟩
  intro w hw hr
  have hh := (h1 w hw).height_eq hr
  obtain ⟨m, hm, hshape⟩ := h3 w hw hr
  exact ⟨(h4 w hw).1, hh, m, hm, hshape, (height_eq_of_shape hshape).trans hh⟩

/-- The instrumented insertion evaluated: inserting 20 after 30 and 10 visits the node of
10 without rotation and the node of 30 with balance factor 2 in the Left-Right case,
which brings 20 to the root; inserting 50 into the nine-item tree of
`test_predecessor_successor_structural` rotates once, at the node of 40. -/
theorem scenario_insert_log :
    ((insertAll [30, 10] (AVLTree.new, 0)).bind (fun s =>
        (_insertHelpLog s.1._root 20 s.1._count s.2).map (fun r =>
          r.2.map (fun e => (item e.before, e.balanceFactor, e.rotation, item e.after)))) =
      some [(some 10, -1, RotationCase.noRotation, some 10),
        (some 30, 2, RotationCase.leftRight, some 20)]) ∧
    ((insertAll [20, 10, 30, 5, 15, 25, 40, 17, 45] (AVLTree.new, 0)).bind (fun s =>
        (_insertHelpLog s.1._root 50 s.1._count s.2).map (fun r =>
          (r.2.map (fun e => (item e.before, e.balanceFactor, e.rotation, item e.after)),
            rotations r.2))) =
      some ([(some 45, -1, RotationCase.noRotation, some 45),
        (some 40, -2, RotationCase.rightRight, some 45),
        (some 30, -1, RotationCase.noRotation, some 30),
        (some 20, 0, RotationCase.noRotation, some 20)], 1)) := by
  constructor
  · decide
  · rfl

end AVL
